import Mathlib

/-! go-yandex-metrics: storage, connect-with-retry, legacy handler, wire codec

A shallow embedding of the parts of the repository that the specification
makes claims about:

* `internal/app/server/repositories/store/memstore.go` (memory backend),
* `internal/app/server/repositories/store/pg/init.go` and `store.go`
  (connect-with-retry, transactional batch),
* `internal/handlers/server.go` (legacy single-metric handler),
* `internal/app/agent/metrics/metrics_easyjson.go` (wire encoder and decoder).

Conventions.  A Go `int64` is an `Int` together with `wrapInt64`, the
two's-complement reduction that Go's `+` performs.  A Go `float64` is only
ever stored and copied by the code of the repository, never computed with, so
it is represented by its 64-bit pattern; `strconv`, which writes and parses
it, reads the pattern as sign, exponent and mantissa.  A Go `map[string]V` is a
partial function `String → Option V`.  A Go `(value, error)` pair is an
`Except` or a pair with an optional error.
-/

/-! ## Machine types -/

/-- Smallest `int64`. -/
def minInt64 : Int := -9223372036854775808

/-- Largest `int64`. -/
def maxInt64 : Int := 9223372036854775807

/-- Membership in the range of Go's `int64`. -/
def InInt64 (x : Int) : Prop := minInt64 ≤ x ∧ x ≤ maxInt64

instance (x : Int) : Decidable (InInt64 x) := by
  unfold InInt64; exact inferInstance

/-- Two's-complement reduction of an integer to `int64`: what Go's `int64`
arithmetic yields for a mathematical result `x`. -/
def wrapInt64 (x : Int) : Int :=
  (x + 9223372036854775808) % 18446744073709551616 - 9223372036854775808

/-- A Go `float64`, represented by its IEEE-754 bit pattern. -/
structure Float64 where
  bits : Nat
  deriving DecidableEq, Repr

/-- A Go `map[string]V`. -/
abbrev GoMap (V : Type) := String → Option V

namespace GoMap

/-- The result of `make(map[string]V, n)`: no key is present. -/
def empty {V : Type} : GoMap V := fun _ => none

/-- The assignment `m[k] = v`. -/
def set {V : Type} (m : GoMap V) (k : String) (v : V) : GoMap V :=
  fun k' => if k' = k then some v else m k'

/-- The one-value read `m[k]`: the zero value when the key is absent. -/
def getD {V : Type} (m : GoMap V) (k : String) (zero : V) : V :=
  (m k).getD zero

end GoMap

/-! ## `package models`: the batch item -/

namespace models

/-- The `models.Metrics` batch item, as both `UpdateBatchMetrics` methods read
it: `Delta` and `Value` are pointers (`*int64`, `*float64`), `none` being
`nil`. -/
structure Metrics where
  ID : String
  MType : String
  Delta : Option Int
  Value : Option Float64
  deriving DecidableEq, Repr

end models

/-! ## `package store`: the memory backend -/

namespace store

/-- The `MemStorage` struct: a counter map and a gauge map (the mutex guards
the sequential semantics modelled here and carries no data). -/
structure MemStorage where
  Counter : GoMap Int
  Gauge : GoMap Float64

/-- The constructor `NewMemStorage`: two empty maps. -/
def NewMemStorage : MemStorage :=
  { Counter := GoMap.empty, Gauge := GoMap.empty }

namespace MemStorage

/-- `UpdateCounter`: `ms.Counter[name] += Counter(value)`, then return the
stored total and a nil error.  The new state is the first component. -/
def UpdateCounter (ms : MemStorage) (name : String) (value : Int) :
    MemStorage × Except String Int :=
  let ms1 : MemStorage :=
    { ms with Counter := ms.Counter.set name (wrapInt64 (ms.Counter.getD name 0 + value)) }
  (ms1, Except.ok (ms1.Counter.getD name 0))

/-- `UpdateGauge`: `ms.Gauge[name] = Gauge(value)`, then return the stored
value and a nil error. -/
def UpdateGauge (ms : MemStorage) (name : String) (value : Float64) :
    MemStorage × Except String Float64 :=
  let ms1 : MemStorage := { ms with Gauge := ms.Gauge.set name value }
  (ms1, Except.ok (ms1.Gauge.getD name ⟨0⟩))

/-- `GetCounter`: the two-value read `value, ok := ms.Counter[metric]`. -/
def GetCounter (ms : MemStorage) (metric : String) : Except String Int :=
  match ms.Counter metric with
  | none => Except.error (metric ++ " does not exists")
  | some value => Except.ok value

/-- `GetGauge`: the two-value read `value, ok := ms.Gauge[metric]`. -/
def GetGauge (ms : MemStorage) (metric : String) : Except String Float64 :=
  match ms.Gauge metric with
  | none => Except.error (metric ++ " does not exists")
  | some value => Except.ok value

/-- The total a counter holds before an update: the value `GetCounter`
returns, and 0 when it returns an error (the name is absent). -/
def priorTotal (ms : MemStorage) (name : String) : Int :=
  match ms.GetCounter name with
  | Except.ok value => value
  | Except.error _ => 0

/-- The dynamic values `GetAllMetrics` puts behind `interface{}`: the counter
map or the gauge map. -/
inductive AnyMap where
  | counters (m : GoMap Int)
  | gauges (m : GoMap Float64)

/-- `GetAllMetrics`: a fresh map with `all["counter"] = ms.Counter` and
`all["gauge"] = ms.Gauge`, and a nil error. -/
def GetAllMetrics (ms : MemStorage) : Except String (GoMap AnyMap) :=
  let all : GoMap AnyMap := GoMap.empty
  let all := all.set "counter" (AnyMap.counters ms.Counter)
  let all := all.set "gauge" (AnyMap.gauges ms.Gauge)
  Except.ok all

end MemStorage

/-- How a call ends: it returns a value, or it faults (a Go run-time panic). -/
inductive Outcome (α : Type) where
  | returned (a : α)
  | panicked (msg : String)
  deriving DecidableEq, Repr

namespace MemStorage

/-- `UpdateBatchMetrics`: the `for i := range metrics` loop with its `switch`
on `MType`.  `*metrics[i].Value` and `*metrics[i].Delta` dereference a
pointer: on `nil` the call faults, the writes made so far staying in the maps.
The returned error is always nil (`none`). -/
def UpdateBatchMetrics (ms : MemStorage) :
    List models.Metrics → MemStorage × Outcome (Option String)
  | [] => (ms, Outcome.returned none)
  | m :: rest =>
    if m.MType = "gauge" then
      match m.Value with
      | none => (ms, Outcome.panicked "invalid memory address or nil pointer dereference")
      | some v => UpdateBatchMetrics { ms with Gauge := ms.Gauge.set m.ID v } rest
    else if m.MType = "counter" then
      match m.Delta with
      | none => (ms, Outcome.panicked "invalid memory address or nil pointer dereference")
      | some d =>
        UpdateBatchMetrics
          { ms with Counter := ms.Counter.set m.ID (wrapInt64 (ms.Counter.getD m.ID 0 + d)) }
          rest
    else UpdateBatchMetrics ms rest

end MemStorage

/-- One mutating call on the store. -/
inductive Call where
  | UpdateCounter (name : String) (value : Int)
  | UpdateGauge (name : String) (value : Float64)
  | UpdateBatchMetrics (metrics : List models.Metrics)

/-- The store after one call. -/
def Call.run (ms : MemStorage) : Call → MemStorage
  | Call.UpdateCounter name value => (ms.UpdateCounter name value).1
  | Call.UpdateGauge name value => (ms.UpdateGauge name value).1
  | Call.UpdateBatchMetrics metrics => (ms.UpdateBatchMetrics metrics).1

/-- The store after a sequence of calls, first call first. -/
def runCalls (ms : MemStorage) (calls : List Call) : MemStorage :=
  calls.foldl Call.run ms

/-- A batch item that the loop can apply: a "gauge" item carries a value and
a "counter" item carries a delta (other kinds need nothing). -/
def wellFormed (m : models.Metrics) : Bool :=
  (m.MType != "gauge" || m.Value.isSome) && (m.MType != "counter" || m.Delta.isSome)

/-- The items of a batch that the loop reaches and applies: those before the
first item that is not well formed. -/
def appliedItems (metrics : List models.Metrics) : List models.Metrics :=
  metrics.takeWhile wellFormed

/-- The deltas that a batch item writes to the counter `name`. -/
def itemDeltas (name : String) (m : models.Metrics) : List Int :=
  if m.MType = "counter" ∧ m.ID = name then m.Delta.toList else []

/-- The values that a batch item writes to the gauge `name`. -/
def itemValues (name : String) (m : models.Metrics) : List Float64 :=
  if m.MType = "gauge" ∧ m.ID = name then m.Value.toList else []

/-- The deltas that a call writes to the counter `name`, in order. -/
def Call.deltas (name : String) : Call → List Int
  | Call.UpdateCounter n value => if n = name then [value] else []
  | Call.UpdateGauge _ _ => []
  | Call.UpdateBatchMetrics metrics => (appliedItems metrics).flatMap (itemDeltas name)

/-- The values that a call writes to the gauge `name`, in order. -/
def Call.values (name : String) : Call → List Float64
  | Call.UpdateCounter _ _ => []
  | Call.UpdateGauge n value => if n = name then [value] else []
  | Call.UpdateBatchMetrics metrics => (appliedItems metrics).flatMap (itemValues name)

/-- The content of one counter slot after the deltas `ds` are added to it one
after the other, each addition creating the slot at the zero value if absent
and wrapping as `int64` addition does. -/
def accumulate (slot : Option Int) (ds : List Int) : Option Int :=
  ds.foldl (fun c d => some (wrapInt64 (c.getD 0 + d))) slot

/-- The content of one gauge slot after the values `vs` are assigned to it one
after the other. -/
def overwrite (slot : Option Float64) (vs : List Float64) : Option Float64 :=
  vs.foldl (fun _ v => some v) slot

/-- The per-item reading of a batch: `UpdateGauge(id, value)` for a "gauge"
item, `UpdateCounter(id, delta)` for a "counter" item, nothing for any other
kind (or for an item that lacks the field its kind needs). -/
def applyItem (ms : MemStorage) (m : models.Metrics) : MemStorage :=
  if m.MType = "gauge" then
    match m.Value with
    | some v => (ms.UpdateGauge m.ID v).1
    | none => ms
  else if m.MType = "counter" then
    match m.Delta with
    | some d => (ms.UpdateCounter m.ID d).1
    | none => ms
  else ms

/-- The per-item reading of a whole batch, in submission order. -/
def applyItems (ms : MemStorage) (metrics : List models.Metrics) : MemStorage :=
  metrics.foldl applyItem ms

end store

/-! ## `package pg`: connect-with-retry and the transactional batch -/

namespace pg

/-- How a `ConnectToDB` call ends. -/
inductive ConnectResult (C E : Type) where
  | connected (connection : C)
  | failed (err : E)
  | indexOutOfRange (index : Int)
  | outOfFuel
  deriving DecidableEq, Repr

/-- What a `ConnectToDB` call did: its result, the number of `OpenDB` calls it
made, and the arguments (in seconds) of its `time.Sleep` calls, in order. -/
structure ConnectRun (C E : Type) where
  result : ConnectResult C E
  attempts : Nat
  sleeps : List Nat
  deriving DecidableEq, Repr

/-- The array `backoff := [3]int{1, 3, 5}`. -/
def backoff : List Nat := [1, 3, 5]

/-- The `for` loop of `ConnectToDB`.  `OpenDB i` is the outcome of the call
number `i` (from 0) of `OpenDB(dsn)`; `cnt` is the variable of that name,
`attempts` and `sleeps` record what has been done so far.  Indexing
`backoff[cnt-1]` outside the array is a run-time fault. -/
def ConnectToDB.loop {C E : Type} (OpenDB : Nat → Except E C) :
    Nat → Nat → Nat → List Nat → ConnectRun C E
  | 0, _, attempts, sleeps => ⟨ConnectResult.outOfFuel, attempts, sleeps⟩
  | fuel + 1, cnt, attempts, sleeps =>
    match OpenDB attempts with
    | Except.ok connection => ⟨ConnectResult.connected connection, attempts + 1, sleeps⟩
    | Except.error err =>
      let cnt := cnt + 1
      if cnt > 3 then ⟨ConnectResult.failed err, attempts + 1, sleeps⟩
      else
        match backoff.get? (cnt - 1) with
        | none => ⟨ConnectResult.indexOutOfRange ((cnt : Int) - 1), attempts + 1, sleeps⟩
        | some seconds => ConnectToDB.loop OpenDB fuel cnt (attempts + 1) (sleeps ++ [seconds])

/-- `ConnectToDB`: the loop started with `cnt = 0`, run for at most `fuel`
iterations. -/
def ConnectToDB {C E : Type} (OpenDB : Nat → Except E C) (fuel : Nat) : ConnectRun C E :=
  ConnectToDB.loop OpenDB fuel 0 0 []

/-- The two upsert statements of `Store.UpdateBatchMetrics` with their
arguments; the second argument is the pointer the code passes (`nil` is
`none`). -/
inductive Upsert where
  | gauge (name : String) (value : Option Float64)
  | counter (name : String) (delta : Option Int)
  deriving DecidableEq, Repr

/-- The `database/sql` operations `Store.UpdateBatchMetrics` calls, acting on
a state `σ` of the connection and database; each gives the state after the
call and the error it returns (`none` is nil). -/
structure Driver (σ : Type) where
  BeginTx : σ → σ × Option String
  ExecContext : Upsert → σ → σ × Option String
  Commit : σ → σ × Option String
  Rollback : σ → σ × Option String

/-- A `database/sql` call made by `Store.UpdateBatchMetrics`. -/
inductive SqlCall where
  | BeginTx
  | ExecContext (stmt : Upsert)
  | Commit
  | Rollback
  deriving DecidableEq, Repr

/-- What a `Store.UpdateBatchMetrics` call did: the state it leaves, the error
it returns, the `database/sql` calls it made in order, and the errors it
logged in order. -/
structure BatchRun (σ : Type) where
  state : σ
  err : Option String
  calls : List SqlCall
  logged : List String

namespace Store

/-- The `for i := range metrics` loop of `Store.UpdateBatchMetrics`: a "gauge"
or "counter" item executes its upsert, and an error of that execution is
logged and nothing else; any other kind executes nothing.  The result is the
state after the loop with the calls and log lines of the loop. -/
def UpdateBatchMetrics.loop {σ : Type} (d : Driver σ) :
    List models.Metrics → σ → σ × List SqlCall × List String
  | [], s => (s, [], [])
  | m :: rest, s =>
    if m.MType = "gauge" then
      let r := d.ExecContext (Upsert.gauge m.ID m.Value) s
      let t := UpdateBatchMetrics.loop d rest r.1
      (t.1, SqlCall.ExecContext (Upsert.gauge m.ID m.Value) :: t.2.1, r.2.toList ++ t.2.2)
    else if m.MType = "counter" then
      let r := d.ExecContext (Upsert.counter m.ID m.Delta) s
      let t := UpdateBatchMetrics.loop d rest r.1
      (t.1, SqlCall.ExecContext (Upsert.counter m.ID m.Delta) :: t.2.1, r.2.toList ++ t.2.2)
    else UpdateBatchMetrics.loop d rest s

/-- `Store.UpdateBatchMetrics`: `BeginTx`, returning its error at once; the
loop; `return tx.Commit()`; then the deferred `tx.Rollback()`, whose result is
dropped. -/
def UpdateBatchMetrics {σ : Type} (d : Driver σ) (metrics : List models.Metrics) (s : σ) :
    BatchRun σ :=
  let b := d.BeginTx s
  match b.2 with
  | some err => ⟨b.1, some err, [SqlCall.BeginTx], []⟩
  | none =>
    let t := UpdateBatchMetrics.loop d metrics b.1
    let c := d.Commit t.1
    let r := d.Rollback c.1
    ⟨r.1, c.2, [SqlCall.BeginTx] ++ t.2.1 ++ [SqlCall.Commit, SqlCall.Rollback], t.2.2⟩

end Store

/-- A small database state for exercising a driver: the upserts committed so
far, the upserts of the open transaction, and whether that transaction has
been aborted by a failed statement. -/
structure ToyDB where
  committed : List Upsert
  pending : List Upsert
  aborted : Bool
  deriving DecidableEq, Repr

/-- A statement the tables reject: a NULL for a NOT NULL column. -/
def Upsert.hasNull : Upsert → Bool
  | Upsert.gauge _ value => value.isNone
  | Upsert.counter _ delta => delta.isNone

/-- The connection the package opens (`sql.Open("pgx", dsn)`, PostgreSQL),
with PostgreSQL's transaction rule: a failed statement aborts the transaction,
every later statement of it fails, and `Commit` of an aborted transaction
rolls it back and returns an error.  Here a statement fails when it puts a
NULL into a NOT NULL column. -/
def abortingDriver : Driver ToyDB where
  BeginTx := fun s => ({ s with pending := [], aborted := false }, none)
  ExecContext := fun stmt s =>
    if s.aborted then (s, some "current transaction is aborted")
    else if stmt.hasNull then
      ({ s with aborted := true }, some "null value violates not-null constraint")
    else ({ s with pending := s.pending ++ [stmt] }, none)
  Commit := fun s =>
    if s.aborted then
      ({ s with pending := [], aborted := false },
        some "commit unexpectedly resulted in rollback")
    else ({ committed := s.committed ++ s.pending, pending := [], aborted := false }, none)
  Rollback := fun s =>
    ({ s with pending := [], aborted := false },
      some "sql: transaction has already been committed or rolled back")

/-- The upsert that the loop executes for a batch item, `none` for an item
whose kind is neither "gauge" nor "counter". -/
def upsertOf (m : models.Metrics) : Option Upsert :=
  if m.MType = "gauge" then some (Upsert.gauge m.ID m.Value)
  else if m.MType = "counter" then some (Upsert.counter m.ID m.Delta)
  else none

end pg

/-! ## `package handlers`: the legacy single-metric handler -/

namespace handlers

/-- The part of `*http.Request` that `PostMetrics` reads: the method and the
text `r.URL.String()`. -/
structure Request where
  Method : String
  URL : String
  deriving DecidableEq, Repr

/-- The constant `http.MethodPost`. -/
def MethodPost : String := "POST"

/-- The constant `http.StatusBadRequest`. -/
def StatusBadRequest : Nat := 400

/-- The constant `http.StatusNotFound`. -/
def StatusNotFound : Nat := 404

/-- The constant `http.StatusMethodNotAllowed`. -/
def StatusMethodNotAllowed : Nat := 405

/-- The constant `http.StatusOK`, the status of a response on which the
handler never called `WriteHeader`. -/
def StatusOK : Nat := 200

/-- The scan of `strings.Split` for a one-character separator: `cur` holds the
characters of the current part, last first. -/
def splitAux (sep : Char) : List Char → List Char → List (List Char)
  | [], cur => [cur.reverse]
  | c :: cs, cur =>
    if c = sep then cur.reverse :: splitAux sep cs [] else splitAux sep cs (c :: cur)

/-- `strings.Split(s, sep)` for a one-character `sep`: the parts between the
occurrences of `sep`, one more than there are occurrences. -/
def Split (s : String) (sep : Char) : List String :=
  (splitAux sep s.data []).map String.mk

/-- The value of a decimal digit, `none` for any other character. -/
def digitValue (c : Char) : Option Nat :=
  if 48 ≤ c.toNat ∧ c.toNat ≤ 57 then some (c.toNat - 48) else none

/-- The constant `maxUint64`. -/
def maxUint64 : Nat := 18446744073709551615

/-- The digit loop of `strconv.ParseUint(s, 10, 64)`, `n` being the value
read so far: a character that is no decimal digit is a syntax error, and a
value that leaves `uint64` is a range error; both are `none`. -/
def parseUintLoop : List Char → Nat → Option Nat
  | [], n => some n
  | c :: cs, n =>
    match digitValue c with
    | none => none
    | some v =>
      if n ≥ maxUint64 / 10 + 1 then none
      else
        let n1 := n * 10
        let n2 := n1 + v
        if n2 > maxUint64 then none else parseUintLoop cs n2

/-- `strconv.ParseUint(s, 10, 64)`: `none` when it returns an error. -/
def ParseUint (s : List Char) : Option Nat :=
  match s with
  | [] => none
  | _ => parseUintLoop s 0

/-- `strconv.ParseInt(s, 10, 64)`: an optional sign, then `ParseUint`, then
the check against the `int64` range; `none` when it returns an error. -/
def ParseInt (s : String) : Option Int :=
  match s.data with
  | [] => none
  | c :: cs =>
    let neg := decide (c = Char.ofNat 45)
    let rest := if c = Char.ofNat 43 ∨ c = Char.ofNat 45 then cs else c :: cs
    match ParseUint rest with
    | none => none
    | some un =>
      let cutoff : Nat := 9223372036854775808
      if !neg && un ≥ cutoff then none
      else if neg && un > cutoff then none
      else some (if neg then -(un : Int) else (un : Int))

/-- The dynamic values `typeMetric` returns behind `interface{}`. -/
inductive Dyn where
  | int64 (i : Int)
  | float64 (f : Float64)
  | string (s : String)
  deriving DecidableEq, Repr

/-- `parseURL`: split the URL at "/", fail when there are fewer than five
parts, otherwise put parts 2, 3 and 4 under "type", "name" and "value". -/
def parseURL (r : Request) : GoMap String × Option String :=
  let metric : GoMap String := GoMap.empty
  let slice := Split r.URL (Char.ofNat 47)
  if slice.length < 5 then (metric, some "Wrong URL")
  else
    let metric := metric.set "type" (slice.getD 2 "")
    let metric := metric.set "name" (slice.getD 3 "")
    let metric := metric.set "value" (slice.getD 4 "")
    (metric, none)

/-- `typeMetric`: the integer when `ParseInt` succeeds, else the float when
`ParseFloat` succeeds, else the empty string.  `ParseFloat` stands for
`strconv.ParseFloat(s, 64)`, `none` when it returns an error. -/
def typeMetric (ParseFloat : String → Option Float64) (s : String) : Dyn :=
  match ParseInt s with
  | some i => Dyn.int64 i
  | none =>
    match ParseFloat s with
    | some f => Dyn.float64 f
    | none => Dyn.string ""

/-- `PostMetrics`: the status passed to `w.WriteHeader`, `none` when the
handler returns without calling it. -/
def PostMetrics (ParseFloat : String → Option Float64) (r : Request) : Option Nat :=
  if r.Method ≠ MethodPost then some StatusMethodNotAllowed
  else
    let p := parseURL r
    match p.2 with
    | some _ => some StatusBadRequest
    | none =>
      let metric := p.1
      if metric.getD "name" "" = "" then some StatusNotFound
      else
        match typeMetric ParseFloat (metric.getD "value" "") with
        | Dyn.int64 _ =>
          if metric.getD "type" "" = "gauge" then some StatusBadRequest else none
        | Dyn.float64 _ =>
          if metric.getD "type" "" = "counter" then some StatusBadRequest else none
        | Dyn.string _ => some StatusBadRequest

/-- The status the client sees: the one written, or 200 when none was. -/
def responseStatus (written : Option Nat) : Nat :=
  written.getD StatusOK

/-- The parts of the URL as `parseURL` splits it. -/
def urlParts (r : Request) : List String :=
  Split r.URL (Char.ofNat 47)

/-- The decision order of the specification for the legacy handler, on the
parts of the URL: 405 for a method other than POST, then 400 for fewer than
five parts, then 404 for an empty name, then 400 for a value that is neither
an integer nor a float, then 400 for an integer sent as "gauge" or a float
sent as "counter", and 200 otherwise. -/
def specStatus (ParseFloat : String → Option Float64) (r : Request) : Nat :=
  let parts := urlParts r
  let kind := parts.getD 2 ""
  let name := parts.getD 3 ""
  let value := parts.getD 4 ""
  if r.Method ≠ "POST" then 405
  else if parts.length < 5 then 400
  else if name = "" then 404
  else if (ParseInt value).isNone ∧ (ParseFloat value).isNone then 400
  else if (ParseInt value).isSome ∧ kind = "gauge" then 400
  else if (ParseInt value).isNone ∧ (ParseFloat value).isSome ∧ kind = "counter" then 400
  else 200

end handlers

/-! ## `package metrics`: the generated wire encoder -/

namespace jwriter

/-- A call on `jwriter.Writer` made by the generated encoder: the chunk it
appends to the output buffer. -/
inductive Op where
  | rawByte (c : Char)
  | rawString (s : String)
  | string (s : String)
  | int64 (n : Int)
  | float64 (f : Float64)
  deriving DecidableEq, Repr

end jwriter

namespace metrics

/-- The `RequestMetric` struct as the generated codec reads and writes it:
`Delta` and `Value` are plain values, not pointers. -/
structure RequestMetric where
  ID : String
  MType : String
  Delta : Int
  Value : Float64
  deriving DecidableEq, Repr

/-- The Go slice expression `s[1:]` on a string constant. -/
def dropFirst (s : String) : String := String.mk (s.data.drop 1)

/-- The encoder of one `RequestMetric`: the writer calls it makes, in order.
Every call is made unconditionally. -/
def easyjson2220f231EncodeGithubComWebkimruGoYandexMetricsInternalAppAgentMetrics1
    (v : RequestMetric) : List jwriter.Op :=
  [ jwriter.Op.rawByte (Char.ofNat 123),
    jwriter.Op.rawString (dropFirst ",\"id\":"),
    jwriter.Op.string v.ID,
    jwriter.Op.rawString ",\"type\":",
    jwriter.Op.string v.MType,
    jwriter.Op.rawString ",\"delta\":",
    jwriter.Op.int64 v.Delta,
    jwriter.Op.rawString ",\"value\":",
    jwriter.Op.float64 v.Value,
    jwriter.Op.rawByte (Char.ofNat 125) ]

/-- `RequestMetric.MarshalJSON`: a fresh writer, the encoder, then the buffer
and the writer's error, which no call of the encoder sets. -/
def RequestMetric.MarshalJSON (v : RequestMetric) : List jwriter.Op × Option String :=
  (easyjson2220f231EncodeGithubComWebkimruGoYandexMetricsInternalAppAgentMetrics1 v, none)

/-- The object key that a raw chunk writes: the text between the quotes of
a chunk of the shape `"key":` or `,"key":`. -/
def keyOfRaw (s : String) : Option String :=
  let cs := s.data
  let cs := if cs.head? = some (Char.ofNat 44) then cs.drop 1 else cs
  if cs.head? = some (Char.ofNat 34) ∧ cs.getLast? = some (Char.ofNat 58)
      ∧ cs.dropLast.getLast? = some (Char.ofNat 34) ∧ 3 ≤ cs.length then
    some (String.mk ((cs.drop 1).dropLast.dropLast))
  else none

/-- The keys of the JSON object in a buffer, in the order written. -/
def objectKeys (buf : List jwriter.Op) : List String :=
  buf.filterMap fun op =>
    match op with
    | jwriter.Op.rawString s => keyOfRaw s
    | _ => none

end metrics

/-! ## `strconv`: parsing with the value returned beside an error -/

namespace strconv

/-- The two errors of `strconv`: `ErrSyntax` and `ErrRange`. -/
inductive NumError where
  | ErrSyntax
  | ErrRange
  deriving DecidableEq, Repr

/-- The digit loop of `strconv.ParseUint(s, 10, 64)` with both results: a
character that is no decimal digit gives 0 and `ErrSyntax`, a value that
leaves `uint64` gives the largest `uint64` and `ErrRange`. -/
def parseUintValue : List Char → Nat → Nat × Option NumError
  | [], n => (n, none)
  | c :: cs, n =>
    match handlers.digitValue c with
    | none => (0, some NumError.ErrSyntax)
    | some v =>
      if n ≥ handlers.maxUint64 / 10 + 1 then (handlers.maxUint64, some NumError.ErrRange)
      else if n * 10 + v > handlers.maxUint64 then
        (handlers.maxUint64, some NumError.ErrRange)
      else parseUintValue cs (n * 10 + v)

/-- `strconv.ParseUint(s, 10, 64)` with both results. -/
def ParseUintValue (s : List Char) : Nat × Option NumError :=
  match s with
  | [] => (0, some NumError.ErrSyntax)
  | _ => parseUintValue s 0

/-- `strconv.ParseInt(s, 10, 64)` with both results: the value is 0 beside
`ErrSyntax` and the nearest `int64` beside `ErrRange`. -/
def ParseIntValue (s : String) : Int × Option NumError :=
  match s.data with
  | [] => (0, some NumError.ErrSyntax)
  | c :: cs =>
    let neg := decide (c = Char.ofNat 45)
    let rest := if c = Char.ofNat 43 ∨ c = Char.ofNat 45 then cs else c :: cs
    let u := ParseUintValue rest
    if u.2 = some NumError.ErrSyntax then (0, some NumError.ErrSyntax)
    else if !neg && u.1 ≥ 9223372036854775808 then
      (9223372036854775807, some NumError.ErrRange)
    else if neg && u.1 > 9223372036854775808 then
      (-9223372036854775808, some NumError.ErrRange)
    else (if neg then -(u.1 : Int) else (u.1 : Int), none)

/-! ### `strconv.ParseFloat`

The parse is given by its contract: the float nearest to the decimal number
written, the one with the even mantissa of two equally near.  A float is
handled by its bits without the sign, in whose order the non-negative floats
are ordered, and by its value as a multiple of 2^-1074, the smallest positive
float. -/

/-- The bits of `+Inf`: the exponent field all ones, the mantissa field 0. -/
def infBits : Nat := 9218868437227405312

/-- The bits of the NaN that `math.NaN()` returns. -/
def nanBits : Nat := 9221120237041090561

/-- The float is finite: a pattern of 64 bits whose exponent field is not all
ones, which is neither a NaN nor an infinity. -/
def IsFinite (f : Float64) : Prop :=
  f.bits < 18446744073709551616 ∧ f.bits / 4503599627370496 % 2048 ≠ 2047

instance (f : Float64) : Decidable (IsFinite f) := by
  unfold IsFinite; exact inferInstance

/-- The value, multiplied by 2^1074, of the non-negative float with the bits
`b`: the mantissa field for a subnormal, and the mantissa field with the
implicit bit, shifted by the exponent field, otherwise. -/
def scaled (b : Nat) : Nat :=
  if b / 4503599627370496 = 0 then b % 4503599627370496
  else (4503599627370496 + b % 4503599627370496) * 2 ^ (b / 4503599627370496 - 1)

/-- The largest bits from `acc` on and below `acc + 2^i` of a float that is at
most `x / den / 2^1074`, found bit by bit; the floats are ordered as their
bits are. -/
def floorBits (x den : Nat) : Nat → Nat → Nat
  | 0, acc => acc
  | i + 1, acc =>
    if scaled (acc + 2 ^ i) * den ≤ x then floorBits x den i (acc + 2 ^ i)
    else floorBits x den i acc

/-- The bits of the float nearest to `num / den`, the one with the even
mantissa when two are equally near, and the bits of `+Inf` when that float
would be 2^1024 or more: the rounding of `ParseFloat`. -/
def nearest (num den : Nat) : Nat :=
  if scaled infBits * den ≤ num * 2 ^ 1074 then infBits
  else
    let b := floorBits (num * 2 ^ 1074) den 63 0
    if 2 * (num * 2 ^ 1074) < (scaled b + scaled (b + 1)) * den then b
    else if (scaled b + scaled (b + 1)) * den < 2 * (num * 2 ^ 1074) then b + 1
    else if b % 2 = 0 then b else b + 1

/-- The bits of the float nearest to `m` times the power `e` of 10. -/
def nearestDecimal (m : Nat) (e : Int) : Nat :=
  nearest (m * 10 ^ e.toNat) (10 ^ (-e).toNat)

/-- The mantissa loop of `readFloat`: the digits read as one number, the number
of digits after the dot, whether a digit was seen, and the input left.  The
loop ends at a second dot and at any other character. -/
def readMantissa : List Char → Nat → Nat → Bool → Bool → Nat × Nat × Bool × List Char
  | [], m, frac, _, sawdigits => (m, frac, sawdigits, [])
  | c :: cs, m, frac, sawdot, sawdigits =>
    if c = '.' then
      if sawdot then (m, frac, sawdigits, c :: cs)
      else readMantissa cs m frac true sawdigits
    else
      match handlers.digitValue c with
      | some v => readMantissa cs (m * 10 + v) (if sawdot then frac + 1 else frac) sawdot true
      | none => (m, frac, sawdigits, c :: cs)

/-- The exponent loop of `readFloat`: the digits are added while the value is
below 10000. -/
def readExponent : List Char → Nat → Nat × List Char
  | [], e => (e, [])
  | c :: cs, e =>
    match handlers.digitValue c with
    | some v => readExponent cs (if e < 10000 then e * 10 + v else e)
    | none => (e, c :: cs)

/-- The function `readFloat` after the sign, on a decimal text: the digits as
one number, the power of 10 that goes with it, and the input left; `none` when
no number is read. -/
def readDigits (body : List Char) : Option (Nat × Int × List Char) :=
  let r := readMantissa body 0 0 false false
  if r.2.2.1 = false then none
  else
    match r.2.2.2 with
    | [] => some (r.1, -(r.2.1 : Int), [])
    | x :: rest =>
      if x = 'e' ∨ x = 'E' then
        match rest with
        | [] => none
        | y :: rest1 =>
          let digits := if y = '+' ∨ y = '-' then rest1 else y :: rest1
          match digits with
          | [] => none
          | d :: _ =>
            if (handlers.digitValue d).isSome then
              let q := readExponent digits 0
              some (r.1, (if y = '-' then -(q.1 : Int) else (q.1 : Int)) - (r.2.1 : Int), q.2)
            else none
      else some (r.1, -(r.2.1 : Int), x :: rest)

/-- The function `readFloat` on a decimal text: the sign, then `readDigits`. -/
def readFloat (s : List Char) : Option (Bool × Nat × Int × List Char) :=
  match s with
  | [] => none
  | c :: cs =>
    (readDigits (if c = '+' ∨ c = '-' then cs else c :: cs)).map fun p => (decide (c = '-'), p)

/-- The length of the longest common start of `s`, letter case ignored, and
`w`. -/
def commonPrefixLenIgnoreCase : List Char → List Char → Nat
  | c :: cs, w :: ws => if c.toLower = w then commonPrefixLenIgnoreCase cs ws + 1 else 0
  | _, _ => 0

/-- The function `special`: the infinities and NaN by name, with the input
left. -/
def special (s : List Char) : Option (Float64 × List Char) :=
  match s with
  | [] => none
  | c :: cs =>
    if c = '+' ∨ c = '-' ∨ c = 'i' ∨ c = 'I' then
      let t := if c = '+' ∨ c = '-' then cs else c :: cs
      let n := commonPrefixLenIgnoreCase t "infinity".data
      let n1 := if 3 < n ∧ n < 8 then 3 else n
      if n1 = 3 ∨ n1 = 8 then
        some (⟨if c = '-' then 9223372036854775808 + infBits else infBits⟩, t.drop n1)
      else none
    else if c = 'n' ∨ c = 'N' then
      if commonPrefixLenIgnoreCase (c :: cs) "nan".data = 3 then some (⟨nanBits⟩, cs.drop 2)
      else none
    else none

/-- `strconv.ParseFloat(s, 64)` on a decimal text or a name of an infinity or
NaN: the float nearest to the number written, with a nil error; an infinity
with `ErrRange` when the number is too large; 0 with `ErrSyntax` when the text
is no number.  A hexadecimal mantissa is not read. -/
def ParseFloat (s : String) : Float64 × Option NumError :=
  match special s.data with
  | some p => if p.2 = [] then (p.1, none) else (⟨0⟩, some NumError.ErrSyntax)
  | none =>
    match readFloat s.data with
    | none => (⟨0⟩, some NumError.ErrSyntax)
    | some (neg, m, e, rest) =>
      if rest ≠ [] then (⟨0⟩, some NumError.ErrSyntax)
      else
        let b := nearestDecimal m e
        (⟨if neg then 9223372036854775808 + b else b⟩,
          if b = infBits then some NumError.ErrRange else none)

end strconv

/-! ## `package metrics`: the generated decoder and the libraries it drives

The generated code calls `github.com/mailru/easyjson/jwriter` and `jlexer`,
which are not part of the repository; they are modelled here as the generated
code uses them, strings and numbers included; `strconv` on floats is given
by its contract, the shortest decimal that reads back.  What stays a parameter
is the skipping of an unknown value.  A Go string is taken to be valid UTF-8 and a byte sequence is given by
its characters.  After its first error the lexer does nothing more: every
reading call of the real lexer is guarded by `Ok()`, so the generated code
cannot observe the difference. -/

namespace easyjson

/-- The library function left as a parameter: `skipBody c data` is the input
left after the value that `SkipRecursive` skips once its opening delimiter `c`
is read, `none` on an error. -/
structure Lib where
  skipBody : Char → List Char → Option (List Char)

/-- The library whose `SkipRecursive` fails on every object and array.  A text
that the encoder wrote holds no value to skip, so the choice plays no part
there. -/
def noSkip : Lib where
  skipBody := fun _ _ => none

end easyjson

namespace jlexer

open easyjson (Lib)

/-- The kinds of token. -/
inductive TokenKind where
  | tokenUndef
  | tokenDelim
  | tokenString
  | tokenNumber
  | tokenBool
  | tokenNull
  deriving DecidableEq, Repr

/-- The `Lexer`: `Data` is the unread input `r.Data[r.pos:]`, `atStart` is
`r.pos == 0`, then the fields of the current token, `firstElement`, `wantSep`
(`none` is 0) and `fatalError` (`none` is nil; of an error only a short reason
is kept). -/
structure Lexer where
  Data : List Char
  atStart : Bool
  kind : TokenKind
  delimValue : Option Char
  byteValue : List Char
  boolValue : Bool
  firstElement : Bool
  wantSep : Option Char
  fatalError : Option String
  deriving DecidableEq, Repr

/-- The lexer `jlexer.Lexer{Data: data}`. -/
def Lexer.new (data : List Char) : Lexer :=
  ⟨data, true, TokenKind.tokenUndef, none, [], false, false, none, none⟩

/-- A lexer that holds no token and no error, with the given unread input,
stale token text, and separator state. -/
def Lexer.ready (data bv : List Char) (bb first : Bool) (want : Option Char) : Lexer :=
  ⟨data, false, TokenKind.tokenUndef, none, bv, bb, first, want, none⟩

/-- The double quote. -/
abbrev dquote : Char := Char.ofNat 34

/-- The backslash. -/
abbrev backslash : Char := Char.ofNat 92

/-- The opening brace. -/
abbrev lbrace : Char := Char.ofNat 123

/-- The closing brace. -/
abbrev rbrace : Char := Char.ofNat 125

/-- White space between tokens. -/
def isSpace (c : Char) : Bool :=
  c = ' ' || c = Char.ofNat 9 || c = Char.ofNat 13 || c = Char.ofNat 10

/-- A decimal digit. -/
def isDigit (c : Char) : Bool := decide (48 ≤ c.toNat) && decide (c.toNat ≤ 57)

/-- The function `isTokenEnd`: a character that may follow a number. -/
def isTokenEnd (c : Char) : Bool :=
  isSpace c || c = '[' || c = ']' || c = lbrace || c = rbrace || c = ',' || c = ':'

/-- The scan of `fetchString`: from the input after the opening quote, the text
up to the closing quote (a backslash protects the character after it) and the
input after that quote; `none` for an unterminated literal. -/
def scanString : List Char → Option (List Char × List Char)
  | [] => none
  | c :: cs =>
    if c = dquote then some ([], cs)
    else if c = backslash then
      match cs with
      | [] => none
      | e :: cs1 => (scanString cs1).map fun p => (c :: e :: p.1, p.2)
    else (scanString cs).map fun p => (c :: p.1, p.2)

/-- The scan of `fetchNumber` from the input after the first character of the
number, with its three flags: the rest of the number and the input after it;
`none` when the number is not followed by a token end. -/
def scanNumber : Bool → Bool → Bool → List Char → Option (List Char × List Char)
  | _, _, _, [] => some ([], [])
  | hasE, afterE, hasDot, c :: cs =>
    if isDigit c then (scanNumber hasE false hasDot cs).map fun p => (c :: p.1, p.2)
    else if c = '.' ∧ hasDot = false then
      (scanNumber hasE afterE true cs).map fun p => (c :: p.1, p.2)
    else if (c = 'e' ∨ c = 'E') ∧ hasE = false then
      (scanNumber true true true cs).map fun p => (c :: p.1, p.2)
    else if (c = '+' ∨ c = '-') ∧ afterE = true then
      (scanNumber hasE false hasDot cs).map fun p => (c :: p.1, p.2)
    else if isTokenEnd c then some ([], c :: cs)
    else none

/-- The value of a hexadecimal digit, `none` for any other character. -/
def hexValue (c : Char) : Option Nat :=
  if 48 ≤ c.toNat ∧ c.toNat ≤ 57 then some (c.toNat - 48)
  else if 97 ≤ c.toNat ∧ c.toNat ≤ 102 then some (c.toNat - 87)
  else if 65 ≤ c.toNat ∧ c.toNat ≤ 70 then some (c.toNat - 55)
  else none

/-- The function `getu4`: the value of the four hexadecimal digits of an
escape `\uXXXX` at the head of the input, `none` for -1. -/
def getu4 (s : List Char) : Option Nat :=
  match s with
  | b :: u :: h1 :: h2 :: h3 :: h4 :: _ =>
    if b = backslash ∧ u = 'u' then
      match hexValue h1, hexValue h2, hexValue h3, hexValue h4 with
      | some x1, some x2, some x3, some x4 => some (((x1 * 16 + x2) * 16 + x3) * 16 + x4)
      | _, _, _, _ => none
    else none
  | _ => none

/-- The function `utf16.IsSurrogate`. -/
def isSurrogate (r : Nat) : Bool := decide (55296 ≤ r) && decide (r < 57344)

/-- The function `utf16.DecodeRune`: the code point of a surrogate pair, and
U+FFFD when the two values are not one. -/
def utf16DecodeRune (r1 : Nat) (r2 : Option Nat) : Nat :=
  match r2 with
  | some x2 =>
    if 55296 ≤ r1 ∧ r1 < 56320 ∧ 56320 ≤ x2 ∧ x2 < 57344 then
      (r1 - 55296) * 1024 + (x2 - 56320) + 65536
    else 65533
  | none => 65533

/-- The function `decodeEscape` on the input from a backslash on: the
character the escape stands for and the number of bytes of the escape. -/
def decodeEscape (data : List Char) : Option (Char × Nat) :=
  match data with
  | _ :: c :: _ =>
    if c = dquote ∨ c = '/' ∨ c = backslash then some (c, 2)
    else if c = 'b' then some (Char.ofNat 8, 2)
    else if c = 'f' then some (Char.ofNat 12, 2)
    else if c = 'n' then some (Char.ofNat 10, 2)
    else if c = 'r' then some (Char.ofNat 13, 2)
    else if c = 't' then some (Char.ofNat 9, 2)
    else if c = 'u' then
      match getu4 data with
      | none => none
      | some rr =>
        if isSurrogate rr then
          if utf16DecodeRune rr (getu4 (data.drop 6)) ≠ 65533 then
            some (Char.ofNat (utf16DecodeRune rr (getu4 (data.drop 6))), 12)
          else some (Char.ofNat 65533, 6)
        else some (Char.ofNat rr, 6)
    else none
  | _ => none

/-- The unescaping of a string token, the loop of `unescapeStringToken`: every
escape is replaced by the character that `decodeEscape` gives for it; `fuel`
bounds the number of steps. -/
def unescapeLoop : Nat → List Char → Option (List Char)
  | 0, _ => none
  | _ + 1, [] => some []
  | fuel + 1, c :: cs =>
    if c = backslash then
      match decodeEscape (c :: cs) with
      | none => none
      | some p => (unescapeLoop fuel ((c :: cs).drop p.2)).map fun t => p.1 :: t
    else (unescapeLoop fuel cs).map fun t => c :: t

/-- The method `unescapeStringToken` on the text between the quotes: the
string it stands for, `none` on a bad escape.  A step reads at least one
byte, so one more step than there are bytes is enough. -/
def unescape (body : List Char) : Option String :=
  (unescapeLoop (body.length + 1) body).map String.mk

/-- The input after the word `w` when the input starts with it: the check of
`fetchNull`, `fetchTrue` and `fetchFalse` on the letters after the first. -/
def dropWord : List Char → List Char → Option (List Char)
  | [], cs => some cs
  | _ :: _, [] => none
  | w :: ws, c :: cs => if w = c then dropWord ws cs else none

namespace Lexer

/-- The method `Ok`. -/
def Ok (r : Lexer) : Bool := r.fatalError.isNone

/-- The methods `errParse`, `errSyntax` and `errInvalidToken`: record the
error unless one is recorded already. -/
def setError (r : Lexer) (msg : String) : Lexer :=
  if r.fatalError.isNone then { r with fatalError := some msg } else r

/-- The `for` loop of `FetchToken` over the unread input. -/
def fetchLoop (r : Lexer) : List Char → Lexer
  | [] => { r with Data := [], fatalError := some "EOF" }
  | c :: cs =>
    if c = ':' ∨ c = ',' then
      if r.wantSep = some c then fetchLoop { r with atStart := false, wantSep := none } cs
      else setError { r with Data := c :: cs } "syntax error"
    else if isSpace c then fetchLoop { r with atStart := false } cs
    else if c = dquote then
      if r.wantSep ≠ none then setError { r with Data := c :: cs } "syntax error"
      else
        match scanString cs with
        | none => setError { r with Data := [], atStart := false } "unterminated string literal"
        | some p =>
          { r with Data := p.2, atStart := false, kind := TokenKind.tokenString,
                   byteValue := p.1 }
    else if c = lbrace ∨ c = '[' then
      if r.wantSep ≠ none then setError { r with Data := c :: cs } "syntax error"
      else
        { r with Data := cs, atStart := false, firstElement := true,
                 kind := TokenKind.tokenDelim, delimValue := some c }
    else if c = rbrace ∨ c = ']' then
      if r.firstElement = false ∧ r.wantSep ≠ some ',' then
        setError { r with Data := c :: cs } "syntax error"
      else
        { r with Data := cs, atStart := false, wantSep := none,
                 kind := TokenKind.tokenDelim, delimValue := some c }
    else if isDigit c ∨ c = '-' then
      if r.wantSep ≠ none then setError { r with Data := c :: cs } "syntax error"
      else
        match scanNumber false false false cs with
        | none => setError { r with Data := c :: cs } "syntax error"
        | some p =>
          { r with Data := p.2, atStart := false, kind := TokenKind.tokenNumber,
                   byteValue := c :: p.1 }
    else if c = 'n' then
      if r.wantSep ≠ none then setError { r with Data := c :: cs } "syntax error"
      else
        match dropWord "ull".data cs with
        | some rest => { r with Data := rest, atStart := false, kind := TokenKind.tokenNull }
        | none => setError { r with Data := c :: cs } "syntax error"
    else if c = 't' then
      if r.wantSep ≠ none then setError { r with Data := c :: cs } "syntax error"
      else
        match dropWord "rue".data cs with
        | some rest =>
          { r with Data := rest, atStart := false, kind := TokenKind.tokenBool,
                   boolValue := true }
        | none => setError { r with Data := c :: cs } "syntax error"
    else if c = 'f' then
      if r.wantSep ≠ none then setError { r with Data := c :: cs } "syntax error"
      else
        match dropWord "alse".data cs with
        | some rest =>
          { r with Data := rest, atStart := false, kind := TokenKind.tokenBool,
                   boolValue := false }
        | none => setError { r with Data := c :: cs } "syntax error"
    else setError { r with Data := c :: cs } "syntax error"

/-- The method `FetchToken`: scan the next token. -/
def FetchToken (r : Lexer) : Lexer :=
  fetchLoop { r with kind := TokenKind.tokenUndef } r.Data

/-- The guard `if r.token.kind == tokenUndef && r.Ok() { r.FetchToken() }`
that opens every reading method. -/
def ensureToken (r : Lexer) : Lexer :=
  if r.kind = TokenKind.tokenUndef ∧ r.Ok = true then r.FetchToken else r

/-- The method `consume`: drop the current token. -/
def consume (r : Lexer) : Lexer :=
  { r with kind := TokenKind.tokenUndef, delimValue := none }

/-- The method `IsStart`. -/
def IsStart (r : Lexer) : Bool := r.atStart

/-- The method `IsNull`. -/
def IsNull (r : Lexer) : Lexer × Bool :=
  let r := r.ensureToken
  (r, r.Ok && decide (r.kind = TokenKind.tokenNull))

/-- The method `Skip`. -/
def Skip (r : Lexer) : Lexer := r.ensureToken.consume

/-- The method `IsDelim`: true also after an error. -/
def IsDelim (c : Char) (r : Lexer) : Lexer × Bool :=
  let r := r.ensureToken
  (r, !r.Ok || decide (r.delimValue = some c))

/-- The method `Delim`. -/
def Delim (c : Char) (r : Lexer) : Lexer :=
  let r := r.ensureToken
  if r.Ok = false ∨ r.delimValue ≠ some c then r.consume.setError "invalid token"
  else r.consume

/-- The method `WantComma`. -/
def WantComma (r : Lexer) : Lexer :=
  { r with wantSep := some ',', firstElement := false }

/-- The method `WantColon`. -/
def WantColon (r : Lexer) : Lexer :=
  { r with wantSep := some ':', firstElement := false }

/-- The string of a string token: its text with the escapes replaced. -/
def decodeString (body : List Char) : Option String := unescape body

/-- The methods `String` and `UnsafeFieldName`, which differ only in copying
the bytes: the string of the current string token. -/
def readString (r : Lexer) : Lexer × String :=
  let r := r.ensureToken
  if r.Ok = false ∨ r.kind ≠ TokenKind.tokenString then (r.setError "invalid token", "")
  else
    match decodeString r.byteValue with
    | none => (r.setError "parse error", "")
    | some s => (r.consume, s)

/-- The method `UnsafeFieldName`. -/
def UnsafeFieldName (r : Lexer) : Lexer × String := readString r

/-- The method `number`: the text of the current number token. -/
def number (r : Lexer) : Lexer × List Char :=
  let r := r.ensureToken
  if r.Ok = false ∨ r.kind ≠ TokenKind.tokenNumber then (r.setError "invalid token", [])
  else (r.consume, r.byteValue)

/-- The method `Int64`: `strconv.ParseInt` on the number token; an error of
the parse is recorded and the value `ParseInt` returns beside it is returned
all the same. -/
def readInt64 (r : Lexer) : Lexer × Int :=
  let p := r.number
  if p.1.Ok = false then (p.1, 0)
  else
    match (strconv.ParseIntValue (String.mk p.2)).2 with
    | none => (p.1, (strconv.ParseIntValue (String.mk p.2)).1)
    | some _ => (p.1.setError "parse error", (strconv.ParseIntValue (String.mk p.2)).1)

/-- The method `Float64`: `strconv.ParseFloat` on the number token; an error
of the parse is recorded and the value `ParseFloat` returns beside it is
returned all the same. -/
def readFloat64 (r : Lexer) : Lexer × Float64 :=
  let p := r.number
  if p.1.Ok = false then (p.1, ⟨0⟩)
  else
    match (strconv.ParseFloat (String.mk p.2)).2 with
    | none => (p.1, (strconv.ParseFloat (String.mk p.2)).1)
    | some _ => (p.1.setError "parse error", (strconv.ParseFloat (String.mk p.2)).1)

/-- The method `SkipRecursive`: skip one value, a whole object or array when
the token opens one. -/
def SkipRecursive (lib : Lib) (r : Lexer) : Lexer :=
  let r := r.ensureToken
  match r.delimValue with
  | some c =>
    if c = lbrace ∨ c = '[' then
      match lib.skipBody c r.Data with
      | some rest => { r.consume with Data := rest }
      | none => { r.consume with Data := [] }.setError "EOF reached while skipping"
    else r.consume
  | none => r.consume

/-- The method `Consumed`: an error unless only white space is left. -/
def Consumed (r : Lexer) : Lexer :=
  if r.Ok = false then r
  else if r.Data.all isSpace then { r with Data := [], atStart := r.atStart && r.Data.isEmpty }
  else r.setError "invalid character after top-level value"

/-- The method `Error`. -/
def Error (r : Lexer) : Option String := r.fatalError

end Lexer

end jlexer

namespace jwriter

open easyjson (Lib)

/-- The character of a decimal digit. -/
def digitChar (d : Nat) : Char := Char.ofNat (48 + d)

/-- The digits of `n` in front of `acc`, most significant first; `fuel` bounds
the number of digits. -/
def formatNatAux : Nat → Nat → List Char → List Char
  | 0, _, acc => acc
  | fuel + 1, n, acc =>
    if n < 10 then digitChar n :: acc
    else formatNatAux fuel (n / 10) (digitChar (n % 10) :: acc)

/-- The decimal text of a natural number. -/
def formatNat (n : Nat) : List Char := formatNatAux (n + 1) n []

/-- The text `Writer.Int64(n)` appends: `strconv.AppendInt(_, n, 10)`. -/
def formatInt (n : Int) : List Char :=
  if n < 0 then '-' :: formatNat n.natAbs else formatNat n.natAbs

end jwriter

/-! ### `strconv.AppendFloat` in the format `g` with the shortest digits

The digits are given by the contract of the shortest formatting: the decimal
with the fewest digits that `ParseFloat` reads back as the float, the one
nearest to the float when there are two.  The layout of the digits follows
`formatDigits`, `fmtE` and `fmtF`. -/

namespace strconv

/-- The two multiples of the power `k` of 10 around the value `S / 2^1074`, as
numbers of that power: first the nearest one (the even one of two equally
near), then the one on the other side of the value. -/
def candidates (S : Nat) (k : Int) : Nat × Nat :=
  let num := S * 10 ^ (-k).toNat
  let den := 2 ^ 1074 * 10 ^ k.toNat
  let lo := num / den
  let r := num % den
  let up : Bool := decide (den < 2 * r) || (decide (2 * r = den) && decide (lo % 2 = 1))
  if up then (lo + 1, lo) else (lo, lo + 1)

/-- The search for the shortest decimal that `ParseFloat` reads as the float
with the bits `b`, whose value times 2^1074 is `S`: from the power
`j - 1074` of 10 downwards, the first of the two multiples of that power
around the value to read as `b`.  At the power -1074 the value itself is a
multiple. -/
def shortestAux (S b : Nat) : Nat → Nat × Int
  | 0 => (S * 5 ^ 1074, -1074)
  | j + 1 =>
    if nearestDecimal (candidates S ((j : Int) + 1 - 1074)).1 ((j : Int) + 1 - 1074) = b then
      ((candidates S ((j : Int) + 1 - 1074)).1, (j : Int) + 1 - 1074)
    else if nearestDecimal (candidates S ((j : Int) + 1 - 1074)).2 ((j : Int) + 1 - 1074) = b then
      ((candidates S ((j : Int) + 1 - 1074)).2, (j : Int) + 1 - 1074)
    else shortestAux S b j

/-- The number of digits of the whole part of the value `S / 2^1074`, 0 when
the value is below 1: the power of 10 above the value. -/
def startPower (S : Nat) : Nat :=
  if S / 2 ^ 1074 = 0 then 0 else (jwriter.formatNat (S / 2 ^ 1074)).length

/-- The shortest decimal of the positive finite float with the bits `b`: its
digits as a number and the power of 10 that goes with them.  The search
starts at the power of 10 above the value. -/
def shortest (b : Nat) : Nat × Int :=
  shortestAux (scaled b) b (1074 + startPower (scaled b))

/-- The exponent part `e±dd` of `fmtE`: at least two digits. -/
def fmtExp (exp : Int) : List Char :=
  'e' :: (if exp < 0 then '-' else '+') ::
    (if exp.natAbs < 10 then '0' :: jwriter.formatNat exp.natAbs
     else jwriter.formatNat exp.natAbs)

/-- The function `fmtE` for the digits `ds` with the decimal point after `dp`
of them: the first digit, the other digits after a dot, the exponent. -/
def fmtE (ds : List Char) (dp : Int) : List Char :=
  match ds with
  | [] => '0' :: fmtExp 0
  | [d] => d :: fmtExp (dp - 1)
  | d :: rest => d :: '.' :: (rest ++ fmtExp (dp - 1))

/-- The function `fmtF` for the digits `ds` with the decimal point after `dp`
of them, all digits written: zeros fill the places between the point and the
digits. -/
def fmtF (ds : List Char) (dp : Int) : List Char :=
  if dp ≤ 0 then '0' :: '.' :: (List.replicate (-dp).toNat '0' ++ ds)
  else if dp.toNat < ds.length then ds.take dp.toNat ++ '.' :: ds.drop dp.toNat
  else ds ++ List.replicate (dp.toNat - ds.length) '0'

/-- The format `g` with the shortest digits: `fmtE` when the exponent is below
-4 or at least 6, `fmtF` otherwise. -/
def fmtG (ds : List Char) (dp : Int) : List Char :=
  if dp - 1 < -4 ∨ dp - 1 ≥ 6 then fmtE ds dp else fmtF ds dp

/-- The number a list of decimal digits stands for, after the digits of
`m`. -/
def digitsValue (ds : List Char) (m : Nat) : Nat :=
  ds.foldl (fun a c => a * 10 + (c.toNat - 48)) m

/-- The text `body` is a number that the lexer takes as one token before a
closing brace and that `readFloat` reads, in full, as a decimal whose nearest
float has the bits `b`. -/
def NumberText (body : List Char) (b : Nat) : Prop :=
  ∃ (d : Char) (rest : List Char), body = d :: rest ∧ jlexer.isDigit d = true ∧
    jlexer.scanNumber false false false (rest ++ [jlexer.rbrace]) = some (rest, [jlexer.rbrace]) ∧
    ∃ (m : Nat) (e : Int), readDigits body = some (m, e, []) ∧ nearestDecimal m e = b

/-- `strconv.AppendFloat(_, f, 'g', -1, 64)`: `NaN`, `+Inf` and `-Inf` by name,
and otherwise the sign and the shortest decimal that reads back as `f`. -/
def FormatFloat (f : Float64) : List Char :=
  let neg := decide (f.bits / 9223372036854775808 % 2 = 1)
  let b := f.bits % 9223372036854775808
  if infBits < b then "NaN".data
  else if b = infBits then (if neg then "-Inf".data else "+Inf".data)
  else
    (if neg then ['-'] else []) ++
      (if b = 0 then ['0']
       else
        let p := shortest b
        let ds := jwriter.formatNat p.1
        fmtG ds (ds.length + p.2))

end strconv

namespace jwriter

/-- The constant `chars = "0123456789abcdef"` at index `n`. -/
def hexChar (n : Nat) : Char :=
  if n < 10 then Char.ofNat (48 + n) else Char.ofNat (87 + n)

/-- The ASCII characters `htmlEscapeTable` marks for escaping: the control
characters, the double quote, `&`, `<`, `>` and the backslash. -/
def needsEscape (c : Char) : Bool :=
  decide (c.toNat < 32) || c = jlexer.dquote || c = '&' || c = '<' || c = '>'
    || c = jlexer.backslash

/-- What `Writer.String` appends for one character of a valid UTF-8 string
(the writer's flag `NoEscapeHTML` is unset): an escape for a marked ASCII
character and for U+2028 and U+2029, the character itself otherwise. -/
def escapeChar (c : Char) : List Char :=
  if c.toNat < 128 then
    if needsEscape c then
      if c = Char.ofNat 9 then [jlexer.backslash, 't']
      else if c = Char.ofNat 13 then [jlexer.backslash, 'r']
      else if c = Char.ofNat 10 then [jlexer.backslash, 'n']
      else if c = jlexer.backslash then [jlexer.backslash, jlexer.backslash]
      else if c = jlexer.dquote then [jlexer.backslash, jlexer.dquote]
      else
        [jlexer.backslash, 'u', '0', '0', hexChar (c.toNat / 16), hexChar (c.toNat % 16)]
    else [c]
  else if c.toNat = 8232 ∨ c.toNat = 8233 then
    [jlexer.backslash, 'u', '2', '0', '2', hexChar (c.toNat % 16)]
  else [c]

/-- The text between the quotes that `Writer.String(s)` appends. -/
def escapeString (s : String) : List Char := s.data.flatMap escapeChar

/-- The text `Writer.String(s)` appends: the escaped string between quotes. -/
def quoteString (s : String) : List Char :=
  jlexer.dquote :: (escapeString s ++ [jlexer.dquote])

/-- The bytes one writer call appends to the buffer. -/
def Op.bytes : Op → List Char
  | Op.rawByte c => [c]
  | Op.rawString s => s.data
  | Op.string s => quoteString s
  | Op.int64 n => formatInt n
  | Op.float64 f => strconv.FormatFloat f

/-- The method `Buffer.BuildBytes`: the bytes of the whole buffer. -/
def BuildBytes (buf : List Op) : List Char :=
  buf.flatMap Op.bytes

end jwriter

namespace metrics

open easyjson (Lib)

open jlexer (Lexer lbrace rbrace)

/-- The zero value of `RequestMetric`. -/
def RequestMetric.zero : RequestMetric := ⟨"", "", 0, ⟨0⟩⟩

/-- The loop `for !in.IsDelim(\x7d)` of the decoder of one `RequestMetric`,
bounded by `fuel` iterations. -/
def easyjson2220f231DecodeGithubComWebkimruGoYandexMetricsInternalAppAgentMetrics1.loop
    (lib : Lib) : Nat → Lexer → RequestMetric → Lexer × RequestMetric
  | 0, inp, out => (inp.setError "loop bound reached", out)
  | fuel + 1, inp, out =>
    let d := inp.IsDelim rbrace
    if d.2 then (d.1, out)
    else
      let k := d.1.UnsafeFieldName
      let n := k.1.WantColon.IsNull
      if n.2 then
        easyjson2220f231DecodeGithubComWebkimruGoYandexMetricsInternalAppAgentMetrics1.loop
          lib fuel n.1.Skip.WantComma out
      else if k.2 = "id" then
        let v := n.1.readString
        easyjson2220f231DecodeGithubComWebkimruGoYandexMetricsInternalAppAgentMetrics1.loop
          lib fuel v.1.WantComma { out with ID := v.2 }
      else if k.2 = "type" then
        let v := n.1.readString
        easyjson2220f231DecodeGithubComWebkimruGoYandexMetricsInternalAppAgentMetrics1.loop
          lib fuel v.1.WantComma { out with MType := v.2 }
      else if k.2 = "delta" then
        let v := n.1.readInt64
        easyjson2220f231DecodeGithubComWebkimruGoYandexMetricsInternalAppAgentMetrics1.loop
          lib fuel v.1.WantComma { out with Delta := v.2 }
      else if k.2 = "value" then
        let v := n.1.readFloat64
        easyjson2220f231DecodeGithubComWebkimruGoYandexMetricsInternalAppAgentMetrics1.loop
          lib fuel v.1.WantComma { out with Value := v.2 }
      else
        easyjson2220f231DecodeGithubComWebkimruGoYandexMetricsInternalAppAgentMetrics1.loop
          lib fuel (n.1.SkipRecursive lib).WantComma out

/-- The decoder of one `RequestMetric`.  Its loop is given one more iteration
than there are unread bytes: an iteration that goes on has read at least one
byte. -/
def easyjson2220f231DecodeGithubComWebkimruGoYandexMetricsInternalAppAgentMetrics1
    (lib : Lib) (inp : Lexer) (out : RequestMetric) : Lexer × RequestMetric :=
  let isTopLevel := inp.IsStart
  let n := inp.IsNull
  if n.2 then
    let inp1 := if isTopLevel then n.1.Consumed else n.1
    (inp1.Skip, out)
  else
    let inp1 := n.1.Delim lbrace
    let p := easyjson2220f231DecodeGithubComWebkimruGoYandexMetricsInternalAppAgentMetrics1.loop
      lib (inp1.Data.length + 1) inp1 out
    let inp2 := p.1.Delim rbrace
    let inp3 := if isTopLevel then inp2.Consumed else inp2
    (inp3, p.2)

/-- `RequestMetric.UnmarshalEasyJSON`. -/
def RequestMetric.UnmarshalEasyJSON (lib : Lib) (l : Lexer) (v : RequestMetric) :
    Lexer × RequestMetric :=
  easyjson2220f231DecodeGithubComWebkimruGoYandexMetricsInternalAppAgentMetrics1 lib l v

/-- `RequestMetric.UnmarshalJSON`: a lexer on `data`, the decoder on `v`, then
the lexer's error; the result is `v` after the call and that error. -/
def RequestMetric.UnmarshalJSON (lib : Lib) (data : List Char) (v : RequestMetric) :
    RequestMetric × Option String :=
  let p := easyjson2220f231DecodeGithubComWebkimruGoYandexMetricsInternalAppAgentMetrics1
    lib (Lexer.new data) v
  (p.2, p.1.Error)

/-- The type `RequestMetricSlice`, a slice of `RequestMetric`: `none` is the
nil slice. -/
abbrev RequestMetricSlice := Option (List RequestMetric)

/-- The `range` loop of the slice encoder from index `i` on. -/
def easyjson2220f231EncodeGithubComWebkimruGoYandexMetricsInternalAppAgentMetrics.loop :
    Nat → List RequestMetric → List jwriter.Op
  | _, [] => []
  | i, v :: vs =>
    (if i > 0 then [jwriter.Op.rawByte ','] else [])
      ++ easyjson2220f231EncodeGithubComWebkimruGoYandexMetricsInternalAppAgentMetrics1 v
      ++ easyjson2220f231EncodeGithubComWebkimruGoYandexMetricsInternalAppAgentMetrics.loop
        (i + 1) vs

/-- The encoder of a `RequestMetricSlice`; `nilSliceAsEmpty` is the test
`out.Flags&jwriter.NilSliceAsEmpty != 0`. -/
def easyjson2220f231EncodeGithubComWebkimruGoYandexMetricsInternalAppAgentMetrics
    (nilSliceAsEmpty : Bool) (s : RequestMetricSlice) : List jwriter.Op :=
  if s = none ∧ nilSliceAsEmpty = false then [jwriter.Op.rawString "null"]
  else
    [jwriter.Op.rawByte '[']
      ++ easyjson2220f231EncodeGithubComWebkimruGoYandexMetricsInternalAppAgentMetrics.loop
        0 (s.getD [])
      ++ [jwriter.Op.rawByte ']']

/-- `RequestMetricSlice.MarshalJSON`: a fresh writer, whose flags are zero. -/
def RequestMetricSlice.MarshalJSON (v : RequestMetricSlice) : List jwriter.Op × Option String :=
  (easyjson2220f231EncodeGithubComWebkimruGoYandexMetricsInternalAppAgentMetrics false v, none)

/-- The loop `for !in.IsDelim(']')` of the slice decoder, bounded by `fuel`
iterations. -/
def easyjson2220f231DecodeGithubComWebkimruGoYandexMetricsInternalAppAgentMetrics.loop
    (lib : Lib) : Nat → Lexer → List RequestMetric → Lexer × List RequestMetric
  | 0, inp, out => (inp.setError "loop bound reached", out)
  | fuel + 1, inp, out =>
    let d := inp.IsDelim ']'
    if d.2 then (d.1, out)
    else
      let v1 := RequestMetric.UnmarshalEasyJSON lib d.1 RequestMetric.zero
      easyjson2220f231DecodeGithubComWebkimruGoYandexMetricsInternalAppAgentMetrics.loop
        lib fuel v1.1.WantComma (out ++ [v1.2])

/-- The decoder of a `RequestMetricSlice` into `out`. -/
def easyjson2220f231DecodeGithubComWebkimruGoYandexMetricsInternalAppAgentMetrics
    (lib : Lib) (inp : Lexer) (out : RequestMetricSlice) : Lexer × RequestMetricSlice :=
  let isTopLevel := inp.IsStart
  let n := inp.IsNull
  let r : Lexer × RequestMetricSlice :=
    if n.2 then (n.1.Skip, none)
    else
      let inp1 := n.1.Delim '['
      let inp2 := if out = none then (inp1.IsDelim ']').1 else inp1
      let p := easyjson2220f231DecodeGithubComWebkimruGoYandexMetricsInternalAppAgentMetrics.loop
        lib (inp2.Data.length + 1) inp2 []
      (p.1.Delim ']', some p.2)
  (if isTopLevel then r.1.Consumed else r.1, r.2)

/-- `RequestMetricSlice.UnmarshalJSON`: the result is the slice after the call
and the lexer's error. -/
def RequestMetricSlice.UnmarshalJSON (lib : Lib) (data : List Char) (v : RequestMetricSlice) :
    RequestMetricSlice × Option String :=
  let p := easyjson2220f231DecodeGithubComWebkimruGoYandexMetricsInternalAppAgentMetrics
    lib (Lexer.new data) v
  (p.2, p.1.Error)

/-- A valid metric: its type is "gauge" or "counter". -/
def RequestMetric.Valid (m : RequestMetric) : Prop :=
  m.MType = "gauge" ∨ m.MType = "counter"

/-- The float `f` is read back by `strconv`: the text written for `f` starts
like a number, is scanned as one number up to the closing brace that follows
it, and is parsed to `f` without an error. -/
def FloatReadsBack (f : Float64) : Prop :=
  ∃ (c : Char) (t : List Char),
    strconv.FormatFloat f = c :: t ∧
    (jlexer.isDigit c = true ∨ c = '-') ∧
    jlexer.scanNumber false false false (t ++ [rbrace]) = some (t, [rbrace]) ∧
    strconv.ParseFloat (String.mk (c :: t)) = (f, none)

/-- The fields of `m` that are numbers are read back: `Delta` is an `int64`
and `strconv` reads `Value` back. -/
def RequestMetric.ReadsBack (m : RequestMetric) : Prop :=
  InInt64 m.Delta ∧ FloatReadsBack m.Value

/-- The bytes the encoder of one `RequestMetric` writes after the opening
brace, followed by the bytes `d`. -/
def objectTail (m : RequestMetric) (d : List Char) : List Char :=
  "\"id\":".data ++ (jwriter.quoteString m.ID ++ (",\"type\":".data ++
    (jwriter.quoteString m.MType ++ (",\"delta\":".data ++ (jwriter.formatInt m.Delta ++
      (",\"value\":".data ++ (strconv.FormatFloat m.Value ++ rbrace :: d)))))))

end metrics

/-! # Theorems -/

/-! ## Maps and `int64` arithmetic -/

theorem GoMap.set_same {V : Type} (m : GoMap V) (k : String) (v : V) :
    m.set k v k = some v := by
  simp [GoMap.set]

theorem GoMap.set_other {V : Type} (m : GoMap V) (k k' : String) (v : V) (h : k' ≠ k) :
    m.set k v k' = m k' := by
  simp [GoMap.set, h]

theorem wrapInt64_of_inInt64 (x : Int) (h : InInt64 x) : wrapInt64 x = x := by
  unfold InInt64 minInt64 maxInt64 at h
  unfold wrapInt64
  omega

theorem inInt64_wrapInt64 (x : Int) : InInt64 (wrapInt64 x) := by
  unfold InInt64 minInt64 maxInt64 wrapInt64
  omega

theorem wrapInt64_add_wrapInt64 (a b : Int) :
    wrapInt64 (wrapInt64 a + b) = wrapInt64 (a + b) := by
  unfold wrapInt64
  omega

/-! ## The memory backend: point operations -/

namespace store

theorem priorTotal_eq_getD (ms : MemStorage) (name : String) :
    ms.priorTotal name = ms.Counter.getD name 0 := by
  unfold MemStorage.priorTotal MemStorage.GetCounter GoMap.getD
  cases ms.Counter name <;> rfl

/-- C1 (counterexample): on a fresh store, `UpdateCounter` with the `int64`
deltas 9223372036854775807 and then 1 returns -9223372036854775808, which is
not their sum 9223372036854775808. -/
theorem updateCounter_sum_overflow :
    InInt64 9223372036854775807 ∧ InInt64 1 ∧
    ((NewMemStorage.UpdateCounter "PollCount" 9223372036854775807).1.UpdateCounter
        "PollCount" 1).2 = Except.ok (-9223372036854775808) ∧
    ((NewMemStorage.UpdateCounter "PollCount" 9223372036854775807).1.UpdateCounter
        "PollCount" 1).2 ≠ Except.ok (9223372036854775807 + 1) := by
  refine ⟨by decide, by decide, rfl, ?_⟩
  intro h
  have h2 := Except.ok.inj h
  revert h2
  decide

/-- C1 (amended): for `int64` deltas `d1` and `d2`, on a fresh store
`UpdateCounter(name, d1)` returns `d1`, a following `UpdateCounter(name, d2)`
returns `d1 + d2` reduced to `int64` by two's-complement wrap-around, and
`GetCounter(name)` then returns the same; that value is `d1 + d2` itself
whenever the sum is an `int64`.  On any store `UpdateCounter(name, delta)`
returns and stores the wrapped sum of the prior total (0 when absent) and
`delta`, with a nil error. -/
theorem updateCounter_accumulates_wrapped (name : String) (d1 d2 : Int)
    (h1 : InInt64 d1) (_h2 : InInt64 d2) :
    (NewMemStorage.UpdateCounter name d1).2 = Except.ok d1 ∧
    ((NewMemStorage.UpdateCounter name d1).1.UpdateCounter name d2).2
      = Except.ok (wrapInt64 (d1 + d2)) ∧
    ((NewMemStorage.UpdateCounter name d1).1.UpdateCounter name d2).1.GetCounter name
      = Except.ok (wrapInt64 (d1 + d2)) ∧
    (InInt64 (d1 + d2) → wrapInt64 (d1 + d2) = d1 + d2) ∧
    (∀ (ms : MemStorage) (delta : Int),
      (ms.UpdateCounter name delta).2 = Except.ok (wrapInt64 (ms.priorTotal name + delta)) ∧
      (ms.UpdateCounter name delta).1.GetCounter name
        = Except.ok (wrapInt64 (ms.priorTotal name + delta))) := by
  have hgen : ∀ (ms : MemStorage) (delta : Int),
      (ms.UpdateCounter name delta).2 = Except.ok (wrapInt64 (ms.priorTotal name + delta)) ∧
      (ms.UpdateCounter name delta).1.GetCounter name
        = Except.ok (wrapInt64 (ms.priorTotal name + delta)) := by
    intro ms delta
    rw [priorTotal_eq_getD]
    constructor
    · simp [MemStorage.UpdateCounter, GoMap.getD, GoMap.set_same]
    · simp [MemStorage.UpdateCounter, MemStorage.GetCounter, GoMap.set_same]
  have hnew : NewMemStorage.priorTotal name = 0 := by
    rw [priorTotal_eq_getD]; rfl
  have e1 : (NewMemStorage.UpdateCounter name d1).2 = Except.ok d1 := by
    rw [(hgen NewMemStorage d1).1, hnew, zero_add, wrapInt64_of_inInt64 d1 h1]
  have hp : (NewMemStorage.UpdateCounter name d1).1.priorTotal name = d1 := by
    have := (hgen NewMemStorage d1).2
    rw [hnew, zero_add, wrapInt64_of_inInt64 d1 h1] at this
    unfold MemStorage.priorTotal
    rw [this]
  refine ⟨e1, ?_, ?_, fun h => wrapInt64_of_inInt64 _ h, hgen⟩
  · rw [(hgen _ d2).1, hp]
  · rw [(hgen _ d2).2, hp]

/-- C1 (witness): the amended statement at the deltas 5 and 3 on the counter
"hits". -/
theorem updateCounter_accumulates_wrapped_witness :
    InInt64 5 ∧ InInt64 3 ∧
    ((NewMemStorage.UpdateCounter "hits" 5).1.UpdateCounter "hits" 3).1.GetCounter "hits"
      = Except.ok (wrapInt64 (5 + 3)) :=
  ⟨by decide, by decide,
    (updateCounter_accumulates_wrapped "hits" 5 3 (by decide) (by decide)).2.2.1⟩

/-- C2: on any store, `UpdateGauge(name, v1)` followed by
`UpdateGauge(name, v2)` returns `v1` and then `v2`, each with a nil error, and
`GetGauge(name)` afterwards returns `v2`. -/
theorem updateGauge_last_write_wins (ms : MemStorage) (name : String) (v1 v2 : Float64) :
    (ms.UpdateGauge name v1).2 = Except.ok v1 ∧
    ((ms.UpdateGauge name v1).1.UpdateGauge name v2).2 = Except.ok v2 ∧
    ((ms.UpdateGauge name v1).1.UpdateGauge name v2).1.GetGauge name = Except.ok v2 := by
  refine ⟨?_, ?_, ?_⟩ <;>
    simp [MemStorage.UpdateGauge, MemStorage.GetGauge, GoMap.getD, GoMap.set_same]

/-! ## The memory backend: lookups after any sequence of calls -/

theorem accumulate_append (slot : Option Int) (xs ys : List Int) :
    accumulate slot (xs ++ ys) = accumulate (accumulate slot xs) ys := by
  simp [accumulate, List.foldl_append]

theorem overwrite_append (slot : Option Float64) (xs ys : List Float64) :
    overwrite slot (xs ++ ys) = overwrite (overwrite slot xs) ys := by
  simp [overwrite, List.foldl_append]

theorem accumulate_some (c : Int) (ds : List Int) :
    accumulate (some (wrapInt64 c)) ds = some (wrapInt64 (c + ds.sum)) := by
  induction ds generalizing c with
  | nil => simp [accumulate]
  | cons d ds ih =>
    have step : accumulate (some (wrapInt64 c)) (d :: ds)
        = accumulate (some (wrapInt64 (c + d))) ds := by
      simp [accumulate, wrapInt64_add_wrapInt64]
    rw [step, ih, List.sum_cons, add_assoc]

theorem accumulate_none (ds : List Int) :
    accumulate none ds = if ds = [] then none else some (wrapInt64 ds.sum) := by
  cases ds with
  | nil => simp [accumulate]
  | cons d ds =>
    have step : accumulate none (d :: ds) = accumulate (some (wrapInt64 d)) ds := by
      simp [accumulate]
    rw [step, accumulate_some]
    simp

theorem overwrite_none (vs : List Float64) : overwrite none vs = vs.getLast? := by
  induction vs using List.reverseRecOn with
  | nil => rfl
  | append_singleton xs x _ => simp [overwrite, List.foldl_append]

theorem batch_counter_slot (ms : MemStorage) (metrics : List models.Metrics) (name : String) :
    (ms.UpdateBatchMetrics metrics).1.Counter name
      = accumulate (ms.Counter name) ((appliedItems metrics).flatMap (itemDeltas name)) := by
  induction metrics generalizing ms with
  | nil => rfl
  | cons m rest ih =>
    unfold MemStorage.UpdateBatchMetrics
    by_cases hg : m.MType = "gauge"
    · cases hv : m.Value with
      | none => simp [hg, hv, appliedItems, wellFormed, accumulate]
      | some v =>
        have hw : wellFormed m = true := by simp [wellFormed, hg, hv]
        rw [if_pos hg, ih]
        simp [appliedItems, List.takeWhile_cons, hw, itemDeltas, hg]
    · by_cases hc : m.MType = "counter"
      · cases hd : m.Delta with
        | none => simp [hc, hd, appliedItems, wellFormed, accumulate]
        | some d =>
          have hw : wellFormed m = true := by simp [wellFormed, hc, hd]
          rw [if_neg hg, if_pos hc, ih]
          by_cases hn : m.ID = name
          · subst hn
            simp [appliedItems, List.takeWhile_cons, hw, itemDeltas, hc, hd, accumulate,
              GoMap.set_same, GoMap.getD]
          · have hn2 : name ≠ m.ID := fun h => hn h.symm
            simp [appliedItems, List.takeWhile_cons, hw, itemDeltas, hn, GoMap.set_other _ _ _ _ hn2]
      · have hw : wellFormed m = true := by simp [wellFormed, hg, hc]
        rw [if_neg hg, if_neg hc, ih]
        simp [appliedItems, List.takeWhile_cons, hw, itemDeltas, hc]

theorem batch_gauge_slot (ms : MemStorage) (metrics : List models.Metrics) (name : String) :
    (ms.UpdateBatchMetrics metrics).1.Gauge name
      = overwrite (ms.Gauge name) ((appliedItems metrics).flatMap (itemValues name)) := by
  induction metrics generalizing ms with
  | nil => rfl
  | cons m rest ih =>
    unfold MemStorage.UpdateBatchMetrics
    by_cases hg : m.MType = "gauge"
    · cases hv : m.Value with
      | none => simp [hg, hv, appliedItems, wellFormed, overwrite]
      | some v =>
        have hw : wellFormed m = true := by simp [wellFormed, hg, hv]
        rw [if_pos hg, ih]
        by_cases hn : m.ID = name
        · subst hn
          simp [appliedItems, List.takeWhile_cons, hw, itemValues, hg, hv, overwrite,
            GoMap.set_same]
        · have hn2 : name ≠ m.ID := fun h => hn h.symm
          simp [appliedItems, List.takeWhile_cons, hw, itemValues, hn, GoMap.set_other _ _ _ _ hn2]
    · by_cases hc : m.MType = "counter"
      · cases hd : m.Delta with
        | none => simp [hg, hc, hd, appliedItems, wellFormed, overwrite]
        | some d =>
          have hw : wellFormed m = true := by simp [wellFormed, hc, hd]
          rw [if_neg hg, if_pos hc, ih]
          simp [appliedItems, List.takeWhile_cons, hw, itemValues, hg]
      · have hw : wellFormed m = true := by simp [wellFormed, hg, hc]
        rw [if_neg hg, if_neg hc, ih]
        simp [appliedItems, List.takeWhile_cons, hw, itemValues, hg]

theorem call_counter_slot (ms : MemStorage) (call : Call) (name : String) :
    (call.run ms).Counter name = accumulate (ms.Counter name) (call.deltas name) := by
  cases call with
  | UpdateCounter n value =>
    by_cases hn : n = name
    · subst hn
      simp [Call.run, Call.deltas, MemStorage.UpdateCounter, accumulate, GoMap.set_same,
        GoMap.getD]
    · have hn2 : name ≠ n := fun h => hn h.symm
      simp [Call.run, Call.deltas, MemStorage.UpdateCounter, accumulate, hn,
        GoMap.set_other _ _ _ _ hn2]
  | UpdateGauge n value => simp [Call.run, Call.deltas, MemStorage.UpdateGauge, accumulate]
  | UpdateBatchMetrics metrics => simp [Call.run, Call.deltas, batch_counter_slot]

theorem call_gauge_slot (ms : MemStorage) (call : Call) (name : String) :
    (call.run ms).Gauge name = overwrite (ms.Gauge name) (call.values name) := by
  cases call with
  | UpdateCounter n value => simp [Call.run, Call.values, MemStorage.UpdateCounter, overwrite]
  | UpdateGauge n value =>
    by_cases hn : n = name
    · subst hn
      simp [Call.run, Call.values, MemStorage.UpdateGauge, overwrite, GoMap.set_same]
    · have hn2 : name ≠ n := fun h => hn h.symm
      simp [Call.run, Call.values, MemStorage.UpdateGauge, overwrite, hn,
        GoMap.set_other _ _ _ _ hn2]
  | UpdateBatchMetrics metrics => simp [Call.run, Call.values, batch_gauge_slot]

theorem runCalls_counter_slot (ms : MemStorage) (calls : List Call) (name : String) :
    (runCalls ms calls).Counter name
      = accumulate (ms.Counter name) (calls.flatMap (Call.deltas name)) := by
  induction calls generalizing ms with
  | nil => rfl
  | cons call rest ih =>
    have step : runCalls ms (call :: rest) = runCalls (call.run ms) rest := rfl
    rw [step, ih, call_counter_slot, List.flatMap_cons, accumulate_append]

theorem runCalls_gauge_slot (ms : MemStorage) (calls : List Call) (name : String) :
    (runCalls ms calls).Gauge name
      = overwrite (ms.Gauge name) (calls.flatMap (Call.values name)) := by
  induction calls generalizing ms with
  | nil => rfl
  | cons call rest ih =>
    have step : runCalls ms (call :: rest) = runCalls (call.run ms) rest := rfl
    rw [step, ih, call_gauge_slot, List.flatMap_cons, overwrite_append]

/-- C3: on the store reached from `NewMemStorage` by any sequence of
`UpdateCounter`, `UpdateGauge` and `UpdateBatchMetrics` calls, `GetCounter(name)`
returns an error exactly when no call wrote a delta to the counter `name`, and
`GetGauge(name)` returns an error exactly when no call wrote a value to the
gauge `name`; a successful `GetCounter` returns the (wrapped) total of the
deltas written and a successful `GetGauge` the last value written; and on any
store a write of the name under the other kind leaves the lookup as it was. -/
theorem lookup_fails_iff_never_written (calls : List Call) (name : String) :
    ((∃ e, (runCalls NewMemStorage calls).GetCounter name = Except.error e)
      ↔ calls.flatMap (Call.deltas name) = []) ∧
    ((∃ e, (runCalls NewMemStorage calls).GetGauge name = Except.error e)
      ↔ calls.flatMap (Call.values name) = []) ∧
    (∀ v, (runCalls NewMemStorage calls).GetCounter name = Except.ok v
      → v = wrapInt64 (calls.flatMap (Call.deltas name)).sum) ∧
    (∀ v, (runCalls NewMemStorage calls).GetGauge name = Except.ok v
      → (calls.flatMap (Call.values name)).getLast? = some v) ∧
    (∀ (ms : MemStorage) (v : Float64),
      (ms.UpdateGauge name v).1.GetCounter name = ms.GetCounter name) ∧
    (∀ (ms : MemStorage) (d : Int),
      (ms.UpdateCounter name d).1.GetGauge name = ms.GetGauge name) := by
  have hc : (runCalls NewMemStorage calls).Counter name
      = if calls.flatMap (Call.deltas name) = [] then none
        else some (wrapInt64 (calls.flatMap (Call.deltas name)).sum) := by
    rw [runCalls_counter_slot, ← accumulate_none]; rfl
  have hg : (runCalls NewMemStorage calls).Gauge name
      = (calls.flatMap (Call.values name)).getLast? := by
    rw [runCalls_gauge_slot, ← overwrite_none]; rfl
  refine ⟨?_, ?_, ?_, ?_, ?_, ?_⟩
  · unfold MemStorage.GetCounter
    rw [hc]
    by_cases h : calls.flatMap (Call.deltas name) = []
    · simp [h]
    · simp [h]
  · unfold MemStorage.GetGauge
    rw [hg]
    cases h : (calls.flatMap (Call.values name)).getLast? with
    | none => simpa using h
    | some v =>
      have hne : calls.flatMap (Call.values name) ≠ [] := by
        intro h0
        rw [h0] at h
        simp at h
      simp [hne]
  · intro v
    unfold MemStorage.GetCounter
    rw [hc]
    by_cases h : calls.flatMap (Call.deltas name) = []
    · simp [h]
    · simp only [h, if_false]
      intro hv
      exact (Except.ok.inj hv).symm
  · intro v
    unfold MemStorage.GetGauge
    rw [hg]
    cases (calls.flatMap (Call.values name)).getLast? with
    | none => simp
    | some w =>
      intro hv
      rw [Except.ok.inj hv]
  · intro ms v
    rfl
  · intro ms d
    rfl

/-! ## The memory backend: the snapshot -/

/-- C4: on any store `GetAllMetrics` returns a nil error and a map with
exactly the two keys "counter" and "gauge"; the map under "counter" holds a
name with value `v` exactly when `GetCounter(name)` returns `v`, and the map
under "gauge" holds a name with value `v` exactly when `GetGauge(name)` returns
`v`. -/
theorem getAllMetrics_two_maps (ms : MemStorage) :
    ∃ all : GoMap MemStorage.AnyMap, ms.GetAllMetrics = Except.ok all ∧
      (∀ k, (all k).isSome = true ↔ (k = "counter" ∨ k = "gauge")) ∧
      (∃ cm, all "counter" = some (MemStorage.AnyMap.counters cm) ∧
        ∀ name v, cm name = some v ↔ ms.GetCounter name = Except.ok v) ∧
      (∃ gm, all "gauge" = some (MemStorage.AnyMap.gauges gm) ∧
        ∀ name v, gm name = some v ↔ ms.GetGauge name = Except.ok v) := by
  refine ⟨_, rfl, ?_, ⟨ms.Counter, rfl, ?_⟩, ⟨ms.Gauge, rfl, ?_⟩⟩
  · intro k
    by_cases h1 : k = "gauge"
    · simp [GoMap.set, h1]
    · by_cases h2 : k = "counter"
      · simp [GoMap.set, h2]
      · simp [GoMap.set, GoMap.empty, h1, h2]
  · intro name v
    unfold MemStorage.GetCounter
    cases ms.Counter name <;> simp
  · intro name v
    unfold MemStorage.GetGauge
    cases ms.Gauge name <;> simp

/-! ## The memory backend: the batch -/

theorem batch_skips_other_kind (ms : MemStorage) (m : models.Metrics)
    (rest : List models.Metrics) (hg : m.MType ≠ "gauge") (hc : m.MType ≠ "counter") :
    ms.UpdateBatchMetrics (m :: rest) = ms.UpdateBatchMetrics rest := by
  rw [MemStorage.UpdateBatchMetrics, if_neg hg, if_neg hc]

theorem batch_append_skip (ms : MemStorage) (before after : List models.Metrics)
    (m : models.Metrics) (hg : m.MType ≠ "gauge") (hc : m.MType ≠ "counter") :
    ms.UpdateBatchMetrics (before ++ m :: after) = ms.UpdateBatchMetrics (before ++ after) := by
  induction before generalizing ms with
  | nil => exact batch_skips_other_kind ms m after hg hc
  | cons b bs ih =>
    simp only [List.cons_append]
    unfold MemStorage.UpdateBatchMetrics
    by_cases hbg : b.MType = "gauge"
    · rw [if_pos hbg, if_pos hbg]
      cases b.Value with
      | none => rfl
      | some v => exact ih _
    · rw [if_neg hbg, if_neg hbg]
      by_cases hbc : b.MType = "counter"
      · rw [if_pos hbc, if_pos hbc]
        cases b.Delta with
        | none => rfl
        | some d => exact ih _
      · rw [if_neg hbc, if_neg hbc]
        exact ih _

/-- C5: for a batch in which every "gauge" item carries a value and every
"counter" item carries a delta, `UpdateBatchMetrics` returns nil and leaves
the store in the state that calling `UpdateGauge(id, value)` or
`UpdateCounter(id, delta)` for each item in submission order leaves; and in
any batch an item whose kind is neither "gauge" nor "counter" changes nothing
and can be dropped without changing what the call does with the other items. -/
theorem updateBatchMetrics_is_itemwise (ms : MemStorage) (metrics : List models.Metrics)
    (h : ∀ m ∈ metrics, (m.MType = "gauge" → m.Value.isSome = true) ∧
      (m.MType = "counter" → m.Delta.isSome = true)) :
    ms.UpdateBatchMetrics metrics = (applyItems ms metrics, Outcome.returned none) ∧
    (∀ (s : MemStorage) (before after : List models.Metrics) (m : models.Metrics),
      m.MType ≠ "gauge" → m.MType ≠ "counter" →
      s.UpdateBatchMetrics [m] = (s, Outcome.returned none) ∧
      s.UpdateBatchMetrics (before ++ m :: after) = s.UpdateBatchMetrics (before ++ after)) := by
  constructor
  · induction metrics generalizing ms with
    | nil => rfl
    | cons m rest ih =>
      have hm := h m (List.mem_cons_self m rest)
      have hrest : ∀ x ∈ rest, (x.MType = "gauge" → x.Value.isSome = true) ∧
          (x.MType = "counter" → x.Delta.isSome = true) :=
        fun x hx => h x (List.mem_cons_of_mem m hx)
      have step : applyItems ms (m :: rest) = applyItems (applyItem ms m) rest := rfl
      rw [step]
      unfold MemStorage.UpdateBatchMetrics
      by_cases hg : m.MType = "gauge"
      · rw [if_pos hg]
        cases hv : m.Value with
        | none =>
          have := hm.1 hg
          rw [hv] at this
          exact absurd this (by simp)
        | some v =>
          have e : applyItem ms m = { ms with Gauge := ms.Gauge.set m.ID v } := by
            simp [applyItem, hg, hv, MemStorage.UpdateGauge]
          rw [e]
          exact ih _ hrest
      · rw [if_neg hg]
        by_cases hc : m.MType = "counter"
        · rw [if_pos hc]
          cases hd : m.Delta with
          | none =>
            have := hm.2 hc
            rw [hd] at this
            exact absurd this (by simp)
          | some d =>
            have e : applyItem ms m =
                { ms with
                  Counter := ms.Counter.set m.ID (wrapInt64 (ms.Counter.getD m.ID 0 + d)) } := by
              simp [applyItem, hc, hd, MemStorage.UpdateCounter]
            rw [e]
            exact ih _ hrest
        · rw [if_neg hc]
          have e : applyItem ms m = ms := by simp [applyItem, hg, hc]
          rw [e]
          exact ih _ hrest
  · intro s before after m hg hc
    refine ⟨?_, batch_append_skip s before after m hg hc⟩
    rw [batch_skips_other_kind s m [] hg hc]
    rfl

/-- C5 (witness): a batch of a gauge, an item of the unknown kind "another",
and two counter items, applied to a fresh store. -/
theorem updateBatchMetrics_is_itemwise_witness :
    NewMemStorage.UpdateBatchMetrics
        [⟨"Alloc", "gauge", none, some ⟨7⟩⟩, ⟨"x", "another", none, none⟩,
          ⟨"PollCount", "counter", some 5, none⟩, ⟨"PollCount", "counter", some 3, none⟩]
      = (applyItems NewMemStorage
          [⟨"Alloc", "gauge", none, some ⟨7⟩⟩, ⟨"x", "another", none, none⟩,
            ⟨"PollCount", "counter", some 5, none⟩, ⟨"PollCount", "counter", some 3, none⟩],
        Outcome.returned none) :=
  (updateBatchMetrics_is_itemwise NewMemStorage
    [⟨"Alloc", "gauge", none, some ⟨7⟩⟩, ⟨"x", "another", none, none⟩,
      ⟨"PollCount", "counter", some 5, none⟩, ⟨"PollCount", "counter", some 3, none⟩]
    (by decide)).1

end store

/-! ## Connect-with-retry -/

namespace pg

theorem connectToDB_unfold {C E : Type} (OpenDB : Nat → Except E C) (f : Nat) :
    ConnectToDB OpenDB (f + 4) =
      match OpenDB 0 with
      | Except.ok c => ⟨ConnectResult.connected c, 1, []⟩
      | Except.error _ =>
        match OpenDB 1 with
        | Except.ok c => ⟨ConnectResult.connected c, 2, [1]⟩
        | Except.error _ =>
          match OpenDB 2 with
          | Except.ok c => ⟨ConnectResult.connected c, 3, [1, 3]⟩
          | Except.error _ =>
            match OpenDB 3 with
            | Except.ok c => ⟨ConnectResult.connected c, 4, [1, 3, 5]⟩
            | Except.error e => ⟨ConnectResult.failed e, 4, [1, 3, 5]⟩ := by
  unfold ConnectToDB
  rw [ConnectToDB.loop]
  cases h0 : OpenDB 0 with
  | ok c => rfl
  | error e0 =>
    simp only [Nat.zero_add]
    rw [if_neg (by decide)]
    simp only [backoff, List.get?, Nat.sub_self]
    rw [ConnectToDB.loop]
    cases h1 : OpenDB 1 with
    | ok c => rfl
    | error e1 =>
      simp only []
      rw [if_neg (by decide)]
      simp only [backoff, List.get?]
      rw [ConnectToDB.loop]
      cases h2 : OpenDB 2 with
      | ok c => rfl
      | error e2 =>
        simp only []
        rw [if_neg (by decide)]
        simp only [backoff, List.get?]
        rw [ConnectToDB.loop]
        cases h3 : OpenDB 3 with
        | ok c => rfl
        | error e3 =>
          simp only []
          rw [if_pos (by decide)]
          rfl

/-- C6: whatever the outcomes of the connection attempts, `ConnectToDB`
(given at least 4 loop iterations) makes at most 4 attempts.  If attempt `k`
(1 ≤ k ≤ 4) is the first to succeed, it returns that connection after `k`
attempts, having slept exactly the first `k - 1` entries of 1s, 3s, 5s in that
order (1s then 3s, 4s in total, for `k = 3`).  If the first 4 attempts fail, it
returns the error of the 4th after sleeping 1s, 3s and 5s.  It never indexes
`backoff` outside its 3 entries and never needs a fifth iteration. -/
theorem connectToDB_retry_schedule {C E : Type} (OpenDB : Nat → Except E C) (fuel : Nat)
    (hfuel : 4 ≤ fuel) :
    (∀ (k : Nat) (c : C), 1 ≤ k → k ≤ 4 →
      (∀ j, j < k - 1 → ∃ e, OpenDB j = Except.error e) → OpenDB (k - 1) = Except.ok c →
      ConnectToDB OpenDB fuel = ⟨ConnectResult.connected c, k, backoff.take (k - 1)⟩) ∧
    (∀ c : C, (∀ j, j < 2 → ∃ e, OpenDB j = Except.error e) → OpenDB 2 = Except.ok c →
      (ConnectToDB OpenDB fuel).sleeps = [1, 3] ∧ (ConnectToDB OpenDB fuel).sleeps.sum = 4) ∧
    (∀ e : E, (∀ j, j < 3 → ∃ e0, OpenDB j = Except.error e0) → OpenDB 3 = Except.error e →
      ConnectToDB OpenDB fuel = ⟨ConnectResult.failed e, 4, [1, 3, 5]⟩) ∧
    (ConnectToDB OpenDB fuel).attempts ≤ 4 ∧
    (∀ i, (ConnectToDB OpenDB fuel).result ≠ ConnectResult.indexOutOfRange i) ∧
    (ConnectToDB OpenDB fuel).result ≠ ConnectResult.outOfFuel := by
  obtain ⟨f, rfl⟩ : ∃ f, fuel = f + 4 := ⟨fuel - 4, by omega⟩
  rw [connectToDB_unfold]
  refine ⟨?_, ?_, ?_, ?_, ?_, ?_⟩
  · intro k c hk1 hk4 hfail hok
    have hk : k = 1 ∨ k = 2 ∨ k = 3 ∨ k = 4 := by omega
    rcases hk with rfl | rfl | rfl | rfl
    · simp only [Nat.sub_self] at hok
      rw [hok]
      rfl
    · obtain ⟨e0, h0⟩ := hfail 0 (by decide)
      have h1 : OpenDB 1 = Except.ok c := hok
      rw [h0, h1]
      rfl
    · obtain ⟨e0, h0⟩ := hfail 0 (by decide)
      obtain ⟨e1, h1⟩ := hfail 1 (by decide)
      have h2 : OpenDB 2 = Except.ok c := hok
      rw [h0, h1, h2]
      rfl
    · obtain ⟨e0, h0⟩ := hfail 0 (by decide)
      obtain ⟨e1, h1⟩ := hfail 1 (by decide)
      obtain ⟨e2, h2⟩ := hfail 2 (by decide)
      have h3 : OpenDB 3 = Except.ok c := hok
      rw [h0, h1, h2, h3]
      rfl
  · intro c hfail hok
    obtain ⟨e0, h0⟩ := hfail 0 (by decide)
    obtain ⟨e1, h1⟩ := hfail 1 (by decide)
    rw [h0, h1, hok]
    exact ⟨rfl, rfl⟩
  · intro e hfail hlast
    obtain ⟨e0, h0⟩ := hfail 0 (by decide)
    obtain ⟨e1, h1⟩ := hfail 1 (by decide)
    obtain ⟨e2, h2⟩ := hfail 2 (by decide)
    rw [h0, h1, h2, hlast]
  · cases OpenDB 0 <;> cases OpenDB 1 <;> cases OpenDB 2 <;> cases OpenDB 3 <;> simp
  · intro i
    cases OpenDB 0 <;> cases OpenDB 1 <;> cases OpenDB 2 <;> cases OpenDB 3 <;> simp
  · cases OpenDB 0 <;> cases OpenDB 1 <;> cases OpenDB 2 <;> cases OpenDB 3 <;> simp

/-- C6 (witness): a database that refuses the first two attempts and accepts
the third, with room for 10 iterations: connected after 3 attempts, having
slept 1s then 3s. -/
theorem connectToDB_retry_schedule_witness :
    4 ≤ 10 ∧
    ConnectToDB (fun i => if i < 2 then Except.error "refused" else Except.ok "conn") 10
      = (⟨ConnectResult.connected "conn", 3, [1, 3]⟩ : ConnectRun String String) :=
  ⟨by decide,
    (connectToDB_retry_schedule
      (fun i => if i < 2 then Except.error "refused" else Except.ok "conn") 10 (by decide)).1
      3 "conn" (by decide) (by decide)
      (fun j hj => ⟨"refused", by
        have hj2 : j < 2 := hj
        simp [hj2]⟩)
      (by simp)⟩

end pg

/-! ## The transactional batch of the relational backend -/

namespace pg

theorem loop_calls {σ : Type} (d : Driver σ) (metrics : List models.Metrics) (s : σ) :
    (Store.UpdateBatchMetrics.loop d metrics s).2.1
      = (metrics.filterMap upsertOf).map SqlCall.ExecContext := by
  induction metrics generalizing s with
  | nil => rfl
  | cons m rest ih =>
    unfold Store.UpdateBatchMetrics.loop
    by_cases hg : m.MType = "gauge"
    · simp [hg, upsertOf, ih]
    · by_cases hc : m.MType = "counter"
      · simp [hg, hc, upsertOf, ih]
      · simp [hg, hc, upsertOf, ih]

theorem loop_keeps_aborted {σ : Type} (d : Driver σ) (Aborted : σ → Prop)
    (hkeep : ∀ stmt t, Aborted t → Aborted (d.ExecContext stmt t).1)
    (metrics : List models.Metrics) (s : σ) (hs : Aborted s) :
    Aborted (Store.UpdateBatchMetrics.loop d metrics s).1 := by
  induction metrics generalizing s with
  | nil => exact hs
  | cons m rest ih =>
    unfold Store.UpdateBatchMetrics.loop
    by_cases hg : m.MType = "gauge"
    · rw [if_pos hg]
      exact ih _ (hkeep _ _ hs)
    · rw [if_neg hg]
      by_cases hc : m.MType = "counter"
      · rw [if_pos hc]
        exact ih _ (hkeep _ _ hs)
      · rw [if_neg hc]
        exact ih _ hs

theorem loop_failure_aborts {σ : Type} (d : Driver σ) (Aborted : σ → Prop)
    (hfail : ∀ stmt t, (d.ExecContext stmt t).2 ≠ none → Aborted (d.ExecContext stmt t).1)
    (hkeep : ∀ stmt t, Aborted t → Aborted (d.ExecContext stmt t).1)
    (metrics : List models.Metrics) (s : σ)
    (hlog : (Store.UpdateBatchMetrics.loop d metrics s).2.2 ≠ []) :
    Aborted (Store.UpdateBatchMetrics.loop d metrics s).1 := by
  induction metrics generalizing s with
  | nil => exact absurd rfl hlog
  | cons m rest ih =>
    unfold Store.UpdateBatchMetrics.loop at hlog ⊢
    by_cases hg : m.MType = "gauge"
    · rw [if_pos hg] at hlog ⊢
      by_cases he : (d.ExecContext (Upsert.gauge m.ID m.Value) s).2 = none
      · apply ih
        simpa [he] using hlog
      · exact loop_keeps_aborted d Aborted hkeep rest _ (hfail _ _ he)
    · rw [if_neg hg] at hlog ⊢
      by_cases hc : m.MType = "counter"
      · rw [if_pos hc] at hlog ⊢
        by_cases he : (d.ExecContext (Upsert.counter m.ID m.Delta) s).2 = none
        · apply ih
          simpa [he] using hlog
        · exact loop_keeps_aborted d Aborted hkeep rest _ (hfail _ _ he)
      · rw [if_neg hc] at hlog ⊢
        exact ih _ hlog

theorem loop_keeps_visible {σ α : Type} (d : Driver σ) (visible : σ → α)
    (hexec : ∀ stmt t, visible (d.ExecContext stmt t).1 = visible t)
    (metrics : List models.Metrics) (s : σ) :
    visible (Store.UpdateBatchMetrics.loop d metrics s).1 = visible s := by
  induction metrics generalizing s with
  | nil => rfl
  | cons m rest ih =>
    unfold Store.UpdateBatchMetrics.loop
    by_cases hg : m.MType = "gauge"
    · rw [if_pos hg]
      exact (ih _).trans (hexec _ _)
    · rw [if_neg hg]
      by_cases hc : m.MType = "counter"
      · rw [if_pos hc]
        exact (ih _).trans (hexec _ _)
      · rw [if_neg hc]
        exact ih _

theorem batch_run_eq {σ : Type} (d : Driver σ) (metrics : List models.Metrics) (s : σ)
    (hbegin : (d.BeginTx s).2 = none) :
    Store.UpdateBatchMetrics d metrics s =
      ⟨(d.Rollback (d.Commit (Store.UpdateBatchMetrics.loop d metrics (d.BeginTx s).1).1).1).1,
        (d.Commit (Store.UpdateBatchMetrics.loop d metrics (d.BeginTx s).1).1).2,
        [SqlCall.BeginTx] ++ (Store.UpdateBatchMetrics.loop d metrics (d.BeginTx s).1).2.1
          ++ [SqlCall.Commit, SqlCall.Rollback],
        (Store.UpdateBatchMetrics.loop d metrics (d.BeginTx s).1).2.2⟩ := by
  unfold Store.UpdateBatchMetrics
  simp only [hbegin]

theorem batch_failure_generic {σ α : Type} (d : Driver σ) (Aborted : σ → Prop)
    (visible : σ → α)
    (hfailure : ∀ stmt t, (d.ExecContext stmt t).2 ≠ none → Aborted (d.ExecContext stmt t).1)
    (hkeep : ∀ stmt t, Aborted t → Aborted (d.ExecContext stmt t).1)
    (hcommit : ∀ t, Aborted t → (d.Commit t).2 ≠ none ∧ visible (d.Commit t).1 = visible t)
    (hvb : ∀ t, visible (d.BeginTx t).1 = visible t)
    (hve : ∀ stmt t, visible (d.ExecContext stmt t).1 = visible t)
    (hvr : ∀ t, visible (d.Rollback t).1 = visible t)
    (metrics : List models.Metrics) (s : σ) (hbegin : (d.BeginTx s).2 = none)
    (hlog : (Store.UpdateBatchMetrics d metrics s).logged ≠ []) :
    (Store.UpdateBatchMetrics d metrics s).err ≠ none ∧
    visible (Store.UpdateBatchMetrics d metrics s).state = visible s := by
  rw [batch_run_eq d metrics s hbegin] at hlog ⊢
  have hab := loop_failure_aborts d Aborted hfailure hkeep metrics (d.BeginTx s).1 hlog
  have hc := hcommit _ hab
  refine ⟨hc.1, ?_⟩
  show visible (d.Rollback _).1 = visible s
  rw [hvr, hc.2, loop_keeps_visible d visible hve, hvb]

theorem abortingDriver_failure (stmt : Upsert) (t : ToyDB)
    (h : (abortingDriver.ExecContext stmt t).2 ≠ none) :
    (abortingDriver.ExecContext stmt t).1.aborted = true := by
  by_cases ha : t.aborted = true
  · simp [abortingDriver, ha]
  · by_cases hn : stmt.hasNull = true
    · simp [abortingDriver, ha, hn]
    · simp [abortingDriver, ha, hn] at h

theorem abortingDriver_keep (stmt : Upsert) (t : ToyDB) (ha : t.aborted = true) :
    (abortingDriver.ExecContext stmt t).1.aborted = true := by
  simp [abortingDriver, ha]

theorem abortingDriver_exec_committed (stmt : Upsert) (t : ToyDB) :
    (abortingDriver.ExecContext stmt t).1.committed = t.committed := by
  by_cases ha : t.aborted = true
  · simp [abortingDriver, ha]
  · by_cases hn : stmt.hasNull = true
    · simp [abortingDriver, ha, hn]
    · simp [abortingDriver, ha, hn]

theorem abortingDriver_commit_aborted (t : ToyDB) (ha : t.aborted = true) :
    abortingDriver.Commit t
      = ({ t with pending := [], aborted := false },
          some "commit unexpectedly resulted in rollback") := by
  simp [abortingDriver, ha]

/-- C7: on the PostgreSQL connection, for every batch and every state of the
database, if executing the upsert of an item fails inside
`Store.UpdateBatchMetrics` (a failure is what the loop logs), the call returns
an error, the one of `Commit`, the transaction is rolled back instead of
committed, and the committed data are what they were before the call: none of
the batch's items takes effect.  The same holds on every driver that follows
PostgreSQL's rule that a failed statement aborts the transaction and that an
aborted transaction cannot be committed. -/
theorem pg_batch_failure_rolls_back (metrics : List models.Metrics) (s : ToyDB)
    (hfail : (Store.UpdateBatchMetrics abortingDriver metrics s).logged ≠ []) :
    (Store.UpdateBatchMetrics abortingDriver metrics s).err
      = some "commit unexpectedly resulted in rollback" ∧
    (Store.UpdateBatchMetrics abortingDriver metrics s).state.committed = s.committed ∧
    (Store.UpdateBatchMetrics abortingDriver metrics s).state.pending = [] ∧
    (∀ (σ α : Type) (d : Driver σ) (Aborted : σ → Prop) (visible : σ → α),
      (∀ stmt t, (d.ExecContext stmt t).2 ≠ none → Aborted (d.ExecContext stmt t).1) →
      (∀ stmt t, Aborted t → Aborted (d.ExecContext stmt t).1) →
      (∀ t, Aborted t → (d.Commit t).2 ≠ none ∧ visible (d.Commit t).1 = visible t) →
      (∀ t, visible (d.BeginTx t).1 = visible t) →
      (∀ stmt t, visible (d.ExecContext stmt t).1 = visible t) →
      (∀ t, visible (d.Rollback t).1 = visible t) →
      ∀ (batch : List models.Metrics) (t : σ), (d.BeginTx t).2 = none →
        (Store.UpdateBatchMetrics d batch t).logged ≠ [] →
        (Store.UpdateBatchMetrics d batch t).err ≠ none ∧
        visible (Store.UpdateBatchMetrics d batch t).state = visible t) := by
  have hrun := batch_run_eq abortingDriver metrics s rfl
  have hab : (Store.UpdateBatchMetrics.loop abortingDriver metrics
      (abortingDriver.BeginTx s).1).1.aborted = true := by
    rw [hrun] at hfail
    exact loop_failure_aborts abortingDriver (fun t => t.aborted = true)
      abortingDriver_failure abortingDriver_keep metrics _ hfail
  have hvis : (Store.UpdateBatchMetrics.loop abortingDriver metrics
      (abortingDriver.BeginTx s).1).1.committed = s.committed :=
    loop_keeps_visible abortingDriver ToyDB.committed abortingDriver_exec_committed metrics
      (abortingDriver.BeginTx s).1
  have hcommit := abortingDriver_commit_aborted _ hab
  rw [hrun]
  refine ⟨?_, ?_, ?_, ?_⟩
  · show (abortingDriver.Commit _).2 = _
    rw [hcommit]
  · show (abortingDriver.Rollback (abortingDriver.Commit _).1).1.committed = s.committed
    rw [hcommit, ← hvis]
    rfl
  · rfl
  · intro σ α d Aborted visible h1 h2 h3 h4 h5 h6 batch t hb hl
    exact batch_failure_generic d Aborted visible h1 h2 h3 h4 h5 h6 batch t hb hl

/-- C7 (witness): the batch of a gauge, a gauge without a value and a counter
on an empty database: the second upsert fails, the call returns the error of
`Commit`, and nothing is committed. -/
theorem pg_batch_failure_rolls_back_witness :
    (Store.UpdateBatchMetrics abortingDriver
        [⟨"Alloc", "gauge", none, some ⟨7⟩⟩, ⟨"Bad", "gauge", none, none⟩,
          ⟨"PollCount", "counter", some 5, none⟩] ⟨[], [], false⟩).logged ≠ [] ∧
    (Store.UpdateBatchMetrics abortingDriver
        [⟨"Alloc", "gauge", none, some ⟨7⟩⟩, ⟨"Bad", "gauge", none, none⟩,
          ⟨"PollCount", "counter", some 5, none⟩] ⟨[], [], false⟩).err
      = some "commit unexpectedly resulted in rollback" ∧
    (Store.UpdateBatchMetrics abortingDriver
        [⟨"Alloc", "gauge", none, some ⟨7⟩⟩, ⟨"Bad", "gauge", none, none⟩,
          ⟨"PollCount", "counter", some 5, none⟩] ⟨[], [], false⟩).state.committed = [] :=
  ⟨by decide,
    (pg_batch_failure_rolls_back
      [⟨"Alloc", "gauge", none, some ⟨7⟩⟩, ⟨"Bad", "gauge", none, none⟩,
        ⟨"PollCount", "counter", some 5, none⟩] ⟨[], [], false⟩ (by decide)).1,
    (pg_batch_failure_rolls_back
      [⟨"Alloc", "gauge", none, some ⟨7⟩⟩, ⟨"Bad", "gauge", none, none⟩,
        ⟨"PollCount", "counter", some 5, none⟩] ⟨[], [], false⟩ (by decide)).2.1⟩

end pg

/-! ## The legacy single-metric handler -/

namespace handlers

theorem parseURL_short (r : Request) (h : (urlParts r).length < 5) :
    (parseURL r).2 = some "Wrong URL" := by
  unfold urlParts at h
  simp [parseURL, h]

theorem parseURL_long (r : Request) (h : ¬ (urlParts r).length < 5) :
    (parseURL r).2 = none ∧
    (parseURL r).1.getD "type" "" = (urlParts r).getD 2 "" ∧
    (parseURL r).1.getD "name" "" = (urlParts r).getD 3 "" ∧
    (parseURL r).1.getD "value" "" = (urlParts r).getD 4 "" := by
  unfold urlParts at h
  unfold parseURL urlParts
  rw [if_neg h]
  refine ⟨rfl, ?_, ?_, ?_⟩
  · simp [GoMap.getD, GoMap.set]
  · simp [GoMap.getD, GoMap.set]
  · simp [GoMap.getD, GoMap.set]

theorem postMetrics_method (ParseFloat : String → Option Float64) (r : Request)
    (hm : r.Method ≠ "POST") : PostMetrics ParseFloat r = some 405 := by
  unfold PostMetrics
  rw [if_pos (by simpa [MethodPost] using hm)]
  rfl

theorem postMetrics_short (ParseFloat : String → Option Float64) (r : Request)
    (hm : r.Method = "POST") (hlen : (urlParts r).length < 5) :
    PostMetrics ParseFloat r = some 400 := by
  have hp := parseURL_short r hlen
  unfold PostMetrics
  rw [if_neg (by simp [MethodPost, hm])]
  simp only [hp]
  rfl

theorem postMetrics_noname (ParseFloat : String → Option Float64) (r : Request)
    (hm : r.Method = "POST") (hlen : ¬ (urlParts r).length < 5)
    (hname : (urlParts r).getD 3 "" = "") :
    PostMetrics ParseFloat r = some 404 := by
  obtain ⟨h1, _, h3, _⟩ := parseURL_long r hlen
  unfold PostMetrics
  rw [if_neg (by simp [MethodPost, hm])]
  simp only [h1, h3]
  rw [if_pos hname]
  rfl

theorem postMetrics_long (ParseFloat : String → Option Float64) (r : Request)
    (hm : r.Method = "POST") (hlen : ¬ (urlParts r).length < 5)
    (hname : (urlParts r).getD 3 "" ≠ "") :
    PostMetrics ParseFloat r =
      match typeMetric ParseFloat ((urlParts r).getD 4 "") with
      | Dyn.int64 _ => if (urlParts r).getD 2 "" = "gauge" then some 400 else none
      | Dyn.float64 _ => if (urlParts r).getD 2 "" = "counter" then some 400 else none
      | Dyn.string _ => some 400 := by
  obtain ⟨h1, h2, h3, h4⟩ := parseURL_long r hlen
  unfold PostMetrics
  rw [if_neg (by simp [MethodPost, hm])]
  simp only [h1, h2, h3, h4]
  rw [if_neg hname]
  rfl

/-- C8: for a request whose kind segment is "gauge" or "counter", the status
of the legacy `PostMetrics` handler is the one the ordered decision gives: 405
for a method other than POST, else 400 for fewer than 5 parts, else 404 for an
empty name, else 400 for a value that is neither an `int64` nor a float, else
400 for an integer sent as "gauge" or a float sent as "counter", else 200 (no
status written); with the four examples of the specification.  The proof does
not use the restriction on the kind: the equation holds for every request. -/
theorem postMetrics_decision_order (ParseFloat : String → Option Float64) (r : Request)
    (_hkind : (urlParts r).getD 2 "" = "gauge" ∨ (urlParts r).getD 2 "" = "counter") :
    responseStatus (PostMetrics ParseFloat r) = specStatus ParseFloat r ∧
    (PostMetrics ParseFloat r = none ↔ specStatus ParseFloat r = 200) ∧
    responseStatus (PostMetrics ParseFloat ⟨"POST", "/update/counter//5"⟩) = 404 ∧
    responseStatus (PostMetrics ParseFloat ⟨"POST", "/update/gauge/speedAverage/200"⟩) = 400 ∧
    (ParseFloat "notanumber" = none →
      responseStatus (PostMetrics ParseFloat ⟨"POST", "/update/gauge/x/notanumber"⟩) = 400) ∧
    ((ParseFloat "20.0003").isSome = true →
      responseStatus (PostMetrics ParseFloat ⟨"POST", "/update/counter/allocCount/20.0003"⟩)
        = 400) := by
  have main : PostMetrics ParseFloat r
      = if specStatus ParseFloat r = 200 then none else some (specStatus ParseFloat r) := by
    have hspec : specStatus ParseFloat r =
        if r.Method ≠ "POST" then 405
        else if (urlParts r).length < 5 then 400
        else if (urlParts r).getD 3 "" = "" then 404
        else if (ParseInt ((urlParts r).getD 4 "")).isNone
            ∧ (ParseFloat ((urlParts r).getD 4 "")).isNone then 400
        else if (ParseInt ((urlParts r).getD 4 "")).isSome
            ∧ (urlParts r).getD 2 "" = "gauge" then 400
        else if (ParseInt ((urlParts r).getD 4 "")).isNone
            ∧ (ParseFloat ((urlParts r).getD 4 "")).isSome
            ∧ (urlParts r).getD 2 "" = "counter" then 400
        else 200 := rfl
    rw [hspec]
    by_cases hm : r.Method = "POST"
    · rw [if_neg (not_not.mpr hm)]
      by_cases hlen : (urlParts r).length < 5
      · rw [postMetrics_short ParseFloat r hm hlen, if_pos hlen]
        rfl
      · rw [if_neg hlen]
        by_cases hname : (urlParts r).getD 3 "" = ""
        · rw [postMetrics_noname ParseFloat r hm hlen hname, if_pos hname]
          rfl
        · rw [postMetrics_long ParseFloat r hm hlen hname, if_neg hname]
          unfold typeMetric
          generalize (urlParts r).getD 2 "" = kind
          generalize (urlParts r).getD 4 "" = value
          cases hi : ParseInt value with
          | some i =>
            by_cases hg : kind = "gauge"
            · simp [hg]
            · simp [hg]
          | none =>
            cases hf : ParseFloat value with
            | some f =>
              by_cases hc : kind = "counter"
              · simp [hc]
              · simp [hc]
            | none => simp
    · rw [postMetrics_method ParseFloat r hm, if_pos hm]
      rfl
  refine ⟨?_, ?_, ?_, ?_, ?_, ?_⟩
  · rw [main]
    by_cases h : specStatus ParseFloat r = 200
    · simp [h, responseStatus, StatusOK]
    · simp [h, responseStatus]
  · rw [main]
    by_cases h : specStatus ParseFloat r = 200
    · simp [h]
    · simp [h]
  · rfl
  · rfl
  · intro h
    have hlen : ¬ (urlParts ⟨"POST", "/update/gauge/x/notanumber"⟩).length < 5 := by decide
    have hv : (urlParts ⟨"POST", "/update/gauge/x/notanumber"⟩).getD 4 "" = "notanumber" := by
      decide
    have hi : ParseInt "notanumber" = none := by decide
    rw [postMetrics_long ParseFloat _ rfl hlen (by decide), hv]
    unfold typeMetric
    simp only [hi, h]
    rfl
  · intro h
    have hlen : ¬ (urlParts ⟨"POST", "/update/counter/allocCount/20.0003"⟩).length < 5 := by
      decide
    have hv : (urlParts ⟨"POST", "/update/counter/allocCount/20.0003"⟩).getD 4 "" = "20.0003" := by
      decide
    have hk : (urlParts ⟨"POST", "/update/counter/allocCount/20.0003"⟩).getD 2 "" = "counter" := by
      decide
    have hi : ParseInt "20.0003" = none := by decide
    obtain ⟨f, hf⟩ := Option.isSome_iff_exists.mp h
    rw [postMetrics_long ParseFloat _ rfl hlen (by decide), hv, hk]
    unfold typeMetric
    simp only [hi, hf]
    rfl

/-- C8 (witness): with a float parser that rejects every text, the request
`POST /update/gauge/x/notanumber` has kind "gauge" and gets 400. -/
theorem postMetrics_decision_order_witness :
    (urlParts ⟨"POST", "/update/gauge/x/notanumber"⟩).getD 2 "" = "gauge" ∧
    responseStatus (PostMetrics (fun _ => none) ⟨"POST", "/update/gauge/x/notanumber"⟩)
      = specStatus (fun _ => none) ⟨"POST", "/update/gauge/x/notanumber"⟩ ∧
    specStatus (fun _ => none) ⟨"POST", "/update/gauge/x/notanumber"⟩ = 400 :=
  ⟨by decide,
    (postMetrics_decision_order (fun _ => none) ⟨"POST", "/update/gauge/x/notanumber"⟩
      (Or.inl (by decide))).1,
    by decide⟩

/-- C9 (the code at the failing input): for `POST /update/another/x/5`, whose
kind "another" is neither "gauge" nor "counter" and whose name is not empty,
`PostMetrics` writes no status, so the response is 200 and not 400; this holds
whatever the float parser does, since "5" already parses as an integer. -/
theorem postMetrics_unknown_kind_accepted (ParseFloat : String → Option Float64) :
    (urlParts ⟨"POST", "/update/another/x/5"⟩) = ["", "update", "another", "x", "5"] ∧
    PostMetrics ParseFloat ⟨"POST", "/update/another/x/5"⟩ = none ∧
    responseStatus (PostMetrics ParseFloat ⟨"POST", "/update/another/x/5"⟩) = 200 ∧
    responseStatus (PostMetrics ParseFloat ⟨"POST", "/update/another/x/5"⟩) ≠ 400 := by
  refine ⟨by decide, rfl, rfl, ?_⟩
  have h : responseStatus (PostMetrics ParseFloat ⟨"POST", "/update/another/x/5"⟩) = 200 := rfl
  rw [h]
  decide

end handlers

/-! ## The wire encoder -/

namespace metrics

/-- C10 (counterexample): the object written for a metric of type "gauge"
contains the key "delta", and the one written for a metric of type "counter"
contains the key "value". -/
theorem marshalJSON_gauge_has_delta :
    "delta" ∈ objectKeys (RequestMetric.MarshalJSON ⟨"Alloc", "gauge", 0, ⟨7⟩⟩).1 ∧
    (⟨"Alloc", "gauge", 0, ⟨7⟩⟩ : RequestMetric).MType ≠ "counter" ∧
    "value" ∈ objectKeys (RequestMetric.MarshalJSON ⟨"PollCount", "counter", 5, ⟨0⟩⟩).1 ∧
    (⟨"PollCount", "counter", 5, ⟨0⟩⟩ : RequestMetric).MType ≠ "gauge" := by
  refine ⟨by decide, by decide, by decide, by decide⟩

/-- C10 (amended): for every `RequestMetric`, whatever its `MType`, the object
written by `RequestMetric.MarshalJSON` has exactly the keys "id", "type",
"delta" and "value", in that order, so it contains both "delta" and "value";
the chunk after "delta" is the metric's `Delta`, the chunk after "value" its
`Value`, and the error returned is nil. -/
theorem marshalJSON_writes_all_keys (m : RequestMetric) :
    objectKeys (RequestMetric.MarshalJSON m).1 = ["id", "type", "delta", "value"] ∧
    "delta" ∈ objectKeys (RequestMetric.MarshalJSON m).1 ∧
    "value" ∈ objectKeys (RequestMetric.MarshalJSON m).1 ∧
    (RequestMetric.MarshalJSON m).1 =
      [ jwriter.Op.rawByte (Char.ofNat 123),
        jwriter.Op.rawString "\"id\":", jwriter.Op.string m.ID,
        jwriter.Op.rawString ",\"type\":", jwriter.Op.string m.MType,
        jwriter.Op.rawString ",\"delta\":", jwriter.Op.int64 m.Delta,
        jwriter.Op.rawString ",\"value\":", jwriter.Op.float64 m.Value,
        jwriter.Op.rawByte (Char.ofNat 125) ] ∧
    (RequestMetric.MarshalJSON m).2 = none := by
  have hk : objectKeys (RequestMetric.MarshalJSON m).1 = ["id", "type", "delta", "value"] := rfl
  refine ⟨hk, ?_, ?_, rfl, rfl⟩
  · rw [hk]; decide
  · rw [hk]; decide

end metrics

/-! ## The memory backend: a batch item without its field -/

namespace store

/-- C12 (the code at the failing input): on a fresh store, the batch of a
"gauge" item with no value followed by the well-formed "counter" item
`PollCount += 5` faults with a nil-pointer dereference at the first item; the
call does not return, and the counter item after it is not applied
(`GetCounter("PollCount")` still fails).  The same happens for a "counter"
item with no delta in front of a well-formed "gauge" item. -/
theorem updateBatchMetrics_faults_on_nil_field :
    (NewMemStorage.UpdateBatchMetrics
        [⟨"Bad", "gauge", none, none⟩, ⟨"PollCount", "counter", some 5, none⟩]).2
      = Outcome.panicked "invalid memory address or nil pointer dereference" ∧
    (NewMemStorage.UpdateBatchMetrics
        [⟨"Bad", "gauge", none, none⟩, ⟨"PollCount", "counter", some 5, none⟩]).2
      ≠ Outcome.returned none ∧
    (NewMemStorage.UpdateBatchMetrics
        [⟨"Bad", "gauge", none, none⟩, ⟨"PollCount", "counter", some 5, none⟩]).1.GetCounter
        "PollCount"
      = Except.error "PollCount does not exists" ∧
    (NewMemStorage.UpdateBatchMetrics
        [⟨"Bad", "counter", none, none⟩, ⟨"Alloc", "gauge", none, some ⟨7⟩⟩]).2
      = Outcome.panicked "invalid memory address or nil pointer dereference" ∧
    (NewMemStorage.UpdateBatchMetrics
        [⟨"Bad", "counter", none, none⟩, ⟨"Alloc", "gauge", none, some ⟨7⟩⟩]).1.GetGauge "Alloc"
      = Except.error "Alloc does not exists" := by
  refine ⟨rfl, by decide, rfl, rfl, rfl⟩

end store

/-! ## The wire codec: numbers -/

namespace jwriter

theorem digitChar_toNat (d : Nat) (h : d < 10) : (digitChar d).toNat = 48 + d := by
  have hd : d = 0 ∨ d = 1 ∨ d = 2 ∨ d = 3 ∨ d = 4 ∨ d = 5 ∨ d = 6 ∨ d = 7 ∨ d = 8 ∨ d = 9 := by
    omega
  rcases hd with rfl | rfl | rfl | rfl | rfl | rfl | rfl | rfl | rfl | rfl <;> rfl

theorem isDigit_digitChar (d : Nat) (h : d < 10) : jlexer.isDigit (digitChar d) = true := by
  unfold jlexer.isDigit
  rw [digitChar_toNat d h]
  simp
  omega

theorem formatNatAux_append (fuel n : Nat) (acc : List Char) (h : n < fuel) :
    formatNatAux fuel n acc = formatNatAux fuel n [] ++ acc := by
  induction fuel generalizing n acc with
  | zero => omega
  | succ fuel ih =>
    unfold formatNatAux
    by_cases h10 : n < 10
    · simp [h10]
    · have hlt : n / 10 < fuel := by omega
      simp only [h10, if_false]
      rw [ih (n / 10) (digitChar (n % 10) :: acc) hlt, ih (n / 10) [digitChar (n % 10)] hlt]
      simp

theorem formatNatAux_digits (fuel n : Nat) (h : n < fuel) :
    ∀ c ∈ formatNatAux fuel n [], jlexer.isDigit c = true := by
  induction fuel generalizing n with
  | zero => omega
  | succ fuel ih =>
    unfold formatNatAux
    by_cases h10 : n < 10
    · simp only [h10, if_true]
      intro c hc
      rw [List.mem_singleton] at hc
      rw [hc]
      exact isDigit_digitChar n h10
    · have hlt : n / 10 < fuel := by omega
      simp only [h10, if_false]
      rw [formatNatAux_append fuel (n / 10) _ hlt]
      intro c hc
      rw [List.mem_append] at hc
      rcases hc with hc | hc
      · exact ih (n / 10) hlt c hc
      · rw [List.mem_singleton] at hc
        rw [hc]
        exact isDigit_digitChar _ (Nat.mod_lt _ (by decide))

theorem formatNatAux_ne_nil (fuel n : Nat) (h : n < fuel) : formatNatAux fuel n [] ≠ [] := by
  cases fuel with
  | zero => omega
  | succ fuel =>
    unfold formatNatAux
    by_cases h10 : n < 10
    · simp [h10]
    · have hlt : n / 10 < fuel := by omega
      simp only [h10, if_false]
      rw [formatNatAux_append fuel (n / 10) _ hlt]
      simp

theorem formatNatAux_value (fuel n : Nat) (h : n < fuel) :
    (formatNatAux fuel n []).foldl (fun a c => a * 10 + (c.toNat - 48)) 0 = n := by
  induction fuel generalizing n with
  | zero => omega
  | succ fuel ih =>
    unfold formatNatAux
    by_cases h10 : n < 10
    · simp only [h10, if_true, List.foldl_cons, List.foldl_nil]
      rw [digitChar_toNat n h10]
      omega
    · have hlt : n / 10 < fuel := by omega
      simp only [h10, if_false]
      rw [formatNatAux_append fuel (n / 10) _ hlt, List.foldl_append, ih (n / 10) hlt]
      simp only [List.foldl_cons, List.foldl_nil]
      rw [digitChar_toNat _ (Nat.mod_lt _ (by decide))]
      omega

end jwriter

namespace handlers

theorem foldl_digits_ge (cs : List Char) (k : Nat) :
    k ≤ cs.foldl (fun a c => a * 10 + (c.toNat - 48)) k := by
  induction cs generalizing k with
  | nil => exact Nat.le_refl k
  | cons c cs ih =>
    simp only [List.foldl_cons]
    exact Nat.le_trans (by omega) (ih (k * 10 + (c.toNat - 48)))

theorem parseUintLoop_digits (cs : List Char) (k : Nat)
    (hd : ∀ c ∈ cs, jlexer.isDigit c = true)
    (hmax : cs.foldl (fun a c => a * 10 + (c.toNat - 48)) k ≤ maxUint64) :
    parseUintLoop cs k = some (cs.foldl (fun a c => a * 10 + (c.toNat - 48)) k) := by
  induction cs generalizing k with
  | nil => rfl
  | cons c cs ih =>
    have hc : jlexer.isDigit c = true := hd c (List.mem_cons_self c cs)
    have hc2 : 48 ≤ c.toNat ∧ c.toNat ≤ 57 := by
      simpa [jlexer.isDigit] using hc
    have hdv : digitValue c = some (c.toNat - 48) := by
      simp [digitValue, hc2]
    simp only [List.foldl_cons] at hmax ⊢
    have hge := foldl_digits_ge cs (k * 10 + (c.toNat - 48))
    have hk : k * 10 + (c.toNat - 48) ≤ maxUint64 := Nat.le_trans hge hmax
    unfold parseUintLoop
    simp only [hdv]
    unfold maxUint64 at hk ⊢
    rw [if_neg (by omega), if_neg (by omega)]
    exact ih _ (fun x hx => hd x (List.mem_cons_of_mem c hx)) hmax

end handlers

namespace jwriter

theorem isDigit_ne_sign (c : Char) (h : jlexer.isDigit c = true) :
    ¬ (c = Char.ofNat 43 ∨ c = Char.ofNat 45) := by
  rintro (rfl | rfl) <;> revert h <;> decide

theorem parseUint_formatNat (n : Nat) (h : n ≤ handlers.maxUint64) :
    handlers.ParseUint (formatNat n) = some n := by
  have hne := formatNatAux_ne_nil (n + 1) n (Nat.lt_succ_self n)
  have hval := formatNatAux_value (n + 1) n (Nat.lt_succ_self n)
  have hdig := formatNatAux_digits (n + 1) n (Nat.lt_succ_self n)
  have hloop := handlers.parseUintLoop_digits (formatNatAux (n + 1) n []) 0 hdig
    (by rw [hval]; exact h)
  rw [hval] at hloop
  unfold formatNat handlers.ParseUint
  cases hf : formatNatAux (n + 1) n [] with
  | nil => exact absurd hf hne
  | cons c cs =>
    rw [hf] at hloop
    exact hloop

theorem parseInt_formatInt (n : Int) (h : InInt64 n) :
    handlers.ParseInt (String.mk (formatInt n)) = some n := by
  unfold InInt64 minInt64 maxInt64 at h
  have hne := formatNatAux_ne_nil (n.natAbs + 1) n.natAbs (Nat.lt_succ_self _)
  have hdig := formatNatAux_digits (n.natAbs + 1) n.natAbs (Nat.lt_succ_self _)
  have hu := parseUint_formatNat n.natAbs (by unfold handlers.maxUint64; omega)
  unfold handlers.ParseInt formatInt
  by_cases hneg : n < 0
  · simp only [hneg, if_true]
    have e : (if (Char.ofNat 45 = Char.ofNat 43 ∨ Char.ofNat 45 = Char.ofNat 45)
        then formatNat n.natAbs else Char.ofNat 45 :: formatNat n.natAbs)
        = formatNat n.natAbs := by simp
    show (match handlers.ParseUint (if (Char.ofNat 45 = Char.ofNat 43 ∨
        Char.ofNat 45 = Char.ofNat 45) then formatNat n.natAbs
        else Char.ofNat 45 :: formatNat n.natAbs) with
      | none => none
      | some un =>
        if (!decide (Char.ofNat 45 = Char.ofNat 45) && decide (un ≥ 9223372036854775808)) = true
        then none
        else if (decide (Char.ofNat 45 = Char.ofNat 45) && decide (un > 9223372036854775808))
          = true then none
        else some (if decide (Char.ofNat 45 = Char.ofNat 45) = true then -(un : Int)
          else (un : Int))) = some n
    rw [e, hu]
    have h1 : ¬ (n.natAbs > 9223372036854775808) := by omega
    simp [h1]
    rw [abs_of_neg hneg]
    omega
  · simp only [hneg, if_false]
    unfold formatNat at hu ⊢
    cases hf : formatNatAux (n.natAbs + 1) n.natAbs [] with
    | nil => exact absurd hf hne
    | cons c cs =>
      have hc : jlexer.isDigit c = true := hdig c (by rw [hf]; exact List.mem_cons_self c cs)
      have hsign := isDigit_ne_sign c hc
      have hminus : c ≠ Char.ofNat 45 := fun hh => hsign (Or.inr hh)
      have hplus : c ≠ Char.ofNat 43 := fun hh => hsign (Or.inl hh)
      rw [hf] at hu
      have h1 : ¬ (9223372036854775808 ≤ n.natAbs) := by omega
      simp [hplus, hminus, hu, h1]
      omega

end jwriter

/-! ## The wire codec: scanning what the writer wrote -/

namespace jlexer

theorem scanNumber_append (xs t : List Char) :
    ∀ (hasE afterE hasDot : Bool) (b : List Char) (c : Char) (r : List Char),
      scanNumber hasE afterE hasDot xs = some (b, c :: r) →
      scanNumber hasE afterE hasDot (xs ++ t) = some (b, c :: (r ++ t)) := by
  induction xs with
  | nil =>
    intro hasE afterE hasDot b c r h
    simp [scanNumber] at h
  | cons x xs ih =>
    intro hasE afterE hasDot b c r h
    rw [List.cons_append]
    unfold scanNumber at h ⊢
    by_cases h1 : isDigit x = true
    · rw [if_pos h1] at h ⊢
      simp only [Option.map_eq_some'] at h
      obtain ⟨p, hp, hpe⟩ := h
      simp only [Prod.mk.injEq] at hpe
      obtain ⟨rfl, hr⟩ := hpe
      have hp2 : scanNumber hasE false hasDot xs = some (p.1, c :: r) := by rw [hp, ← hr]
      rw [ih _ _ _ _ _ _ hp2]
      rfl
    · rw [if_neg h1] at h ⊢
      by_cases h2 : x = '.' ∧ hasDot = false
      · rw [if_pos h2] at h ⊢
        simp only [Option.map_eq_some'] at h
        obtain ⟨p, hp, hpe⟩ := h
        simp only [Prod.mk.injEq] at hpe
        obtain ⟨rfl, hr⟩ := hpe
        have hp2 : scanNumber hasE afterE true xs = some (p.1, c :: r) := by rw [hp, ← hr]
        rw [ih _ _ _ _ _ _ hp2]
        rfl
      · rw [if_neg h2] at h ⊢
        by_cases h3 : (x = 'e' ∨ x = 'E') ∧ hasE = false
        · rw [if_pos h3] at h ⊢
          simp only [Option.map_eq_some'] at h
          obtain ⟨p, hp, hpe⟩ := h
          simp only [Prod.mk.injEq] at hpe
          obtain ⟨rfl, hr⟩ := hpe
          have hp2 : scanNumber true true true xs = some (p.1, c :: r) := by rw [hp, ← hr]
          rw [ih _ _ _ _ _ _ hp2]
          rfl
        · rw [if_neg h3] at h ⊢
          by_cases h4 : (x = '+' ∨ x = '-') ∧ afterE = true
          · rw [if_pos h4] at h ⊢
            simp only [Option.map_eq_some'] at h
            obtain ⟨p, hp, hpe⟩ := h
            simp only [Prod.mk.injEq] at hpe
            obtain ⟨rfl, hr⟩ := hpe
            have hp2 : scanNumber hasE false hasDot xs = some (p.1, c :: r) := by rw [hp, ← hr]
            rw [ih _ _ _ _ _ _ hp2]
            rfl
          · rw [if_neg h4] at h ⊢
            by_cases h5 : isTokenEnd x = true
            · rw [if_pos h5] at h ⊢
              simp only [Option.some.injEq, Prod.mk.injEq, List.cons.injEq] at h
              obtain ⟨rfl, rfl, rfl⟩ := h
              rfl
            · rw [if_neg h5] at h
              simp at h

theorem scanNumber_digits (t d : List Char) (hasE hasDot : Bool)
    (ht : ∀ c ∈ t, isDigit c = true) :
    scanNumber hasE false hasDot (t ++ ',' :: d) = some (t, ',' :: d) := by
  induction t with
  | nil =>
    simp only [List.nil_append]
    unfold scanNumber
    rw [if_neg (by decide), if_neg (by simp), if_neg (by simp), if_neg (by simp),
      if_pos (by decide)]
  | cons x xs ih =>
    have hx : isDigit x = true := ht x (List.mem_cons_self x xs)
    rw [List.cons_append]
    unfold scanNumber
    rw [if_pos hx, ih (fun c hc => ht c (List.mem_cons_of_mem x hc))]
    rfl

end jlexer

/-! ## The wire codec: strings and integers read back -/

namespace jwriter

open jlexer

theorem hexChar_spec : ∀ k, k < 16 →
    hexValue (hexChar k) = some k ∧ hexChar k ≠ dquote ∧ hexChar k ≠ backslash := by
  decide

end jwriter

namespace jlexer

theorem decodeEscape_hex (x1 x2 x3 x4 : Nat) (a b c d : Char) (X : List Char)
    (ha : hexValue a = some x1) (hb : hexValue b = some x2) (hc : hexValue c = some x3)
    (hd : hexValue d = some x4)
    (hns : isSurrogate (((x1 * 16 + x2) * 16 + x3) * 16 + x4) = false) :
    decodeEscape (backslash :: 'u' :: a :: b :: c :: d :: X)
      = some (Char.ofNat (((x1 * 16 + x2) * 16 + x3) * 16 + x4), 6) := by
  simp +decide [decodeEscape, getu4, ha, hb, hc, hd, hns]

end jlexer

namespace jwriter

open jlexer

/-- What the writer appends for one character: the character itself when it
is neither a quote nor a backslash, or an escape that the lexer decodes to
it. -/
theorem escapeChar_cases (c : Char) :
    (escapeChar c = [c] ∧ c ≠ dquote ∧ c ≠ backslash) ∨
    (∃ e : Char, escapeChar c = [backslash, e] ∧
      ∀ X, decodeEscape (backslash :: e :: X) = some (c, 2)) ∨
    (∃ a b x y : Char, escapeChar c = [backslash, 'u', a, b, x, y] ∧
      (a ≠ dquote ∧ a ≠ backslash) ∧ (b ≠ dquote ∧ b ≠ backslash) ∧
      (x ≠ dquote ∧ x ≠ backslash) ∧ (y ≠ dquote ∧ y ≠ backslash) ∧
      ∀ X, decodeEscape (backslash :: 'u' :: a :: b :: x :: y :: X) = some (c, 6)) := by
  unfold escapeChar
  by_cases h128 : c.toNat < 128
  · rw [if_pos h128]
    by_cases hne : needsEscape c = true
    · rw [if_pos hne]
      by_cases h9 : c = Char.ofNat 9
      · rw [if_pos h9]
        exact Or.inr (Or.inl ⟨'t', rfl, fun X => by rw [h9]; rfl⟩)
      rw [if_neg h9]
      by_cases h13 : c = Char.ofNat 13
      · rw [if_pos h13]
        exact Or.inr (Or.inl ⟨'r', rfl, fun X => by rw [h13]; rfl⟩)
      rw [if_neg h13]
      by_cases h10 : c = Char.ofNat 10
      · rw [if_pos h10]
        exact Or.inr (Or.inl ⟨'n', rfl, fun X => by rw [h10]; rfl⟩)
      rw [if_neg h10]
      by_cases hb : c = backslash
      · rw [if_pos hb]
        exact Or.inr (Or.inl ⟨backslash, rfl, fun X => by rw [hb]; rfl⟩)
      rw [if_neg hb]
      by_cases hq : c = dquote
      · rw [if_pos hq]
        exact Or.inr (Or.inl ⟨dquote, rfl, fun X => by rw [hq]; rfl⟩)
      rw [if_neg hq]
      have hhi : c.toNat / 16 < 16 := by omega
      have hlo : c.toNat % 16 < 16 := Nat.mod_lt _ (by decide)
      obtain ⟨v1, q1, b1⟩ := hexChar_spec _ hhi
      obtain ⟨v2, q2, b2⟩ := hexChar_spec _ hlo
      have hz : hexValue '0' = some 0 := by decide
      have hval : ((0 * 16 + 0) * 16 + c.toNat / 16) * 16 + c.toNat % 16 = c.toNat := by omega
      refine Or.inr (Or.inr ⟨'0', '0', _, _, rfl, by decide, by decide, ⟨q1, b1⟩, ⟨q2, b2⟩,
        fun X => ?_⟩)
      rw [decodeEscape_hex 0 0 _ _ _ _ _ _ X hz hz v1 v2
        (by rw [hval]; unfold isSurrogate; simp; omega), hval, Char.ofNat_toNat]
    · rw [if_neg hne]
      unfold needsEscape at hne
      simp only [Bool.or_eq_true, decide_eq_true_eq, not_or] at hne
      exact Or.inl ⟨rfl, hne.1.1.1.1.2, hne.2⟩
  · rw [if_neg h128]
    by_cases hls : c.toNat = 8232 ∨ c.toNat = 8233
    · rw [if_pos hls]
      have hlo : c.toNat % 16 < 16 := Nat.mod_lt _ (by decide)
      obtain ⟨v2, q2, b2⟩ := hexChar_spec _ hlo
      have h2 : hexValue '2' = some 2 := by decide
      have hz : hexValue '0' = some 0 := by decide
      have hval : ((2 * 16 + 0) * 16 + 2) * 16 + c.toNat % 16 = c.toNat := by omega
      refine Or.inr (Or.inr ⟨'2', '0', '2', _, rfl, by decide, by decide, by decide, ⟨q2, b2⟩,
        fun X => ?_⟩)
      rw [decodeEscape_hex 2 0 2 _ _ _ _ _ X h2 hz h2 v2
        (by rw [hval]; unfold isSurrogate; simp; omega), hval, Char.ofNat_toNat]
    · rw [if_neg hls]
      refine Or.inl ⟨rfl, ?_, ?_⟩
      · intro e
        rw [e] at h128
        exact h128 (by decide)
      · intro e
        rw [e] at h128
        exact h128 (by decide)

end jwriter

namespace jwriter

open jlexer

theorem scanString_dquote (cs : List Char) : scanString (dquote :: cs) = some ([], cs) := by
  conv_lhs => unfold scanString
  rw [if_pos rfl]

theorem scanString_plain (c : Char) (cs : List Char) (hq : c ≠ dquote) (hb : c ≠ backslash) :
    scanString (c :: cs) = (scanString cs).map fun p => (c :: p.1, p.2) := by
  conv_lhs => unfold scanString
  rw [if_neg hq, if_neg hb]

theorem scanString_escape (e : Char) (cs : List Char) :
    scanString (backslash :: e :: cs)
      = (scanString cs).map fun p => (backslash :: e :: p.1, p.2) := by
  conv_lhs => unfold scanString
  rw [if_neg (by decide), if_pos rfl]

theorem scanString_escapeChar (c : Char) (rest : List Char) :
    scanString (escapeChar c ++ rest)
      = (scanString rest).map fun p => (escapeChar c ++ p.1, p.2) := by
  rcases escapeChar_cases c with ⟨h, hq, hb⟩ | ⟨e, h, _⟩ | ⟨a, b, x, y, h, ha, hb, hx, hy, _⟩
  · rw [h]
    exact scanString_plain c rest hq hb
  · rw [h]
    exact scanString_escape e rest
  · rw [h]
    show scanString (backslash :: 'u' :: a :: b :: x :: y :: rest) = _
    rw [scanString_escape, scanString_plain a _ ha.1 ha.2, scanString_plain b _ hb.1 hb.2,
      scanString_plain x _ hx.1 hx.2, scanString_plain y _ hy.1 hy.2]
    cases scanString rest <;> rfl

theorem scanString_escaped (s d : List Char) :
    scanString (s.flatMap escapeChar ++ dquote :: d) = some (s.flatMap escapeChar, d) := by
  induction s with
  | nil => exact scanString_dquote d
  | cons c cs ih =>
    rw [List.flatMap_cons, List.append_assoc, scanString_escapeChar, ih]
    rfl

theorem unescapeLoop_escapeChar (fuel : Nat) (c : Char) (rest : List Char) :
    unescapeLoop (fuel + 1) (escapeChar c ++ rest)
      = (unescapeLoop fuel rest).map fun t => c :: t := by
  rcases escapeChar_cases c with ⟨h, _, hb⟩ | ⟨e, h, hd⟩ | ⟨a, b, x, y, h, _, _, _, _, hd⟩
  · rw [h]
    show unescapeLoop (fuel + 1) (c :: rest) = _
    rw [unescapeLoop, if_neg hb]
  · rw [h]
    show unescapeLoop (fuel + 1) (backslash :: e :: rest) = _
    rw [unescapeLoop, if_pos rfl, hd rest]
    rfl
  · rw [h]
    show unescapeLoop (fuel + 1) (backslash :: 'u' :: a :: b :: x :: y :: rest) = _
    rw [unescapeLoop, if_pos rfl, hd rest]
    rfl

theorem unescapeLoop_escaped (s : List Char) :
    ∀ fuel, s.length < fuel → unescapeLoop fuel (s.flatMap escapeChar) = some s := by
  induction s with
  | nil =>
    intro fuel h
    cases fuel with
    | zero => exact absurd h (by simp)
    | succ f => rfl
  | cons c cs ih =>
    intro fuel h
    cases fuel with
    | zero => exact absurd h (by simp)
    | succ f =>
      rw [List.flatMap_cons, unescapeLoop_escapeChar, ih f (by simpa using h)]
      rfl

theorem escapeChar_length (c : Char) : 1 ≤ (escapeChar c).length := by
  rcases escapeChar_cases c with ⟨h, _, _⟩ | ⟨e, h, _⟩ | ⟨a, b, x, y, h, _⟩ <;> rw [h] <;> simp

theorem escaped_length (s : List Char) : s.length ≤ (s.flatMap escapeChar).length := by
  induction s with
  | nil => simp
  | cons c cs ih =>
    rw [List.flatMap_cons, List.length_append, List.length_cons]
    have := escapeChar_length c
    omega

theorem scanString_escapeString (s : String) (d : List Char) :
    scanString (escapeString s ++ dquote :: d) = some (escapeString s, d) :=
  scanString_escaped s.data d

/-- The lexer reads a string the writer wrote back to the same string. -/
theorem decodeString_escapeString (s : String) :
    Lexer.decodeString (escapeString s) = some s := by
  unfold Lexer.decodeString unescape escapeString
  rw [unescapeLoop_escaped s.data _ (Nat.lt_succ_of_le (escaped_length s.data))]
  rfl

end jwriter

namespace strconv

theorem parseUintValue_of_loop (cs : List Char) :
    ∀ n v : Nat, handlers.parseUintLoop cs n = some v → parseUintValue cs n = (v, none) := by
  induction cs with
  | nil =>
    intro n v h
    simp only [handlers.parseUintLoop, Option.some.injEq] at h
    rw [parseUintValue, h]
  | cons c cs ih =>
    intro n v h
    unfold handlers.parseUintLoop at h
    unfold parseUintValue
    cases hd : handlers.digitValue c with
    | none => simp [hd] at h
    | some x =>
      simp only [hd] at h ⊢
      by_cases h1 : n ≥ handlers.maxUint64 / 10 + 1
      · simp [h1] at h
      · rw [if_neg h1] at h ⊢
        by_cases h2 : n * 10 + x > handlers.maxUint64
        · simp [h2] at h
        · rw [if_neg h2] at h ⊢
          exact ih _ _ h

theorem parseIntValue_of_parseInt (s : String) (n : Int)
    (h : handlers.ParseInt s = some n) : ParseIntValue s = (n, none) := by
  unfold handlers.ParseInt at h
  unfold ParseIntValue
  cases hs : s.data with
  | nil => simp [hs] at h
  | cons c cs =>
    simp only [hs] at h ⊢
    cases hu : handlers.ParseUint (if c = Char.ofNat 43 ∨ c = Char.ofNat 45 then cs else c :: cs)
      with
    | none => simp [hu] at h
    | some un =>
      have hv : ParseUintValue (if c = Char.ofNat 43 ∨ c = Char.ofNat 45 then cs else c :: cs)
          = (un, none) := by
        generalize (if c = Char.ofNat 43 ∨ c = Char.ofNat 45 then cs else c :: cs) = r at hu
        unfold handlers.ParseUint at hu
        unfold ParseUintValue
        cases r with
        | nil => simp at hu
        | cons x xs => exact parseUintValue_of_loop _ _ _ hu
      simp only [hu] at h
      simp only [hv]
      by_cases h1 : (!decide (c = Char.ofNat 45) && decide (un ≥ 9223372036854775808)) = true
      · simp [h1] at h
      · rw [if_neg h1] at h
        by_cases h2 : (decide (c = Char.ofNat 45) && decide (un > 9223372036854775808)) = true
        · simp [h2] at h
        · rw [if_neg h2] at h
          simp only [Option.some.injEq] at h
          rw [if_neg (by simp), if_neg h1, if_neg h2, h]

end strconv

/-! ## The wire codec: floats read back -/

namespace jlexer

theorem isDigit_ne_of_not (c x : Char) (h : isDigit c = true) (hx : isDigit x = false) :
    c ≠ x := by
  intro e
  rw [e, hx] at h
  exact Bool.noConfusion h

end jlexer

namespace strconv

open jlexer jwriter handlers

theorem scaled_lt_succ (b : Nat) : scaled b < scaled (b + 1) := by
  unfold scaled
  by_cases hm : b % 4503599627370496 + 1 < 4503599627370496
  · have h1 : (b + 1) / 4503599627370496 = b / 4503599627370496 := by omega
    have h2 : (b + 1) % 4503599627370496 = b % 4503599627370496 + 1 := by omega
    rw [h1, h2]
    by_cases hE : b / 4503599627370496 = 0
    · rw [if_pos hE, if_pos hE]
      omega
    · rw [if_neg hE, if_neg hE]
      exact Nat.mul_lt_mul_of_pos_right (by omega) (Nat.pow_pos (by decide))
  · have h1 : (b + 1) / 4503599627370496 = b / 4503599627370496 + 1 := by omega
    have h2 : (b + 1) % 4503599627370496 = 0 := by omega
    have h3 : b % 4503599627370496 = 4503599627370495 := by omega
    have hne : ¬ (b / 4503599627370496 + 1 = 0) := by omega
    rw [h1, h2, h3, if_neg hne, Nat.add_sub_cancel]
    by_cases hE : b / 4503599627370496 = 0
    · rw [if_pos hE, hE]
      decide
    · rw [if_neg hE]
      obtain ⟨e, he⟩ : ∃ e, b / 4503599627370496 = e + 1 := ⟨b / 4503599627370496 - 1, by omega⟩
      rw [he, Nat.add_sub_cancel, Nat.pow_succ]
      have hp : 0 < 2 ^ e := Nat.pow_pos (by decide)
      nlinarith

theorem scaled_strictMono : StrictMono scaled :=
  strictMono_nat_of_lt_succ scaled_lt_succ

theorem floorBits_spec (x den : Nat) :
    ∀ i acc : Nat, scaled acc * den ≤ x → x < scaled (acc + 2 ^ i) * den →
      scaled (floorBits x den i acc) * den ≤ x ∧
        x < scaled (floorBits x den i acc + 1) * den := by
  intro i
  induction i with
  | zero =>
    intro acc h1 h2
    exact ⟨h1, h2⟩
  | succ i ih =>
    intro acc h1 h2
    unfold floorBits
    by_cases hp : scaled (acc + 2 ^ i) * den ≤ x
    · rw [if_pos hp]
      refine ih _ hp ?_
      have e : acc + 2 ^ i + 2 ^ i = acc + 2 ^ (i + 1) := by rw [Nat.pow_succ]; omega
      rw [e]
      exact h2
    · rw [if_neg hp]
      exact ih _ h1 (Nat.lt_of_not_le hp)

theorem nearest_exact (num den b : Nat) (hden : 0 < den) (hb : b < infBits)
    (h : num * 2 ^ 1074 = scaled b * den) : nearest num den = b := by
  unfold nearest
  generalize num * 2 ^ 1074 = x at h
  have hinf : ¬ scaled infBits * den ≤ x := by
    rw [h]
    intro hle
    have hle2 : scaled infBits ≤ scaled b := Nat.le_of_mul_le_mul_right hle hden
    have hs : scaled b < scaled infBits := scaled_strictMono hb
    omega
  rw [if_neg hinf]
  have h0 : scaled 0 * den ≤ x := by
    have : scaled 0 = 0 := by decide
    rw [this]
    omega
  have htop : x < scaled (0 + 2 ^ 63) * den := by
    rw [h]
    refine Nat.mul_lt_mul_of_pos_right (scaled_strictMono ?_) hden
    unfold infBits at hb
    omega
  obtain ⟨hlo, hhi⟩ := floorBits_spec x den 63 0 h0 htop
  have hfb : floorBits x den 63 0 = b := by
    generalize floorBits x den 63 0 = r at hlo hhi
    rw [h] at hlo hhi
    have h1 : scaled r ≤ scaled b := Nat.le_of_mul_le_mul_right hlo hden
    have h2 : scaled b < scaled (r + 1) := Nat.lt_of_mul_lt_mul_right hhi
    have h3 : r ≤ b := scaled_strictMono.le_iff_le.mp h1
    have h4 : b < r + 1 := scaled_strictMono.lt_iff_lt.mp h2
    omega
  simp only [hfb]
  have hlt : scaled b < scaled (b + 1) := scaled_lt_succ b
  rw [if_pos]
  rw [h]
  nlinarith

theorem nearestDecimal_exact (b : Nat) (hb : b < infBits) :
    nearestDecimal (scaled b * 5 ^ 1074) (-1074) = b := by
  unfold nearestDecimal
  have e1 : (-1074 : Int).toNat = 0 := rfl
  have e2 : (-(-1074 : Int)).toNat = 1074 := rfl
  rw [e1, e2, Nat.pow_zero, Nat.mul_one]
  refine nearest_exact _ _ b (pow_pos (by decide : (0 : Nat) < 10) 1074) hb ?_
  rw [Nat.mul_assoc, ← mul_pow, show (5 * 2 : Nat) = 10 from rfl]

theorem shortestAux_reads (b : Nat) (hb : b < infBits) :
    ∀ j, nearestDecimal (shortestAux (scaled b) b j).1 (shortestAux (scaled b) b j).2 = b := by
  intro j
  induction j with
  | zero => exact nearestDecimal_exact b hb
  | succ j ih =>
    rw [shortestAux]
    split_ifs with h1 h2
    · exact h1
    · exact h2
    · exact ih

theorem candidates_le (S : Nat) (k : Int) :
    (candidates S k).1 ≤ S * 10 ^ (-k).toNat + 1 ∧ (candidates S k).2 ≤ S * 10 ^ (-k).toNat + 1 := by
  have h := Nat.div_le_self (S * 10 ^ (-k).toNat) (2 ^ 1074 * 10 ^ k.toNat)
  rw [candidates]
  split
  · exact ⟨Nat.succ_le_succ h, Nat.le_succ_of_le h⟩
  · exact ⟨Nat.le_succ_of_le h, Nat.succ_le_succ h⟩

theorem shortestAux_bounds (S b : Nat) :
    ∀ j, -1074 ≤ (shortestAux S b j).2 ∧ (shortestAux S b j).2 ≤ (j : Int) - 1074 ∧
      (shortestAux S b j).1 ≤ S * 10 ^ 1074 + 1 := by
  intro j
  induction j with
  | zero =>
    refine ⟨Int.le_refl _, by show (-1074 : Int) ≤ ((0 : Nat) : Int) - 1074; omega, ?_⟩
    show S * 5 ^ 1074 ≤ S * 10 ^ 1074 + 1
    exact Nat.le_succ_of_le (Nat.mul_le_mul_left S (pow_le_pow_left₀ (Nat.zero_le 5) (by decide) 1074))
  | succ j ih =>
    have hk : (-((j : Int) + 1 - 1074)).toNat ≤ 1074 := by omega
    have hc := candidates_le S ((j : Int) + 1 - 1074)
    have hp : S * 10 ^ (-((j : Int) + 1 - 1074)).toNat ≤ S * 10 ^ 1074 :=
      Nat.mul_le_mul_left S (pow_le_pow_right₀ (by decide : (1 : Nat) ≤ 10) hk)
    rw [shortestAux]
    split_ifs with h1 h2
    · exact ⟨by show (-1074 : Int) ≤ (j : Int) + 1 - 1074; omega,
        by show (j : Int) + 1 - 1074 ≤ ((j + 1 : Nat) : Int) - 1074; omega, by
          show (candidates S ((j : Int) + 1 - 1074)).1 ≤ S * 10 ^ 1074 + 1
          omega⟩
    · exact ⟨by show (-1074 : Int) ≤ (j : Int) + 1 - 1074; omega,
        by show (j : Int) + 1 - 1074 ≤ ((j + 1 : Nat) : Int) - 1074; omega, by
          show (candidates S ((j : Int) + 1 - 1074)).2 ≤ S * 10 ^ 1074 + 1
          omega⟩
    · exact ⟨ih.1, by have := ih.2.1; omega, ih.2.2⟩


theorem digitValue_of_isDigit (c : Char) (h : isDigit c = true) :
    digitValue c = some (c.toNat - 48) := by
  have hc2 : 48 ≤ c.toNat ∧ c.toNat ≤ 57 := by
    simpa [jlexer.isDigit] using h
  simp [digitValue, hc2]

theorem digitsValue_cons (c : Char) (cs : List Char) (m : Nat) :
    digitsValue (c :: cs) m = digitsValue cs (m * 10 + (c.toNat - 48)) := rfl

theorem digitsValue_append (xs ys : List Char) (m : Nat) :
    digitsValue (xs ++ ys) m = digitsValue ys (digitsValue xs m) := by
  unfold digitsValue
  rw [List.foldl_append]

theorem digitsValue_zeros (z m : Nat) : digitsValue (List.replicate z '0') m = m * 10 ^ z := by
  induction z generalizing m with
  | zero => simp [digitsValue]
  | succ z ih =>
    rw [List.replicate_succ, digitsValue_cons, ih, Nat.pow_succ]
    have : ('0' : Char).toNat - 48 = 0 := by decide
    rw [this]
    ring

theorem zeros_digits (z : Nat) : ∀ c ∈ List.replicate z '0', isDigit c = true := by
  intro c hc
  rw [List.eq_of_mem_replicate hc]
  decide

theorem formatNat_digits (n : Nat) : ∀ c ∈ formatNat n, isDigit c = true :=
  formatNatAux_digits (n + 1) n (Nat.lt_succ_self n)

theorem formatNat_ne_nil (n : Nat) : formatNat n ≠ [] :=
  formatNatAux_ne_nil (n + 1) n (Nat.lt_succ_self n)

theorem formatNat_value (n : Nat) : digitsValue (formatNat n) 0 = n :=
  formatNatAux_value (n + 1) n (Nat.lt_succ_self n)

theorem formatNatAux_length (fuel : Nat) :
    ∀ n m : Nat, n < fuel → n < 10 ^ (m + 1) → (formatNatAux fuel n []).length ≤ m + 1 := by
  induction fuel with
  | zero =>
    intro n m h
    omega
  | succ fuel ih =>
    intro n m h hm
    unfold formatNatAux
    by_cases h10 : n < 10
    · rw [if_pos h10]
      simp
    · rw [if_neg h10]
      have hlt : n / 10 < fuel := by omega
      cases m with
      | zero => exact absurd hm h10
      | succ m =>
        rw [formatNatAux_append fuel (n / 10) _ hlt, List.length_append]
        have hdiv : n / 10 < 10 ^ (m + 1) := by
          rw [Nat.pow_succ] at hm
          exact Nat.div_lt_of_lt_mul (by rw [Nat.mul_comm]; exact hm)
        have := ih (n / 10) m hlt hdiv
        simp only [List.length_singleton]
        omega

theorem formatNat_length (n m : Nat) (h : n < 10 ^ (m + 1)) : (formatNat n).length ≤ m + 1 :=
  formatNatAux_length (n + 1) n m (Nat.lt_succ_self n) h

theorem readMantissa_digit (c : Char) (cs : List Char) (m frac : Nat) (sawdot sd : Bool)
    (h : isDigit c = true) :
    readMantissa (c :: cs) m frac sawdot sd
      = readMantissa cs (m * 10 + (c.toNat - 48)) (if sawdot then frac + 1 else frac) sawdot
          true := by
  conv_lhs => unfold readMantissa
  rw [if_neg (isDigit_ne_of_not c '.' h (by decide)), digitValue_of_isDigit c h]

theorem readMantissa_dot (cs : List Char) (m frac : Nat) (sd : Bool) :
    readMantissa ('.' :: cs) m frac false sd = readMantissa cs m frac true sd := by
  conv_lhs => unfold readMantissa
  simp

theorem readMantissa_e (cs : List Char) (m frac : Nat) (sawdot sd : Bool) :
    readMantissa ('e' :: cs) m frac sawdot sd = (m, frac, sd, 'e' :: cs) := by
  conv_lhs => unfold readMantissa
  rw [if_neg (by decide)]
  have : digitValue 'e' = none := by decide
  rw [this]

theorem readMantissa_digits (ds : List Char) (hd : ∀ c ∈ ds, isDigit c = true) :
    ∀ (rest : List Char) (m frac : Nat) (sd : Bool),
      readMantissa (ds ++ rest) m frac false sd
          = readMantissa rest (digitsValue ds m) frac false (sd || !ds.isEmpty) ∧
        readMantissa (ds ++ rest) m frac true sd
          = readMantissa rest (digitsValue ds m) (frac + ds.length) true (sd || !ds.isEmpty) := by
  induction ds with
  | nil =>
    intro rest m frac sd
    simp [digitsValue]
  | cons c cs ih =>
    intro rest m frac sd
    have hc := hd c (List.mem_cons_self c cs)
    have hcs : ∀ x ∈ cs, isDigit x = true := fun x hx => hd x (List.mem_cons_of_mem c hx)
    rw [List.cons_append, readMantissa_digit _ _ _ _ _ _ hc, readMantissa_digit _ _ _ _ _ _ hc,
      digitsValue_cons, (ih hcs rest _ _ true).1, (ih hcs rest _ _ true).2]
    simp only [Bool.false_eq_true, if_false, if_true, Bool.true_or, List.isEmpty_cons,
      Bool.not_false, Bool.or_true, List.length_cons]
    exact ⟨trivial, by rw [Nat.add_assoc, Nat.add_comm 1]⟩

theorem readExponent_digit (c : Char) (cs : List Char) (e : Nat) (h : isDigit c = true) :
    readExponent (c :: cs) e
      = readExponent cs (if e < 10000 then e * 10 + (c.toNat - 48) else e) := by
  conv_lhs => unfold readExponent
  rw [digitValue_of_isDigit c h]

theorem digitsValue_ge (cs : List Char) (k : Nat) : k ≤ digitsValue cs k :=
  foldl_digits_ge cs k

theorem readExponent_digits (ds : List Char) (hd : ∀ c ∈ ds, isDigit c = true) :
    ∀ e : Nat, digitsValue ds e < 100000 → readExponent ds e = (digitsValue ds e, []) := by
  induction ds with
  | nil =>
    intro e _
    rfl
  | cons c cs ih =>
    intro e he
    have hc := hd c (List.mem_cons_self c cs)
    have hcs : ∀ x ∈ cs, isDigit x = true := fun x hx => hd x (List.mem_cons_of_mem c hx)
    rw [digitsValue_cons] at he
    have hge := digitsValue_ge cs (e * 10 + (c.toNat - 48))
    rw [readExponent_digit _ _ _ hc, if_pos (by omega), digitsValue_cons]
    exact ih hcs _ he


theorem scanNumber_digit (c : Char) (h : isDigit c = true) (hasE afterE hasDot : Bool)
    (cs : List Char) :
    scanNumber hasE afterE hasDot (c :: cs)
      = (scanNumber hasE false hasDot cs).map fun p => (c :: p.1, p.2) := by
  conv_lhs => unfold scanNumber
  rw [if_pos h]

theorem scanNumber_dot (hasE afterE : Bool) (cs : List Char) :
    scanNumber hasE afterE false ('.' :: cs)
      = (scanNumber hasE afterE true cs).map fun p => ('.' :: p.1, p.2) := by
  conv_lhs => unfold scanNumber
  rw [if_neg (by decide), if_pos ⟨rfl, rfl⟩]

theorem scanNumber_e (afterE hasDot : Bool) (cs : List Char) :
    scanNumber false afterE hasDot ('e' :: cs)
      = (scanNumber true true true cs).map fun p => ('e' :: p.1, p.2) := by
  conv_lhs => unfold scanNumber
  rw [if_neg (by decide), if_neg (fun h => absurd h.1 (by decide)), if_pos ⟨Or.inl rfl, rfl⟩]

theorem scanNumber_sign (y : Char) (hy : y = '+' ∨ y = '-') (hasE hasDot : Bool)
    (cs : List Char) :
    scanNumber hasE true hasDot (y :: cs)
      = (scanNumber hasE false hasDot cs).map fun p => (y :: p.1, p.2) := by
  conv_lhs => unfold scanNumber
  have h1 : ¬ (isDigit y = true) := by rcases hy with rfl | rfl <;> decide
  have h2 : ¬ (y = '.' ∧ hasDot = false) := by
    rcases hy with rfl | rfl <;> exact fun h => absurd h.1 (by decide)
  have h3 : ¬ ((y = 'e' ∨ y = 'E') ∧ hasE = false) := by
    rcases hy with rfl | rfl <;> exact fun h => absurd h.1 (by decide)
  rw [if_neg h1, if_neg h2, if_neg h3, if_pos ⟨hy, rfl⟩]

theorem scanNumber_end (hasE afterE hasDot : Bool) :
    scanNumber hasE afterE hasDot [rbrace] = some ([], [rbrace]) := by
  conv_lhs => unfold scanNumber
  rw [if_neg (by decide), if_neg (fun h => absurd h.1 (by decide)),
    if_neg (fun h => absurd h.1 (by decide)), if_neg (fun h => absurd h.1 (by decide)),
    if_pos (by decide)]

theorem scanNumber_digits_some (ds : List Char) (hd : ∀ c ∈ ds, isDigit c = true)
    (hasE hasDot : Bool) (rest t r : List Char)
    (h : scanNumber hasE false hasDot rest = some (t, r)) :
    scanNumber hasE false hasDot (ds ++ rest) = some (ds ++ t, r) := by
  induction ds with
  | nil => exact h
  | cons c cs ih =>
    rw [List.cons_append, scanNumber_digit c (hd c (List.mem_cons_self c cs)),
      ih (fun x hx => hd x (List.mem_cons_of_mem c hx))]
    rfl

theorem expDigits_spec (n : Nat) :
    (∀ c ∈ (if n < 10 then '0' :: formatNat n else formatNat n), isDigit c = true) ∧
    digitsValue (if n < 10 then '0' :: formatNat n else formatNat n) 0 = n ∧
    ∃ d ds, (if n < 10 then '0' :: formatNat n else formatNat n) = d :: ds := by
  by_cases h : n < 10
  · rw [if_pos h]
    refine ⟨?_, ?_, '0', _, rfl⟩
    · intro c hc
      rcases List.mem_cons.mp hc with rfl | hc
      · decide
      · exact formatNat_digits n c hc
    · rw [digitsValue_cons]
      exact formatNat_value n
  · rw [if_neg h]
    refine ⟨formatNat_digits n, formatNat_value n, ?_⟩
    cases hf : formatNat n with
    | nil => exact absurd hf (formatNat_ne_nil n)
    | cons d ds => exact ⟨d, ds, rfl⟩

theorem scanNumber_fmtExp (x : Int) (hasDot : Bool) :
    scanNumber false false hasDot (fmtExp x ++ [rbrace]) = some (fmtExp x, [rbrace]) := by
  unfold fmtExp
  obtain ⟨hdig, _, _⟩ := expDigits_spec x.natAbs
  have hsign : (if x < 0 then '-' else '+') = '+' ∨ (if x < 0 then '-' else '+') = '-' := by
    by_cases hx : x < 0
    · rw [if_pos hx]
      exact Or.inr rfl
    · rw [if_neg hx]
      exact Or.inl rfl
  rw [List.cons_append, List.cons_append, scanNumber_e, scanNumber_sign _ hsign,
    scanNumber_digits_some _ hdig true true [rbrace] [] [rbrace] (scanNumber_end _ _ _)]
  simp

theorem readDigits_plain (body : List Char) (m frac : Nat)
    (h : readMantissa body 0 0 false false = (m, frac, true, [])) :
    readDigits body = some (m, -(frac : Int), []) := by
  unfold readDigits
  rw [h]
  rfl

theorem readDigits_exp (body : List Char) (m frac : Nat) (x : Int) (hx : x.natAbs < 100000)
    (h : readMantissa body 0 0 false false = (m, frac, true, fmtExp x)) :
    readDigits body = some (m, x - (frac : Int), []) := by
  unfold readDigits
  rw [h]
  unfold fmtExp
  obtain ⟨hdig, hval, d, ds, hshape⟩ := expDigits_spec x.natAbs
  have hread := readExponent_digits _ hdig 0 (by rw [hval]; exact hx)
  rw [hval] at hread
  rw [hshape] at hread ⊢
  have hd : isDigit d = true := by
    have := hdig d
    rw [hshape] at this
    exact this (List.mem_cons_self d ds)
  have hdv := digitValue_of_isDigit d hd
  by_cases hneg : x < 0
  · simp +decide [hneg, hread, hdv]
    rw [abs_of_neg hneg, neg_neg]
  · have e : ((x.natAbs : Nat) : Int) = x := by omega
    simp +decide [hneg, hread, hdv, e]


theorem readMantissa_nil (m frac : Nat) (sawdot sd : Bool) :
    readMantissa [] m frac sawdot sd = (m, frac, sd, []) := by
  unfold readMantissa
  rfl

theorem readMantissa_whole (xs tail : List Char) (hx : ∀ c ∈ xs, isDigit c = true)
    (hne : xs ≠ []) :
    readMantissa (xs ++ tail) 0 0 false false
      = readMantissa tail (digitsValue xs 0) 0 false true := by
  rw [(readMantissa_digits xs hx tail 0 0 false).1]
  cases xs with
  | nil => exact absurd rfl hne
  | cons c cs => rfl

theorem readMantissa_frac (xs ys tail : List Char) (hx : ∀ c ∈ xs, isDigit c = true)
    (hy : ∀ c ∈ ys, isDigit c = true) (hne : xs ≠ []) :
    readMantissa (xs ++ '.' :: (ys ++ tail)) 0 0 false false
      = readMantissa tail (digitsValue (xs ++ ys) 0) ys.length true true := by
  rw [readMantissa_whole xs _ hx hne, readMantissa_dot, (readMantissa_digits ys hy tail _ _ _).2,
    digitsValue_append, Nat.zero_add]
  rfl

theorem numberText_plain (xs : List Char) (hx : ∀ c ∈ xs, isDigit c = true) (hne : xs ≠ [])
    (b : Nat) (h : nearestDecimal (digitsValue xs 0) 0 = b) : NumberText xs b := by
  cases hxs : xs with
  | nil => exact absurd hxs hne
  | cons d rest =>
    rw [hxs] at hx
    refine ⟨d, rest, rfl, hx d (List.mem_cons_self d rest), ?_, digitsValue (d :: rest) 0, 0, ?_, ?_⟩
    · have := scanNumber_digits_some rest (fun c hc => hx c (List.mem_cons_of_mem d hc))
        false false [rbrace] [] [rbrace] (scanNumber_end _ _ _)
      rw [List.append_nil] at this
      exact this
    · have hm := readMantissa_whole (d :: rest) [] hx (List.cons_ne_nil d rest)
      rw [List.append_nil, readMantissa_nil] at hm
      exact readDigits_plain _ _ _ hm
    · rw [← hxs]
      exact h

theorem numberText_frac (xs ys : List Char) (hx : ∀ c ∈ xs, isDigit c = true)
    (hy : ∀ c ∈ ys, isDigit c = true) (hne : xs ≠ []) (b : Nat)
    (h : nearestDecimal (digitsValue (xs ++ ys) 0) (-(ys.length : Int)) = b) :
    NumberText (xs ++ '.' :: ys) b := by
  cases hxs : xs with
  | nil => exact absurd hxs hne
  | cons d rest =>
    rw [hxs] at hx h
    refine ⟨d, rest ++ '.' :: ys, rfl, hx d (List.mem_cons_self d rest), ?_,
      digitsValue (d :: rest ++ ys) 0, -(ys.length : Int), ?_, h⟩
    · have hdot : scanNumber false false false ('.' :: (ys ++ [rbrace]))
          = some ('.' :: ys, [rbrace]) := by
        rw [scanNumber_dot, scanNumber_digits_some ys hy false true [rbrace] [] [rbrace]
          (scanNumber_end _ _ _)]
        simp
      have := scanNumber_digits_some rest (fun c hc => hx c (List.mem_cons_of_mem d hc))
        false false _ _ _ hdot
      simpa using this
    · have hm := readMantissa_frac (d :: rest) ys [] hx hy (List.cons_ne_nil d rest)
      rw [List.append_nil, readMantissa_nil] at hm
      exact readDigits_plain _ _ _ hm

theorem numberText_exp (xs : List Char) (hx : ∀ c ∈ xs, isDigit c = true) (hne : xs ≠ [])
    (x : Int) (hlt : x.natAbs < 100000) (b : Nat)
    (h : nearestDecimal (digitsValue xs 0) x = b) : NumberText (xs ++ fmtExp x) b := by
  cases hxs : xs with
  | nil => exact absurd hxs hne
  | cons d rest =>
    rw [hxs] at hx h
    refine ⟨d, rest ++ fmtExp x, rfl, hx d (List.mem_cons_self d rest), ?_,
      digitsValue (d :: rest) 0, x, ?_, h⟩
    · have := scanNumber_digits_some rest (fun c hc => hx c (List.mem_cons_of_mem d hc))
        false false _ _ _ (scanNumber_fmtExp x false)
      simpa using this
    · have hm := readMantissa_whole (d :: rest) (fmtExp x) hx (List.cons_ne_nil d rest)
      have he : fmtExp x = 'e' :: (fmtExp x).tail := rfl
      rw [he, readMantissa_e, ← he] at hm
      have := readDigits_exp _ _ _ x hlt hm
      simpa using this

theorem numberText_frac_exp (xs ys : List Char) (hx : ∀ c ∈ xs, isDigit c = true)
    (hy : ∀ c ∈ ys, isDigit c = true) (hne : xs ≠ []) (x : Int) (hlt : x.natAbs < 100000)
    (b : Nat) (h : nearestDecimal (digitsValue (xs ++ ys) 0) (x - (ys.length : Int)) = b) :
    NumberText (xs ++ '.' :: (ys ++ fmtExp x)) b := by
  cases hxs : xs with
  | nil => exact absurd hxs hne
  | cons d rest =>
    rw [hxs] at hx h
    refine ⟨d, rest ++ '.' :: (ys ++ fmtExp x), rfl, hx d (List.mem_cons_self d rest), ?_,
      digitsValue (d :: rest ++ ys) 0, x - (ys.length : Int), ?_, h⟩
    · have hdot : scanNumber false false false ('.' :: (ys ++ (fmtExp x ++ [rbrace])))
          = some ('.' :: (ys ++ fmtExp x), [rbrace]) := by
        rw [scanNumber_dot, scanNumber_digits_some ys hy false true _ _ _
          (scanNumber_fmtExp x true)]
        rfl
      have := scanNumber_digits_some rest (fun c hc => hx c (List.mem_cons_of_mem d hc))
        false false _ _ _ hdot
      simpa using this
    · have hm := readMantissa_frac (d :: rest) ys (fmtExp x) hx hy (List.cons_ne_nil d rest)
      have he : fmtExp x = 'e' :: (fmtExp x).tail := rfl
      rw [he, readMantissa_e, ← he] at hm
      exact readDigits_exp _ _ _ x hlt hm


theorem nearestDecimal_shift (D z : Nat) :
    nearestDecimal (D * 10 ^ z) 0 = nearestDecimal D (z : Int) := by
  unfold nearestDecimal
  have e1 : (0 : Int).toNat = 0 := rfl
  have e2 : (-(0 : Int)).toNat = 0 := rfl
  have e3 : ((z : Int)).toNat = z := Int.toNat_natCast z
  have e4 : (-(z : Int)).toNat = 0 := by omega
  rw [e1, e2, e3, e4, Nat.pow_zero, Nat.mul_one]

theorem numberText_fmtF (D : Nat) (k : Int) :
    NumberText (fmtF (formatNat D) (((formatNat D).length : Int) + k)) (nearestDecimal D k) := by
  have hdig := formatNat_digits D
  have hne := formatNat_ne_nil D
  have hval := formatNat_value D
  have hlen : 0 < (formatNat D).length := List.length_pos.mpr hne
  generalize formatNat D = ds at hdig hne hval hlen
  unfold fmtF
  by_cases h1 : ((ds.length : Int) + k) ≤ 0
  · rw [if_pos h1]
    have hz : ∀ c ∈ ['0'], isDigit c = true := by
      intro c hc
      rw [List.mem_singleton.mp hc]
      decide
    have hy : ∀ c ∈ List.replicate (-((ds.length : Int) + k)).toNat '0' ++ ds,
        isDigit c = true := by
      intro c hc
      rcases List.mem_append.mp hc with hc | hc
      · exact zeros_digits _ c hc
      · exact hdig c hc
    refine numberText_frac ['0'] _ hz hy (List.cons_ne_nil _ _) _ ?_
    have hv : digitsValue (['0'] ++ (List.replicate (-((ds.length : Int) + k)).toNat '0' ++ ds)) 0
        = D := by
      rw [digitsValue_append, digitsValue_append, digitsValue_zeros]
      have : digitsValue ['0'] 0 = 0 := by decide
      rw [this, Nat.zero_mul, hval]
    have hl : -(((List.replicate (-((ds.length : Int) + k)).toNat '0' ++ ds).length : Nat) : Int)
        = k := by
      rw [List.length_append, List.length_replicate]
      omega
    rw [hv, hl]
  · rw [if_neg h1]
    by_cases h2 : ((ds.length : Int) + k).toNat < ds.length
    · rw [if_pos h2]
      have hx : ∀ c ∈ ds.take ((ds.length : Int) + k).toNat, isDigit c = true :=
        fun c hc => hdig c (List.mem_of_mem_take hc)
      have hy : ∀ c ∈ ds.drop ((ds.length : Int) + k).toNat, isDigit c = true :=
        fun c hc => hdig c (List.mem_of_mem_drop hc)
      have hxne : ds.take ((ds.length : Int) + k).toNat ≠ [] := by
        intro e
        have := congrArg List.length e
        rw [List.length_take] at this
        simp only [List.length_nil] at this
        omega
      refine numberText_frac _ _ hx hy hxne _ ?_
      rw [List.take_append_drop, hval, List.length_drop]
      have hl : -(((ds.length - ((ds.length : Int) + k).toNat : Nat)) : Int) = k := by omega
      rw [hl]
    · rw [if_neg h2]
      have hx : ∀ c ∈ ds ++ List.replicate (((ds.length : Int) + k).toNat - ds.length) '0',
          isDigit c = true := by
        intro c hc
        rcases List.mem_append.mp hc with hc | hc
        · exact hdig c hc
        · exact zeros_digits _ c hc
      refine numberText_plain _ hx (by simp [hne]) _ ?_
      rw [digitsValue_append, digitsValue_zeros, hval, nearestDecimal_shift]
      have hl : (((((ds.length : Int) + k).toNat - ds.length : Nat)) : Int) = k := by omega
      rw [hl]

theorem numberText_fmtE (D : Nat) (k : Int)
    (hlt : (((formatNat D).length : Int) + k - 1).natAbs < 100000) :
    NumberText (fmtE (formatNat D) (((formatNat D).length : Int) + k)) (nearestDecimal D k) := by
  have hdig := formatNat_digits D
  have hne := formatNat_ne_nil D
  have hval := formatNat_value D
  generalize formatNat D = ds at hdig hne hval hlt
  cases ds with
  | nil => exact absurd rfl hne
  | cons d rest =>
    have hx : ∀ c ∈ [d], isDigit c = true := by
      intro c hc
      rw [List.mem_singleton.mp hc]
      exact hdig d (List.mem_cons_self d rest)
    cases rest with
    | nil =>
      have := numberText_exp [d] hx (List.cons_ne_nil _ _) _ hlt (nearestDecimal D k) (by
        rw [hval]
        have hl : (([d].length : Nat) : Int) + k - 1 = k := by
          simp
        rw [hl])
      exact this
    | cons r rest =>
      have hy : ∀ c ∈ r :: rest, isDigit c = true :=
        fun c hc => hdig c (List.mem_cons_of_mem d hc)
      have := numberText_frac_exp [d] (r :: rest) hx hy (List.cons_ne_nil _ _) _ hlt
        (nearestDecimal D k) (by
          have hv : digitsValue ([d] ++ r :: rest) 0 = D := hval
          have hl : (((d :: r :: rest).length : Nat) : Int) + k - 1
              - (((r :: rest).length : Nat) : Int) = k := by
            simp only [List.length_cons]
            push_cast
            ring
          rw [hv, hl])
      exact this


theorem scaled_infBits_lt : scaled infBits < 10 ^ (639 + 1) := by
  unfold scaled infBits
  norm_num

theorem scaled_lt (b : Nat) (hb : b < infBits) : scaled b < 10 ^ (639 + 1) :=
  Nat.lt_trans (scaled_strictMono hb) scaled_infBits_lt

theorem startPower_le (S : Nat) (hS : S < 10 ^ (639 + 1)) : startPower S ≤ 640 := by
  unfold startPower
  split_ifs with h0
  · exact Nat.zero_le _
  · exact formatNat_length _ 639 (Nat.lt_of_le_of_lt (Nat.div_le_self _ _) hS)

theorem shortestAux_digits (S b j : Nat) (hS : S < 10 ^ (639 + 1)) :
    (formatNat (shortestAux S b j).1).length ≤ 1714 + 1 := by
  refine formatNat_length _ 1714 ?_
  have hD := (shortestAux_bounds S b j).2.2
  have h1 : S * 10 ^ 1074 + 1 ≤ (S + 1) * 10 ^ 1074 := by
    rw [Nat.add_mul, Nat.one_mul]
    exact Nat.add_le_add_left (pow_pos (by decide : (0 : Nat) < 10) 1074) _
  have h2 : (S + 1) * 10 ^ 1074 ≤ 10 ^ (639 + 1) * 10 ^ 1074 :=
    Nat.mul_le_mul_right _ hS
  have h3 : (10 : Nat) ^ (639 + 1) * 10 ^ 1074 = 10 ^ (639 + 1 + 1074) :=
    (pow_add (10 : Nat) (639 + 1) 1074).symm
  have h4 : (10 : Nat) ^ (639 + 1 + 1074) < 10 ^ (1714 + 1) :=
    pow_lt_pow_right₀ (by decide : (1 : Nat) < 10) (by decide)
  rw [h3] at h2
  exact Nat.lt_of_le_of_lt (Nat.le_trans hD (Nat.le_trans h1 h2)) h4

theorem shortest_spec (b : Nat) (hb : b < infBits) :
    nearestDecimal (shortest b).1 (shortest b).2 = b ∧
    (((formatNat (shortest b).1).length : Int) + (shortest b).2 - 1).natAbs < 100000 := by
  unfold shortest
  have hS := scaled_lt b hb
  have hst := startPower_le (scaled b) hS
  have hlen := shortestAux_digits (scaled b) b (1074 + startPower (scaled b)) hS
  obtain ⟨hk1, hk2, _⟩ := shortestAux_bounds (scaled b) b (1074 + startPower (scaled b))
  refine ⟨shortestAux_reads b hb _, ?_⟩
  omega

theorem numberText_fmtG (b : Nat) (hb : b < infBits) :
    NumberText (fmtG (formatNat (shortest b).1)
      (((formatNat (shortest b).1).length : Int) + (shortest b).2)) b := by
  obtain ⟨hread, hlt⟩ := shortest_spec b hb
  unfold fmtG
  split_ifs with h
  · have := numberText_fmtE (shortest b).1 (shortest b).2 hlt
    rw [hread] at this
    exact this
  · have := numberText_fmtF (shortest b).1 (shortest b).2
    rw [hread] at this
    exact this

theorem numberText_zero : NumberText ['0'] 0 := by
  refine numberText_plain ['0'] ?_ (List.cons_ne_nil _ _) 0 ?_
  · intro c hc
    rw [List.mem_singleton.mp hc]
    decide
  · have : digitsValue ['0'] 0 = 0 := by decide
    rw [this]
    unfold nearestDecimal
    exact nearest_exact _ _ 0 (pow_pos (by decide : (0 : Nat) < 10) _) (by decide) (by
      have : scaled 0 = 0 := by decide
      rw [this, Nat.zero_mul, Nat.zero_mul, Nat.zero_mul])


theorem toLower_digit (d : Char) (hd : isDigit d = true) : d.toLower = d := by
  have hc2 : 48 ≤ d.toNat ∧ d.toNat ≤ 57 := by
    simpa [jlexer.isDigit] using hd
  unfold Char.toLower
  exact if_neg (fun h => absurd h.1 (by omega))

theorem special_digit (d : Char) (rest : List Char) (hd : isDigit d = true) :
    special (d :: rest) = none := by
  have h1 := isDigit_ne_of_not d '+' hd (by decide)
  have h2 := isDigit_ne_of_not d '-' hd (by decide)
  have h3 := isDigit_ne_of_not d 'i' hd (by decide)
  have h4 := isDigit_ne_of_not d 'I' hd (by decide)
  have h5 := isDigit_ne_of_not d 'n' hd (by decide)
  have h6 := isDigit_ne_of_not d 'N' hd (by decide)
  simp [special, h1, h2, h3, h4, h5, h6]

theorem special_minus_digit (d : Char) (rest : List Char) (hd : isDigit d = true) :
    special ('-' :: d :: rest) = none := by
  have h3 := isDigit_ne_of_not d 'i' hd (by decide)
  have hl := toLower_digit d hd
  simp +decide [special, commonPrefixLenIgnoreCase, hl, h3]

theorem readFloat_digit (d : Char) (rest : List Char) (hd : isDigit d = true) :
    readFloat (d :: rest) = (readDigits (d :: rest)).map fun p => (false, p) := by
  have h1 := isDigit_ne_of_not d '+' hd (by decide)
  have h2 := isDigit_ne_of_not d '-' hd (by decide)
  simp [readFloat, h1, h2]

theorem readFloat_minus (body : List Char) :
    readFloat ('-' :: body) = (readDigits body).map fun p => (true, p) := by
  simp [readFloat]

theorem parseFloat_numberText (body : List Char) (b : Nat) (hb : b < infBits)
    (h : NumberText body b) :
    ParseFloat (String.mk body) = (⟨b⟩, none) ∧
    ParseFloat (String.mk ('-' :: body)) = (⟨9223372036854775808 + b⟩, none) := by
  obtain ⟨d, rest, hbody, hd, _, m, e, hread, hnear⟩ := h
  have hne : b ≠ infBits := Nat.ne_of_lt hb
  subst hbody
  constructor
  · unfold ParseFloat
    simp only [special_digit d rest hd, readFloat_digit d rest hd, hread, Option.map_some',
      hnear, ne_eq, not_true_eq_false, if_false, Bool.false_eq_true, hne]
  · unfold ParseFloat
    simp only [special_minus_digit d rest hd, readFloat_minus, hread, Option.map_some',
      hnear, ne_eq, not_true_eq_false, if_false, if_true, hne]

/-- Every finite float is read back: the text `FormatFloat` writes for it is a
number token of the lexer that `ParseFloat` reads as the same float, without
an error. -/
theorem formatFloat_reads_back (f : Float64) (hf : IsFinite f) :
    ∃ (c : Char) (t : List Char),
      FormatFloat f = c :: t ∧ (isDigit c = true ∨ c = '-') ∧
      scanNumber false false false (t ++ [rbrace]) = some (t, [rbrace]) ∧
      ParseFloat (String.mk (c :: t)) = (f, none) := by
  obtain ⟨h64, hexp⟩ := hf
  have hb : f.bits % 9223372036854775808 < infBits := by
    unfold infBits
    omega
  have hnt : NumberText
      (if f.bits % 9223372036854775808 = 0 then ['0']
       else fmtG (formatNat (shortest (f.bits % 9223372036854775808)).1)
        (((formatNat (shortest (f.bits % 9223372036854775808)).1).length : Int)
          + (shortest (f.bits % 9223372036854775808)).2))
      (f.bits % 9223372036854775808) := by
    split_ifs with h0
    · rw [h0]
      exact numberText_zero
    · exact numberText_fmtG _ hb
  have hparse := parseFloat_numberText _ _ hb hnt
  obtain ⟨d, rest, hbody, hd, hscan, _⟩ := hnt
  have hfmt : FormatFloat f
      = (if f.bits / 9223372036854775808 % 2 = 1 then ['-'] else []) ++ d :: rest := by
    rw [← hbody]
    unfold FormatFloat
    simp only [Nat.not_lt.mpr (Nat.le_of_lt hb), Nat.ne_of_lt hb, if_false, decide_eq_true_eq]
  by_cases hneg : f.bits / 9223372036854775808 % 2 = 1
  · rw [if_pos hneg] at hfmt
    refine ⟨'-', d :: rest, hfmt, Or.inr rfl, ?_, ?_⟩
    · rw [List.cons_append, scanNumber_digit d hd, hscan]
      rfl
    · rw [← hbody, hparse.2]
      have : 9223372036854775808 + f.bits % 9223372036854775808 = f.bits := by omega
      rw [this]
  · rw [if_neg hneg] at hfmt
    refine ⟨d, rest, hfmt, Or.inl hd, hscan, ?_⟩
    rw [← hbody, hparse.1]
    have : f.bits % 9223372036854775808 = f.bits := by omega
    rw [this]

end strconv

/-! ## The wire codec: the lexer on one object -/

namespace jlexer

theorem fetchLoop_number (r : Lexer) (c : Char) (cs t rest : List Char)
    (hc : isDigit c = true ∨ c = '-') (hw : r.wantSep = none)
    (hs : scanNumber false false false cs = some (t, rest)) :
    r.fetchLoop (c :: cs)
      = { r with Data := rest, atStart := false, kind := TokenKind.tokenNumber,
                 byteValue := c :: t } := by
  have key : ∀ x : Char, isDigit x = false → x ≠ '-' → c ≠ x := by
    intro x hx hm
    rcases hc with hd | rfl
    · exact isDigit_ne_of_not c x hd hx
    · exact fun e => hm e.symm
  have hsp : isSpace c = false := by
    unfold isSpace
    simp [key ' ' (by decide) (by decide), key (Char.ofNat 9) (by decide) (by decide),
      key (Char.ofNat 13) (by decide) (by decide), key (Char.ofNat 10) (by decide) (by decide)]
  unfold Lexer.fetchLoop
  rw [if_neg (by simp [key ':' (by decide) (by decide), key ',' (by decide) (by decide)]),
    if_neg (by simp [hsp]), if_neg (key dquote (by decide) (by decide)),
    if_neg (by simp [key lbrace (by decide) (by decide), key '[' (by decide) (by decide)]),
    if_neg (by simp [key rbrace (by decide) (by decide), key ']' (by decide) (by decide)]),
    if_pos hc, if_neg (by simp [hw])]
  simp only [hs]

theorem fetchLoop_colon (r : Lexer) (cs : List Char) (hw : r.wantSep = some ':') :
    r.fetchLoop (':' :: cs)
      = Lexer.fetchLoop { r with atStart := false, wantSep := none } cs := by
  rw [Lexer.fetchLoop]
  simp [hw]

theorem fetchLoop_comma (r : Lexer) (cs : List Char) (hw : r.wantSep = some ',') :
    r.fetchLoop (',' :: cs)
      = Lexer.fetchLoop { r with atStart := false, wantSep := none } cs := by
  rw [Lexer.fetchLoop]
  simp [hw]

theorem fetchLoop_dquote (r : Lexer) (cs : List Char) (hw : r.wantSep = none) :
    r.fetchLoop (dquote :: cs)
      = match scanString cs with
        | none =>
          Lexer.setError { r with Data := [], atStart := false } "unterminated string literal"
        | some p =>
          { r with Data := p.2, atStart := false, kind := TokenKind.tokenString,
                   byteValue := p.1 } := by
  rw [Lexer.fetchLoop]
  simp +decide [hw]

theorem fetchLoop_lbrace (r : Lexer) (cs : List Char) (hw : r.wantSep = none) :
    r.fetchLoop (lbrace :: cs)
      = { r with Data := cs, atStart := false, firstElement := true,
                 kind := TokenKind.tokenDelim, delimValue := some lbrace } := by
  rw [Lexer.fetchLoop]
  simp +decide [hw]

theorem fetchLoop_lbracket (r : Lexer) (cs : List Char) (hw : r.wantSep = none) :
    r.fetchLoop ('[' :: cs)
      = { r with Data := cs, atStart := false, firstElement := true,
                 kind := TokenKind.tokenDelim, delimValue := some '[' } := by
  rw [Lexer.fetchLoop]
  simp +decide [hw]

theorem fetchLoop_rbrace (r : Lexer) (cs : List Char)
    (h : r.firstElement = true ∨ r.wantSep = some ',') :
    r.fetchLoop (rbrace :: cs)
      = { r with Data := cs, atStart := false, wantSep := none,
                 kind := TokenKind.tokenDelim, delimValue := some rbrace } := by
  rw [Lexer.fetchLoop]
  rcases h with h | h <;> simp +decide [h]

theorem fetchLoop_rbracket (r : Lexer) (cs : List Char)
    (h : r.firstElement = true ∨ r.wantSep = some ',') :
    r.fetchLoop (']' :: cs)
      = { r with Data := cs, atStart := false, wantSep := none,
                 kind := TokenKind.tokenDelim, delimValue := some ']' } := by
  rw [Lexer.fetchLoop]
  rcases h with h | h <;> simp +decide [h]

end jlexer

namespace metrics

open jlexer jwriter

open easyjson (Lib)

theorem loop_id (lib : Lib) (fuel : Nat) (out : RequestMetric) (bv body d : List Char)
    (bb : Bool) (s : String)
    (hscan : scanString (body ++ dquote :: d) = some (body, d))
    (hdec : Lexer.decodeString body = some s) :
    easyjson2220f231DecodeGithubComWebkimruGoYandexMetricsInternalAppAgentMetrics1.loop lib
        (fuel + 1)
        (Lexer.ready ("\"id\":".data ++ (dquote :: (body ++ dquote :: d))) bv bb true none) out
      = easyjson2220f231DecodeGithubComWebkimruGoYandexMetricsInternalAppAgentMetrics1.loop lib
        fuel (Lexer.ready d body bb false (some ',')) { out with ID := s } := by
  have hk : Lexer.decodeString ['i', 'd'] = some "id" := rfl
  rw [easyjson2220f231DecodeGithubComWebkimruGoYandexMetricsInternalAppAgentMetrics1.loop]
  simp +decide [Lexer.ready, Lexer.IsDelim, Lexer.ensureToken, Lexer.FetchToken, Lexer.fetchLoop,
    Lexer.Ok, scanString, Lexer.UnsafeFieldName, Lexer.readString,
    Lexer.WantColon, Lexer.IsNull, Lexer.consume, Lexer.WantComma, hscan, hdec, hk]

theorem loop_type (lib : Lib) (fuel : Nat) (out : RequestMetric) (bv body d : List Char)
    (bb : Bool) (s : String)
    (hscan : scanString (body ++ dquote :: d) = some (body, d))
    (hdec : Lexer.decodeString body = some s) :
    easyjson2220f231DecodeGithubComWebkimruGoYandexMetricsInternalAppAgentMetrics1.loop lib
        (fuel + 1)
        (Lexer.ready (",\"type\":".data ++ (dquote :: (body ++ dquote :: d))) bv bb false
          (some ',')) out
      = easyjson2220f231DecodeGithubComWebkimruGoYandexMetricsInternalAppAgentMetrics1.loop lib
        fuel (Lexer.ready d body bb false (some ',')) { out with MType := s } := by
  have hk : Lexer.decodeString ['t', 'y', 'p', 'e'] = some "type" := rfl
  rw [easyjson2220f231DecodeGithubComWebkimruGoYandexMetricsInternalAppAgentMetrics1.loop]
  simp +decide [Lexer.ready, Lexer.IsDelim, Lexer.ensureToken, Lexer.FetchToken, Lexer.fetchLoop,
    Lexer.Ok, scanString, Lexer.UnsafeFieldName, Lexer.readString,
    Lexer.WantColon, Lexer.IsNull, Lexer.consume, Lexer.WantComma, hscan, hdec, hk]

theorem loop_delta (lib : Lib) (fuel : Nat) (out : RequestMetric) (bv t d : List Char)
    (c : Char) (bb : Bool) (n : Int)
    (hc : isDigit c = true ∨ c = '-')
    (hscan : scanNumber false false false (t ++ ',' :: d) = some (t, ',' :: d))
    (hparse : strconv.ParseIntValue (String.mk (c :: t)) = (n, none)) :
    easyjson2220f231DecodeGithubComWebkimruGoYandexMetricsInternalAppAgentMetrics1.loop lib
        (fuel + 1)
        (Lexer.ready (",\"delta\":".data ++ (c :: (t ++ ',' :: d))) bv bb false (some ',')) out
      = easyjson2220f231DecodeGithubComWebkimruGoYandexMetricsInternalAppAgentMetrics1.loop lib
        fuel (Lexer.ready (',' :: d) (c :: t) bb false (some ',')) { out with Delta := n } := by
  have hk : Lexer.decodeString ['d', 'e', 'l', 't', 'a'] = some "delta" := rfl
  have hnum := fun r hw => fetchLoop_number r c (t ++ ',' :: d) t (',' :: d) hc hw hscan
  rw [easyjson2220f231DecodeGithubComWebkimruGoYandexMetricsInternalAppAgentMetrics1.loop]
  simp +decide [Lexer.ready, Lexer.IsDelim, Lexer.ensureToken, Lexer.FetchToken,
    fetchLoop_colon, fetchLoop_comma, fetchLoop_dquote, hnum,
    Lexer.Ok, scanString, Lexer.UnsafeFieldName, Lexer.readString,
    Lexer.WantColon, Lexer.IsNull, Lexer.consume, Lexer.WantComma, hk,
    Lexer.readInt64, Lexer.number, hparse]

theorem loop_value (lib : Lib) (fuel : Nat) (out : RequestMetric) (bv t d : List Char)
    (c : Char) (bb : Bool) (f : Float64)
    (hc : isDigit c = true ∨ c = '-')
    (hscan : scanNumber false false false (t ++ rbrace :: d) = some (t, rbrace :: d))
    (hparse : strconv.ParseFloat (String.mk (c :: t)) = (f, none)) :
    easyjson2220f231DecodeGithubComWebkimruGoYandexMetricsInternalAppAgentMetrics1.loop lib
        (fuel + 1)
        (Lexer.ready (',' :: ("\"value\":".data ++ (c :: (t ++ rbrace :: d)))) bv bb false
          (some ',')) out
      = easyjson2220f231DecodeGithubComWebkimruGoYandexMetricsInternalAppAgentMetrics1.loop lib
        fuel (Lexer.ready (rbrace :: d) (c :: t) bb false (some ',')) { out with Value := f } := by
  have hk : Lexer.decodeString ['v', 'a', 'l', 'u', 'e'] = some "value" := rfl
  have hnum := fun r hw => fetchLoop_number r c (t ++ rbrace :: d) t (rbrace :: d) hc hw hscan
  rw [easyjson2220f231DecodeGithubComWebkimruGoYandexMetricsInternalAppAgentMetrics1.loop]
  simp +decide [Lexer.ready, Lexer.IsDelim, Lexer.ensureToken, Lexer.FetchToken,
    fetchLoop_colon, fetchLoop_comma, fetchLoop_dquote, hnum,
    Lexer.Ok, scanString, Lexer.UnsafeFieldName, Lexer.readString,
    Lexer.WantColon, Lexer.IsNull, Lexer.consume, Lexer.WantComma, hk,
    Lexer.readFloat64, Lexer.number, hparse]

theorem loop_end (lib : Lib) (fuel : Nat) (out : RequestMetric) (bv d : List Char) (bb : Bool) :
    easyjson2220f231DecodeGithubComWebkimruGoYandexMetricsInternalAppAgentMetrics1.loop lib
        (fuel + 1) (Lexer.ready (rbrace :: d) bv bb false (some ',')) out
      = (⟨d, false, TokenKind.tokenDelim, some rbrace, bv, bb, false, none, none⟩, out) := by
  rw [easyjson2220f231DecodeGithubComWebkimruGoYandexMetricsInternalAppAgentMetrics1.loop]
  simp +decide [Lexer.ready, Lexer.IsDelim, Lexer.ensureToken, Lexer.FetchToken, Lexer.fetchLoop,
    Lexer.Ok]

theorem formatInt_shape (n : Int) :
    ∃ (c : Char) (t : List Char), formatInt n = c :: t ∧ (isDigit c = true ∨ c = '-') ∧
      ∀ x ∈ t, isDigit x = true := by
  have hne := formatNatAux_ne_nil (n.natAbs + 1) n.natAbs (Nat.lt_succ_self _)
  have hdig := formatNatAux_digits (n.natAbs + 1) n.natAbs (Nat.lt_succ_self _)
  unfold formatInt formatNat
  by_cases hneg : n < 0
  · rw [if_pos hneg]
    exact ⟨'-', _, rfl, Or.inr rfl, hdig⟩
  · rw [if_neg hneg]
    cases hf : formatNatAux (n.natAbs + 1) n.natAbs [] with
    | nil => exact absurd hf hne
    | cons c cs =>
      rw [hf] at hdig
      exact ⟨c, cs, rfl, Or.inl (hdig c (List.mem_cons_self c cs)),
        fun x hx => hdig x (List.mem_cons_of_mem c hx)⟩

theorem object_text (m : RequestMetric) (d : List Char) :
    BuildBytes
        (easyjson2220f231EncodeGithubComWebkimruGoYandexMetricsInternalAppAgentMetrics1 m) ++ d
      = lbrace :: ("\"id\":".data ++ (quoteString m.ID ++ (",\"type\":".data ++
          (quoteString m.MType ++ (",\"delta\":".data ++ (formatInt m.Delta ++
            (",\"value\":".data ++ (strconv.FormatFloat m.Value ++ rbrace :: d)))))))) := by
  have hdrop : dropFirst ",\"id\":" = "\"id\":" := rfl
  simp [BuildBytes, Op.bytes,
    easyjson2220f231EncodeGithubComWebkimruGoYandexMetricsInternalAppAgentMetrics1, hdrop]

theorem loop_object (lib : Lib) (m : RequestMetric) (h : m.ReadsBack) (fuel : Nat)
    (hfuel : 5 ≤ fuel) (out : RequestMetric) (bv d : List Char) (bb : Bool) :
    easyjson2220f231DecodeGithubComWebkimruGoYandexMetricsInternalAppAgentMetrics1.loop lib fuel
        (Lexer.ready ("\"id\":".data ++ (quoteString m.ID ++ (",\"type\":".data ++
          (quoteString m.MType ++ (",\"delta\":".data ++ (formatInt m.Delta ++
            (",\"value\":".data ++ (strconv.FormatFloat m.Value ++ rbrace :: d))))))))
          bv bb true none) out
      = (⟨d, false, TokenKind.tokenDelim, some rbrace, strconv.FormatFloat m.Value, bb, false, none,
          none⟩, m) := by
  obtain ⟨hD, ⟨c, t, hF, hc, hsF, hpF⟩⟩ := h
  obtain ⟨cD, tD, hfD, hcD, hdigD⟩ := formatInt_shape m.Delta
  obtain ⟨f, rfl⟩ : ∃ f, fuel = f + 1 + 1 + 1 + 1 + 1 := ⟨fuel - 5, by omega⟩
  have hcomma : ",\"value\":".data = ',' :: "\"value\":".data := rfl
  have hpD : strconv.ParseIntValue (String.mk (cD :: tD)) = (m.Delta, none) := by
    rw [← hfD]
    exact strconv.parseIntValue_of_parseInt _ _ (parseInt_formatInt m.Delta hD)
  have hqI : quoteString m.ID = dquote :: (escapeString m.ID ++ [dquote]) := rfl
  have hqT : quoteString m.MType = dquote :: (escapeString m.MType ++ [dquote]) := rfl
  have scanF : ∀ X, scanNumber false false false (t ++ rbrace :: X) = some (t, rbrace :: X) := by
    intro X
    simpa using scanNumber_append (t ++ [rbrace]) X false false false t rbrace [] hsF
  rw [hqI, hqT, hF, hfD, hcomma]
  simp only [List.cons_append, List.append_assoc, List.nil_append]
  refine (loop_id lib _ out bv (escapeString m.ID) _ bb m.ID (scanString_escapeString _ _)
    (decodeString_escapeString _)).trans ?_
  refine (loop_type lib _ _ (escapeString m.ID) (escapeString m.MType) _ bb m.MType
    (scanString_escapeString _ _) (decodeString_escapeString _)).trans ?_
  refine (loop_delta lib _ _ (escapeString m.MType) tD _ cD bb m.Delta hcD
    (scanNumber_digits tD _ false false hdigD) hpD).trans ?_
  refine (loop_value lib _ _ (cD :: tD) t _ c bb m.Value hc (scanF _) hpF).trans ?_
  exact loop_end lib _ _ _ _ _

theorem decode_after_null (lib : Lib) (m : RequestMetric) (h : m.ReadsBack)
    (r : Lexer) (out : RequestMetric) (bv d : List Char) (bb : Bool)
    (hnull : r.IsNull
      = (⟨"\"id\":".data ++ (quoteString m.ID ++ (",\"type\":".data ++
          (quoteString m.MType ++ (",\"delta\":".data ++ (formatInt m.Delta ++
            (",\"value\":".data ++ (strconv.FormatFloat m.Value ++ rbrace :: d))))))),
          false, TokenKind.tokenDelim, some lbrace, bv, bb, true, none, none⟩, false)) :
    easyjson2220f231DecodeGithubComWebkimruGoYandexMetricsInternalAppAgentMetrics1 lib r out
      = (if r.IsStart = true then
            (Lexer.ready d (strconv.FormatFloat m.Value) bb false none).Consumed
          else Lexer.ready d (strconv.FormatFloat m.Value) bb false none, m) := by
  have hdelim : ∀ X : List Char,
      Lexer.Delim lbrace
        (⟨X, false, TokenKind.tokenDelim, some lbrace, bv, bb, true, none, none⟩ : Lexer)
        = Lexer.ready X bv bb true none := fun _ => rfl
  have hclose : Lexer.Delim rbrace
      (⟨d, false, TokenKind.tokenDelim, some rbrace, strconv.FormatFloat m.Value, bb, false, none,
        none⟩ : Lexer)
      = Lexer.ready d (strconv.FormatFloat m.Value) bb false none := rfl
  unfold easyjson2220f231DecodeGithubComWebkimruGoYandexMetricsInternalAppAgentMetrics1
  rw [hnull]
  simp only [Bool.false_eq_true, if_false]
  rw [hdelim, loop_object lib m h _ (by simp [Lexer.ready]) out bv d bb, hclose]

theorem marshal_bytes (m : RequestMetric) :
    BuildBytes (RequestMetric.MarshalJSON m).1
      = lbrace :: ("\"id\":".data ++ (quoteString m.ID ++ (",\"type\":".data ++
          (quoteString m.MType ++ (",\"delta\":".data ++ (formatInt m.Delta ++
            (",\"value\":".data ++ (strconv.FormatFloat m.Value ++ [rbrace])))))))) := by
  have := object_text m []
  rw [List.append_nil] at this
  exact this

theorem unmarshal_marshal_one (lib : Lib) (m : RequestMetric) (h : m.ReadsBack)
    (v : RequestMetric) :
    RequestMetric.UnmarshalJSON lib (BuildBytes (RequestMetric.MarshalJSON m).1) v
      = (m, none) := by
  unfold RequestMetric.UnmarshalJSON
  rw [marshal_bytes]
  rw [decode_after_null lib m h _ v [] [] false
    (by simp [Lexer.IsNull, Lexer.ensureToken, Lexer.FetchToken, Lexer.new, Lexer.Ok,
      fetchLoop_lbrace])]
  simp [Lexer.IsStart, Lexer.new, Lexer.Consumed, Lexer.ready, Lexer.Ok, Lexer.Error]

/-! ## The wire codec: the lexer on a list of objects -/

theorem objectTail_length (m : RequestMetric) (d : List Char) :
    d.length < (objectTail m d).length := by
  simp [objectTail, List.length_append]
  omega

theorem buildBytes_append (a b : List jwriter.Op) :
    BuildBytes (a ++ b) = BuildBytes a ++ BuildBytes b := by
  simp [BuildBytes, List.flatMap_append]

theorem first_text (x : RequestMetric) (xs : List RequestMetric) (d : List Char) :
    BuildBytes
        (easyjson2220f231EncodeGithubComWebkimruGoYandexMetricsInternalAppAgentMetrics.loop 0
          (x :: xs)) ++ d
      = lbrace :: objectTail x (BuildBytes
          (easyjson2220f231EncodeGithubComWebkimruGoYandexMetricsInternalAppAgentMetrics.loop 1
            xs) ++ d) := by
  rw [easyjson2220f231EncodeGithubComWebkimruGoYandexMetricsInternalAppAgentMetrics.loop]
  simp only [Nat.lt_irrefl, if_false, List.nil_append, buildBytes_append, List.append_assoc,
    gt_iff_lt]
  exact object_text x _

theorem later_text (i : Nat) (hi : 0 < i) (x : RequestMetric)
    (xs : List RequestMetric) (d : List Char) :
    BuildBytes
        (easyjson2220f231EncodeGithubComWebkimruGoYandexMetricsInternalAppAgentMetrics.loop i
          (x :: xs)) ++ d
      = ',' :: lbrace :: objectTail x (BuildBytes
          (easyjson2220f231EncodeGithubComWebkimruGoYandexMetricsInternalAppAgentMetrics.loop
            (i + 1) xs) ++ d) := by
  rw [easyjson2220f231EncodeGithubComWebkimruGoYandexMetricsInternalAppAgentMetrics.loop]
  simp only [gt_iff_lt, hi, if_true, buildBytes_append, List.append_assoc]
  have hc : BuildBytes [jwriter.Op.rawByte ','] = [','] := rfl
  rw [hc, List.singleton_append, object_text x _]
  rfl

theorem text_length (xs : List RequestMetric) :
    ∀ (i : Nat) (d : List Char), xs.length + d.length ≤
      (BuildBytes
        (easyjson2220f231EncodeGithubComWebkimruGoYandexMetricsInternalAppAgentMetrics.loop i
          xs) ++ d).length := by
  induction xs with
  | nil =>
    intro i d
    simp [easyjson2220f231EncodeGithubComWebkimruGoYandexMetricsInternalAppAgentMetrics.loop,
      BuildBytes]
  | cons x xs ih =>
    intro i d
    by_cases hi : 0 < i
    · rw [later_text i hi]
      have h1 := objectTail_length x (BuildBytes
        (easyjson2220f231EncodeGithubComWebkimruGoYandexMetricsInternalAppAgentMetrics.loop
          (i + 1) xs) ++ d)
      have h2 := ih (i + 1) d
      simp only [List.length_cons]
      omega
    · have hi0 : i = 0 := by omega
      subst hi0
      rw [first_text]
      have h1 := objectTail_length x (BuildBytes
        (easyjson2220f231EncodeGithubComWebkimruGoYandexMetricsInternalAppAgentMetrics.loop
          1 xs) ++ d)
      have h2 := ih 1 d
      simp only [List.length_cons]
      omega

theorem element_decode (lib : Lib) (x : RequestMetric) (hx : x.ReadsBack)
    (rest bv : List Char) (bb : Bool) :
    RequestMetric.UnmarshalEasyJSON lib
        ⟨objectTail x rest, false, TokenKind.tokenDelim, some lbrace, bv, bb, true, none,
          none⟩ RequestMetric.zero
      = (Lexer.ready rest (strconv.FormatFloat x.Value) bb false none, x) := by
  unfold RequestMetric.UnmarshalEasyJSON
  rw [decode_after_null lib x hx
    ⟨objectTail x rest, false, TokenKind.tokenDelim, some lbrace, bv, bb, true, none, none⟩
    RequestMetric.zero bv rest bb rfl]
  rfl

theorem slice_loop_congr (lib : Lib) (fuel : Nat) (a b : Lexer) (acc : List RequestMetric)
    (h : a.IsDelim ']' = b.IsDelim ']') :
    easyjson2220f231DecodeGithubComWebkimruGoYandexMetricsInternalAppAgentMetrics.loop lib
        (fuel + 1) a acc
      = easyjson2220f231DecodeGithubComWebkimruGoYandexMetricsInternalAppAgentMetrics.loop lib
        (fuel + 1) b acc := by
  rw [easyjson2220f231DecodeGithubComWebkimruGoYandexMetricsInternalAppAgentMetrics.loop,
    easyjson2220f231DecodeGithubComWebkimruGoYandexMetricsInternalAppAgentMetrics.loop, h]

theorem slice_step_fetched (lib : Lib) (x : RequestMetric) (hx : x.ReadsBack)
    (rest bv : List Char) (bb : Bool) (fuel : Nat) (acc : List RequestMetric) :
    easyjson2220f231DecodeGithubComWebkimruGoYandexMetricsInternalAppAgentMetrics.loop lib
        (fuel + 1)
        ⟨objectTail x rest, false, TokenKind.tokenDelim, some lbrace, bv, bb, true, none,
          none⟩ acc
      = easyjson2220f231DecodeGithubComWebkimruGoYandexMetricsInternalAppAgentMetrics.loop lib
        fuel (Lexer.ready rest (strconv.FormatFloat x.Value) bb false (some ',')) (acc ++ [x]) := by
  have hD : Lexer.IsDelim ']'
      (⟨objectTail x rest, false, TokenKind.tokenDelim, some lbrace, bv, bb, true, none,
        none⟩ : Lexer)
      = (⟨objectTail x rest, false, TokenKind.tokenDelim, some lbrace, bv, bb, true, none,
        none⟩, false) := rfl
  rw [easyjson2220f231DecodeGithubComWebkimruGoYandexMetricsInternalAppAgentMetrics.loop, hD]
  simp only [Bool.false_eq_true, if_false]
  rw [element_decode lib x hx]
  rfl

theorem slice_step_comma (lib : Lib) (x : RequestMetric) (hx : x.ReadsBack)
    (rest bv : List Char) (bb : Bool) (fuel : Nat) (acc : List RequestMetric) :
    easyjson2220f231DecodeGithubComWebkimruGoYandexMetricsInternalAppAgentMetrics.loop lib
        (fuel + 1)
        (Lexer.ready (',' :: lbrace :: objectTail x rest) bv bb false (some ',')) acc
      = easyjson2220f231DecodeGithubComWebkimruGoYandexMetricsInternalAppAgentMetrics.loop lib
        fuel (Lexer.ready rest (strconv.FormatFloat x.Value) bb false (some ',')) (acc ++ [x]) := by
  rw [← slice_step_fetched lib x hx rest bv bb fuel acc]
  apply slice_loop_congr
  simp [Lexer.IsDelim, Lexer.ensureToken, Lexer.FetchToken, Lexer.Ok, Lexer.ready,
    fetchLoop_comma, fetchLoop_lbrace]

theorem slice_step_first (lib : Lib) (x : RequestMetric) (hx : x.ReadsBack)
    (rest bv : List Char) (bb : Bool) (fuel : Nat) (acc : List RequestMetric) :
    easyjson2220f231DecodeGithubComWebkimruGoYandexMetricsInternalAppAgentMetrics.loop lib
        (fuel + 1) (Lexer.ready (lbrace :: objectTail x rest) bv bb true none) acc
      = easyjson2220f231DecodeGithubComWebkimruGoYandexMetricsInternalAppAgentMetrics.loop lib
        fuel (Lexer.ready rest (strconv.FormatFloat x.Value) bb false (some ',')) (acc ++ [x]) := by
  rw [← slice_step_fetched lib x hx rest bv bb fuel acc]
  apply slice_loop_congr
  simp [Lexer.IsDelim, Lexer.ensureToken, Lexer.FetchToken, Lexer.Ok, Lexer.ready,
    fetchLoop_lbrace]

theorem slice_end_later (lib : Lib) (d bv : List Char) (bb : Bool) (fuel : Nat)
    (acc : List RequestMetric) :
    easyjson2220f231DecodeGithubComWebkimruGoYandexMetricsInternalAppAgentMetrics.loop lib
        (fuel + 1) (Lexer.ready (']' :: d) bv bb false (some ',')) acc
      = (⟨d, false, TokenKind.tokenDelim, some ']', bv, bb, false, none, none⟩, acc) := by
  rw [easyjson2220f231DecodeGithubComWebkimruGoYandexMetricsInternalAppAgentMetrics.loop]
  simp [Lexer.IsDelim, Lexer.ensureToken, Lexer.FetchToken, Lexer.Ok, Lexer.ready,
    fetchLoop_rbracket]

theorem slice_end_first (lib : Lib) (d bv : List Char) (bb : Bool) (fuel : Nat)
    (acc : List RequestMetric) :
    easyjson2220f231DecodeGithubComWebkimruGoYandexMetricsInternalAppAgentMetrics.loop lib
        (fuel + 1) (Lexer.ready (']' :: d) bv bb true none) acc
      = (⟨d, false, TokenKind.tokenDelim, some ']', bv, bb, true, none, none⟩, acc) := by
  rw [easyjson2220f231DecodeGithubComWebkimruGoYandexMetricsInternalAppAgentMetrics.loop]
  simp [Lexer.IsDelim, Lexer.ensureToken, Lexer.FetchToken, Lexer.Ok, Lexer.ready,
    fetchLoop_rbracket]

theorem slice_loop_later (lib : Lib) (xs : List RequestMetric) :
    (∀ m ∈ xs, m.ReadsBack) →
    ∀ (i : Nat), 0 < i → ∀ (fuel : Nat), xs.length < fuel →
    ∀ (acc : List RequestMetric) (bv d : List Char) (bb : Bool),
    ∃ bv1 : List Char,
      easyjson2220f231DecodeGithubComWebkimruGoYandexMetricsInternalAppAgentMetrics.loop lib fuel
          (Lexer.ready (BuildBytes
            (easyjson2220f231EncodeGithubComWebkimruGoYandexMetricsInternalAppAgentMetrics.loop
              i xs) ++ ']' :: d) bv bb false (some ',')) acc
        = (⟨d, false, TokenKind.tokenDelim, some ']', bv1, bb, false, none, none⟩,
            acc ++ xs) := by
  induction xs with
  | nil =>
    intro _ i _ fuel hfuel acc bv d bb
    obtain ⟨f, rfl⟩ : ∃ f, fuel = f + 1 := ⟨fuel - 1, by omega⟩
    refine ⟨bv, ?_⟩
    rw [List.append_nil]
    exact slice_end_later lib d bv bb f acc
  | cons x xs ih =>
    intro hxs i hi fuel hfuel acc bv d bb
    obtain ⟨f, rfl⟩ : ∃ f, fuel = f + 1 := ⟨fuel - 1, by omega⟩
    have hf : xs.length < f := by
      simp only [List.length_cons] at hfuel
      omega
    have hx := hxs x (List.mem_cons_self x xs)
    obtain ⟨bv1, h1⟩ := ih (fun m hm => hxs m (List.mem_cons_of_mem x hm)) (i + 1)
      (Nat.succ_pos i) f hf (acc ++ [x]) (strconv.FormatFloat x.Value) d bb
    refine ⟨bv1, ?_⟩
    rw [later_text i hi, slice_step_comma lib x hx, h1, List.append_assoc]
    rfl

theorem slice_loop_all (lib : Lib) (xs : List RequestMetric)
    (hxs : ∀ m ∈ xs, m.ReadsBack) (a : Lexer) (d : List Char) (fuel : Nat)
    (hfuel : xs.length < fuel)
    (ha : a.IsDelim ']' = (Lexer.ready (BuildBytes
      (easyjson2220f231EncodeGithubComWebkimruGoYandexMetricsInternalAppAgentMetrics.loop 0 xs)
        ++ ']' :: d) [] false true none).IsDelim ']') :
    ∃ (bv1 : List Char) (fe : Bool),
      easyjson2220f231DecodeGithubComWebkimruGoYandexMetricsInternalAppAgentMetrics.loop lib fuel
          a []
        = (⟨d, false, TokenKind.tokenDelim, some ']', bv1, false, fe, none, none⟩, xs) := by
  obtain ⟨f, rfl⟩ : ∃ f, fuel = f + 1 := ⟨fuel - 1, by omega⟩
  rw [slice_loop_congr lib f a _ [] ha]
  cases xs with
  | nil => exact ⟨[], true, slice_end_first lib d [] false f []⟩
  | cons x xs =>
    have hf : xs.length < f := by
      simp only [List.length_cons] at hfuel
      omega
    have hx := hxs x (List.mem_cons_self x xs)
    obtain ⟨bv1, h1⟩ := slice_loop_later lib xs (fun m hm => hxs m (List.mem_cons_of_mem x hm))
      1 (Nat.succ_pos 0) f hf ([] ++ [x]) (strconv.FormatFloat x.Value) d false
    refine ⟨bv1, false, ?_⟩
    rw [first_text, slice_step_first lib x hx, h1]
    rfl

theorem isDelim_twice (xs : List RequestMetric) (d : List Char) :
    ((Lexer.ready (BuildBytes
        (easyjson2220f231EncodeGithubComWebkimruGoYandexMetricsInternalAppAgentMetrics.loop 0 xs)
          ++ ']' :: d) [] false true none).IsDelim ']').1.IsDelim ']'
      = (Lexer.ready (BuildBytes
        (easyjson2220f231EncodeGithubComWebkimruGoYandexMetricsInternalAppAgentMetrics.loop 0 xs)
          ++ ']' :: d) [] false true none).IsDelim ']' ∧
    xs.length < ((Lexer.ready (BuildBytes
        (easyjson2220f231EncodeGithubComWebkimruGoYandexMetricsInternalAppAgentMetrics.loop 0 xs)
          ++ ']' :: d) [] false true none).IsDelim ']').1.Data.length + 1 := by
  cases xs with
  | nil =>
    have e : (Lexer.ready (BuildBytes
        (easyjson2220f231EncodeGithubComWebkimruGoYandexMetricsInternalAppAgentMetrics.loop 0 [])
          ++ ']' :: d) [] false true none).IsDelim ']'
        = (⟨d, false, TokenKind.tokenDelim, some ']', [], false, true, none, none⟩, true) := by
      simp [easyjson2220f231EncodeGithubComWebkimruGoYandexMetricsInternalAppAgentMetrics.loop,
        BuildBytes, Lexer.IsDelim, Lexer.ensureToken, Lexer.FetchToken, Lexer.Ok, Lexer.ready,
        fetchLoop_rbracket]
    rw [e]
    exact ⟨rfl, by simp⟩
  | cons x xs =>
    have e : (Lexer.ready (BuildBytes
        (easyjson2220f231EncodeGithubComWebkimruGoYandexMetricsInternalAppAgentMetrics.loop 0
          (x :: xs)) ++ ']' :: d) [] false true none).IsDelim ']'
        = (⟨objectTail x (BuildBytes
            (easyjson2220f231EncodeGithubComWebkimruGoYandexMetricsInternalAppAgentMetrics.loop 1
              xs) ++ ']' :: d), false, TokenKind.tokenDelim, some lbrace, [], false, true, none,
            none⟩, false) := by
      rw [first_text]
      simp +decide [Lexer.IsDelim, Lexer.ensureToken, Lexer.FetchToken, Lexer.Ok, Lexer.ready,
        fetchLoop_lbrace]
    rw [e]
    refine ⟨rfl, ?_⟩
    have h1 := objectTail_length x (BuildBytes
      (easyjson2220f231EncodeGithubComWebkimruGoYandexMetricsInternalAppAgentMetrics.loop 1
        xs) ++ ']' :: d)
    have h2 := text_length xs 1 (']' :: d)
    simp only [List.length_cons] at h2 ⊢
    omega

theorem unmarshal_marshal_nil (lib : Lib) (target : RequestMetricSlice) :
    RequestMetricSlice.UnmarshalJSON lib
        (BuildBytes (RequestMetricSlice.MarshalJSON none).1) target
      = (none, none) := by
  rfl

theorem unmarshal_marshal_list (lib : Lib) (xs : List RequestMetric)
    (hxs : ∀ m ∈ xs, m.ReadsBack) (target : RequestMetricSlice) :
    RequestMetricSlice.UnmarshalJSON lib
        (BuildBytes (RequestMetricSlice.MarshalJSON (some xs)).1) target
      = (some xs, none) := by
  have hbytes : BuildBytes (RequestMetricSlice.MarshalJSON (some xs)).1
      = '[' :: (BuildBytes
        (easyjson2220f231EncodeGithubComWebkimruGoYandexMetricsInternalAppAgentMetrics.loop 0 xs)
          ++ [']']) := by
    simp [RequestMetricSlice.MarshalJSON,
      easyjson2220f231EncodeGithubComWebkimruGoYandexMetricsInternalAppAgentMetrics,
      buildBytes_append, BuildBytes, Op.bytes]
  have hnull : ∀ t : List Char, (Lexer.new ('[' :: t)).IsNull
      = (⟨t, false, TokenKind.tokenDelim, some '[', [], false, true, none, none⟩, false) := by
    intro t
    simp [Lexer.IsNull, Lexer.ensureToken, Lexer.FetchToken, Lexer.new, Lexer.Ok,
      fetchLoop_lbracket]
  have hdelim : ∀ t : List Char, Lexer.Delim '['
      (⟨t, false, TokenKind.tokenDelim, some '[', [], false, true, none, none⟩ : Lexer)
      = Lexer.ready t [] false true none := fun _ => rfl
  obtain ⟨hidem, hlen⟩ := isDelim_twice xs []
  have hlenE : xs.length < (Lexer.ready (BuildBytes
      (easyjson2220f231EncodeGithubComWebkimruGoYandexMetricsInternalAppAgentMetrics.loop 0 xs)
        ++ [']']) [] false true none).Data.length + 1 := by
    have h2 := text_length xs 0 [']']
    simp only [Lexer.ready, List.length_singleton] at h2 ⊢
    omega
  unfold RequestMetricSlice.UnmarshalJSON
    easyjson2220f231DecodeGithubComWebkimruGoYandexMetricsInternalAppAgentMetrics
  rw [hbytes, hnull]
  simp only [Bool.false_eq_true, if_false, hdelim]
  by_cases ht : target = none
  · simp only [ht, if_true]
    obtain ⟨bv1, fe, hloop⟩ := slice_loop_all lib xs hxs _ [] _ hlen hidem
    rw [hloop]
    simp [Lexer.IsStart, Lexer.new, Lexer.Delim, Lexer.ensureToken, Lexer.Ok, Lexer.consume,
      Lexer.Consumed, Lexer.Error]
  · simp only [ht, if_false]
    obtain ⟨bv1, fe, hloop⟩ := slice_loop_all lib xs hxs _ [] _ hlenE rfl
    rw [hloop]
    simp [Lexer.IsStart, Lexer.new, Lexer.Delim, Lexer.ensureToken, Lexer.Ok, Lexer.consume,
      Lexer.Consumed, Lexer.Error]

/-! ## The wire codec: encode, then decode -/

theorem readsBack_of_isFinite (m : RequestMetric) (hd : InInt64 m.Delta)
    (hv : strconv.IsFinite m.Value) : m.ReadsBack :=
  ⟨hd, strconv.formatFloat_reads_back m.Value hv⟩

/-- C11 (counterexample): the valid metrics with type "gauge" whose value is
NaN, `+Inf` or `-Inf` are written as objects whose "value" is the text `NaN`,
`+Inf` or `-Inf`; decoding that output into a zero value fails with an error
and leaves the value at 0. -/
theorem unmarshal_marshal_nan_fails :
    (⟨"Alloc", "gauge", 0, ⟨9221120237041090561⟩⟩ : RequestMetric).Valid ∧
    String.mk (BuildBytes
        (RequestMetric.MarshalJSON ⟨"Alloc", "gauge", 0, ⟨9221120237041090561⟩⟩).1)
      = "\x7b\"id\":\"Alloc\",\"type\":\"gauge\",\"delta\":0,\"value\":NaN\x7d" ∧
    RequestMetric.UnmarshalJSON easyjson.noSkip
        (BuildBytes
          (RequestMetric.MarshalJSON ⟨"Alloc", "gauge", 0, ⟨9221120237041090561⟩⟩).1)
        RequestMetric.zero
      = (⟨"Alloc", "gauge", 0, ⟨0⟩⟩, some "syntax error") ∧
    String.mk (BuildBytes
        (RequestMetric.MarshalJSON ⟨"Alloc", "gauge", 0, ⟨9218868437227405312⟩⟩).1)
      = "\x7b\"id\":\"Alloc\",\"type\":\"gauge\",\"delta\":0,\"value\":+Inf\x7d" ∧
    RequestMetric.UnmarshalJSON easyjson.noSkip
        (BuildBytes
          (RequestMetric.MarshalJSON ⟨"Alloc", "gauge", 0, ⟨9218868437227405312⟩⟩).1)
        RequestMetric.zero
      = (⟨"Alloc", "gauge", 0, ⟨0⟩⟩, some "syntax error") ∧
    String.mk (BuildBytes
        (RequestMetric.MarshalJSON ⟨"Alloc", "gauge", 0, ⟨18442240474082181120⟩⟩).1)
      = "\x7b\"id\":\"Alloc\",\"type\":\"gauge\",\"delta\":0,\"value\":-Inf\x7d" ∧
    RequestMetric.UnmarshalJSON easyjson.noSkip
        (BuildBytes
          (RequestMetric.MarshalJSON ⟨"Alloc", "gauge", 0, ⟨18442240474082181120⟩⟩).1)
        RequestMetric.zero
      = (⟨"Alloc", "gauge", 0, ⟨0⟩⟩, some "syntax error") := by
  refine ⟨Or.inl rfl, by decide, by decide, by decide, by decide, by decide, by decide⟩

/-- C11 (amended): for every list of metrics whose `Delta` is an `int64` and
whose `Value` is finite, neither NaN nor an infinity, and so for every list of
valid such metrics, decoding what the encoder wrote succeeds and gives back
the same value: `UnmarshalJSON` of `MarshalJSON(m)` into any value, the zero
value included, yields `m` with a nil error;
`RequestMetricSlice.UnmarshalJSON` of the encoded list into any slice yields
the same metrics in the same order; and the nil slice, written as `null`, is
read back as nil. -/
theorem unmarshal_marshal_round_trip (lib : Lib) (s : List RequestMetric)
    (hs : ∀ m ∈ s, InInt64 m.Delta ∧ strconv.IsFinite m.Value) :
    (∀ m ∈ s, ∀ v : RequestMetric,
      RequestMetric.UnmarshalJSON lib (BuildBytes (RequestMetric.MarshalJSON m).1) v
        = (m, none)) ∧
    (∀ target : RequestMetricSlice,
      RequestMetricSlice.UnmarshalJSON lib
          (BuildBytes (RequestMetricSlice.MarshalJSON (some s)).1) target
        = (some s, none)) ∧
    (∀ target : RequestMetricSlice,
      RequestMetricSlice.UnmarshalJSON lib
          (BuildBytes (RequestMetricSlice.MarshalJSON none).1) target
        = (none, none)) :=
  ⟨fun m hm v => unmarshal_marshal_one lib m
      (readsBack_of_isFinite m (hs m hm).1 (hs m hm).2) v,
    fun target => unmarshal_marshal_list lib s
      (fun m hm => readsBack_of_isFinite m (hs m hm).1 (hs m hm).2) target,
    fun target => unmarshal_marshal_nil lib target⟩

/-- C11 (witness): the amended statement for the list of the gauge
`Alloc = 36.6` and the counter `PollCount`, whose delta is the smallest
`int64`, decoded into a nil slice. -/
theorem unmarshal_marshal_round_trip_witness :
    (∀ m ∈ [(⟨"Alloc", "gauge", 0, ⟨4630347809383304397⟩⟩ : RequestMetric),
        ⟨"PollCount", "counter", -9223372036854775808, ⟨0⟩⟩],
      InInt64 m.Delta ∧ strconv.IsFinite m.Value) ∧
    RequestMetricSlice.UnmarshalJSON easyjson.noSkip
        (BuildBytes (RequestMetricSlice.MarshalJSON
          (some [⟨"Alloc", "gauge", 0, ⟨4630347809383304397⟩⟩,
            ⟨"PollCount", "counter", -9223372036854775808, ⟨0⟩⟩])).1) none
      = (some [⟨"Alloc", "gauge", 0, ⟨4630347809383304397⟩⟩,
          ⟨"PollCount", "counter", -9223372036854775808, ⟨0⟩⟩], none) :=
  have hs : ∀ m ∈ [(⟨"Alloc", "gauge", 0, ⟨4630347809383304397⟩⟩ : RequestMetric),
      ⟨"PollCount", "counter", -9223372036854775808, ⟨0⟩⟩],
      InInt64 m.Delta ∧ strconv.IsFinite m.Value := by
    intro m hm
    simp only [List.mem_cons, List.mem_singleton, List.not_mem_nil, or_false] at hm
    rcases hm with rfl | rfl
    · exact ⟨by decide, by decide⟩
    · exact ⟨by decide, by decide⟩
  ⟨hs, (unmarshal_marshal_round_trip easyjson.noSkip _ hs).2.1 none⟩

end metrics
